import Mathlib

/-!
# NoteSet: a fixed-capacity set of held notes

Shallow embedding of `NoteSet.h` / `NoteSet.cpp`.

* A `byte` is a `Nat`; the places where the C++ arithmetic can leave the
  byte range (`--size`, `++size`, `size - index - 1`) carry an explicit
  `% 256`.
* The arrays `notes[SET_SIZE + 1]` and `sorted_idx[SET_SIZE + 1]` are lists.
  A read outside the list gives a zero cell and a write outside it is dropped;
  the C++ leaves both undefined.
* A `NoteInfo&` result is the index of the slot it refers to; `NoteSet.note`
  (the accessor `note(index)` of the source) reads the slot.
* A `while` loop is a recursive function with fuel that returns `none` when
  the fuel runs out, so a walk that never leaves a cycle has no result.
-/

/-- Number of keys tracked at once (`#define SET_SIZE 10`). -/
def SET_SIZE : Nat := 10

/-- Pitch value of an empty slot (`#define EMPTY_NOTE 0xff`). -/
def EMPTY_NOTE : Nat := 0xff

/-- Priority flag: the most recently pressed note. -/
def NOTE_PRIORITY_LAST : Nat := 1

/-- Priority flag: the lowest pitch. -/
def NOTE_PRIORITY_LOW : Nat := 2

/-- Priority flag: the highest pitch. -/
def NOTE_PRIORITY_HIGH : Nat := 3

/-- One slot of the pool (`struct NoteInfo`). -/
structure NoteInfo where
  note : Nat
  velocity : Nat
  next_idx : Nat
  deriving DecidableEq, Repr

/-- Private storage of `class NoteSet`; `capacity` is the constant below. -/
structure NoteSet where
  size : Nat
  notes : List NoteInfo
  root_idx : Nat
  sorted_idx : List Nat
  the_priority : Nat
  last_played : Nat
  deriving DecidableEq, Repr

namespace NoteSet

/-- Member `byte capacity = SET_SIZE`, never assigned afterwards. -/
def capacity : Nat := SET_SIZE

/-- Read of `notes[i]` on a bare array. -/
def rd (ns : List NoteInfo) (i : Nat) : NoteInfo := ns.getD i ⟨0, 0, 0⟩

/-- Accessor `note(index)`: the slot `notes[index]`. -/
def note (s : NoteSet) (index : Nat) : NoteInfo := rd s.notes index

/-- Read of `sorted_idx[i]`. -/
def sorted (s : NoteSet) (i : Nat) : Nat := s.sorted_idx.getD i 0

/-- Shape of the C++ object: both arrays have `SET_SIZE + 1` entries. -/
def WellFormed (s : NoteSet) : Prop :=
  s.notes.length = SET_SIZE + 1 ∧ s.sorted_idx.length = SET_SIZE + 1

instance (s : NoteSet) : Decidable (WellFormed s) := by
  unfold WellFormed
  exact inferInstance

/-- Function `init(priority)`, applied to whatever the object held before. -/
def init (s : NoteSet) (priority : Nat) : NoteSet :=
  -- memset(notes + 1, 0, sizeof(NoteInfo) * capacity)
  let notes1 := (List.range' 1 capacity).foldl (fun ns i => ns.set i ⟨0, 0, 0⟩) s.notes
  -- memset(sorted_idx + 1, 0, capacity)
  let sorted1 := (List.range' 1 capacity).foldl (fun l i => l.set i 0) s.sorted_idx
  -- for (i = 0; i <= capacity; ++i) notes[i].note = EMPTY_NOTE
  let notes2 := (List.range (capacity + 1)).foldl
    (fun ns i => ns.set i { rd ns i with note := EMPTY_NOTE }) notes1
  { size := 0, notes := notes2, root_idx := 0, sorted_idx := sorted1,
    the_priority := priority, last_played := EMPTY_NOTE }

/-- The `while (current)` loop of `note_off`: the pair `(current, previous)`
at loop exit, `none` when the fuel is used up. -/
def note_off_find (ns : List NoteInfo) (n : Nat) : Nat → Nat → Nat → Option (Nat × Nat)
  | 0, _, _ => none
  | fuel + 1, current, previous =>
    if current = 0 then some (current, previous)
    else if (rd ns current).note = n then some (current, previous)
    else note_off_find ns n fuel (rd ns current).next_idx current

/-- Inner loop of `note_off`: `for (j = i; j < size - 1; ++j)
sorted_idx[j] = sorted_idx[j + 1]`. -/
def shift_left (l : List Nat) (size i : Nat) : List Nat :=
  (List.range' i (size - 1 - i)).foldl (fun a j => a.set j (a.getD (j + 1) 0)) l

/-- Removal of `current` from the sorted list in `note_off`: the first `i < size`
with `sorted_idx[i] == current` is closed by `shift_left`. -/
def sorted_remove (l : List Nat) (size current : Nat) : List Nat :=
  match (List.range size).find? (fun i => l.getD i 0 == current) with
  | some i => shift_left l size i
  | none => l

/-- Body of `note_off` after the chain walk ended at `(current, previous)`. -/
def note_off_at (s : NoteSet) (n current previous : Nat) : NoteSet :=
  let s1 : NoteSet :=
    if current ≠ 0 then
      let nxt := (rd s.notes current).next_idx
      let notes1 :=
        if previous ≠ 0 then
          s.notes.set previous { rd s.notes previous with next_idx := nxt }
        else s.notes
      let root1 := if previous ≠ 0 then s.root_idx else nxt
      let sorted1 := sorted_remove s.sorted_idx s.size current
      let notes2 := notes1.set current { rd notes1 current with next_idx := 0 }
      let notes3 := notes2.set current { rd notes2 current with note := EMPTY_NOTE }
      let notes4 := notes3.set current { rd notes3 current with velocity := 0 }
      { s with notes := notes4, root_idx := root1, sorted_idx := sorted1,
               size := (s.size + 255) % 256 }
    else s
  { s1 with last_played := if n = s.last_played then EMPTY_NOTE else s1.last_played }

/-- Function `note_off(note)`. The walk gets 256 units of fuel: `current` is a
byte, so a walk of 256 steps that has not stopped is inside a cycle. -/
def note_off (s : NoteSet) (n : Nat) : Option NoteSet :=
  match note_off_find s.notes n 256 s.root_idx 0 with
  | none => none
  | some (current, previous) => some (note_off_at s n current previous)

/-- Eviction scan of `note_on`: the pitch of the last slot in `1..capacity`
whose `next_idx` is 0, or 1 when there is none. -/
def evict_scan (ns : List NoteInfo) : Nat :=
  (List.range' 1 capacity).foldl
    (fun least i => if (rd ns i).next_idx = 0 then (rd ns i).note else least) 1

/-- Free-slot scan of `note_on`: the first slot in `1..capacity` with an empty
pitch, or 1 when there is none. -/
def find_free (ns : List NoteInfo) : Nat :=
  match (List.range' 1 capacity).find? (fun i => (rd ns i).note == EMPTY_NOTE) with
  | some i => i
  | none => 1

/-- Inner loop of the sorted insertion: `for (j = size; j > i; --j)
sorted_idx[j] = sorted_idx[j - 1]`. -/
def shift_right (l : List Nat) (size i : Nat) : List Nat :=
  (List.range' (i + 1) (size - i)).foldr (fun j a => a.set j (a.getD (j - 1) 0)) l

/-- Sorted insertion of `note_on`: the slot goes before the first entry with a
larger pitch, or at position `size` when the scan finds none and `free_slot`
is still non-zero. -/
def sorted_insert (ns : List NoteInfo) (l : List Nat) (size n free_slot : Nat) : List Nat :=
  match (List.range size).find? (fun i => decide ((rd ns (l.getD i 0)).note > n)) with
  | some i => (shift_right l size i).set i free_slot
  | none => if free_slot ≠ 0 then l.set size free_slot else l

/-- Tail of `note_on`, from the free-slot scan on. -/
def note_on_insert (s : NoteSet) (n velocity : Nat) : NoteSet :=
  let free_slot := find_free s.notes
  let notes1 := s.notes.set free_slot { rd s.notes free_slot with next_idx := s.root_idx }
  let notes2 := notes1.set free_slot { rd notes1 free_slot with note := n }
  let notes3 := notes2.set free_slot { rd notes2 free_slot with velocity := velocity }
  let sorted1 := sorted_insert notes3 s.sorted_idx s.size n free_slot
  { s with notes := notes3, root_idx := free_slot, sorted_idx := sorted1,
           size := (s.size + 1) % 256 }

/-- Function `note_on(note, velocity)`. -/
def note_on (s : NoteSet) (n velocity : Nat) : Option NoteSet :=
  match note_off s n with
  | none => none
  | some s1 =>
    let s2 : Option NoteSet :=
      if s1.size = capacity then note_off s1 (evict_scan s1.notes) else some s1
    match s2 with
    | none => none
    | some s2 => some (note_on_insert s2 n velocity)

/-- Function `most_recent_note()`. -/
def most_recent_note (s : NoteSet) : Nat := s.root_idx

/-- The loop of `least_recent_note`, with fuel. -/
def least_recent_walk (ns : List NoteInfo) : Nat → Nat → Option Nat
  | 0, _ => none
  | fuel + 1, current =>
    if current ≠ 0 ∧ (rd ns current).next_idx ≠ 0 then
      least_recent_walk ns fuel (rd ns current).next_idx
    else some current

/-- Function `least_recent_note()`; 256 units of fuel as in `note_off`. -/
def least_recent_note (s : NoteSet) : Option Nat :=
  least_recent_walk s.notes 256 s.root_idx

/-- Function `played_note(index)`: `size - index - 1` is computed in `int` and
stored in a byte, then that many links are followed from the root. -/
def played_note (s : NoteSet) (index : Nat) : Nat :=
  let index1 := (((s.size : Int) - (index : Int) - 1) % 256).toNat
  Nat.iterate (fun current => (rd s.notes current).next_idx) index1 s.root_idx

/-- Function `sorted_note(index)`. -/
def sorted_note (s : NoteSet) (index : Nat) : Nat := s.sorted_idx.getD index 0

/-- Function `no_note()`. -/
def no_note (_s : NoteSet) : Nat := 0

/-- Function `get_size()`. -/
def get_size (s : NoteSet) : Nat := s.size

/-- Function `get_last()`. -/
def get_last (s : NoteSet) : Nat := s.last_played

/-- Function `max_size()`. -/
def max_size (_s : NoteSet) : Nat := capacity

/-- Function `note_by_priority(priority)`. -/
def note_by_priority (s : NoteSet) (priority : Nat) : Nat :=
  if s.get_size = 0 then s.no_note
  else if priority = NOTE_PRIORITY_LAST then s.most_recent_note
  else if priority = NOTE_PRIORITY_LOW then s.sorted_note 0
  else if priority = NOTE_PRIORITY_HIGH then s.sorted_note (s.get_size - 1)
  else s.no_note

/-- Function `get_next_note()`: the new state and the slot returned. -/
def get_next_note (s : NoteSet) : NoteSet × Nat :=
  let note_to_play := s.note_by_priority s.the_priority
  if (s.note note_to_play).note ≠ EMPTY_NOTE ∧ (s.note note_to_play).note ≠ s.last_played then
    ({ s with last_played := (s.note note_to_play).note }, note_to_play)
  else (s, s.no_note)

end NoteSet

/-- One call on the tracker. -/
inductive Op where
  | note_on (p v : Nat)
  | note_off (p : Nat)
  | get_next_note
  deriving DecidableEq, Repr

/-- Arguments are bytes, and a pressed pitch is not `EMPTY_NOTE`. -/
def Op.valid : Op → Prop
  | .note_on p v => p < 256 ∧ v < 256 ∧ p ≠ EMPTY_NOTE
  | .note_off p => p < 256
  | .get_next_note => True

instance (o : Op) : Decidable o.valid := by
  cases o <;> unfold Op.valid <;> exact inferInstance

namespace NoteSet

/-- State after one call, `none` when the call does not return. -/
def step (s : NoteSet) : Op → Option NoteSet
  | .note_on p v => s.note_on p v
  | .note_off p => s.note_off p
  | .get_next_note => some s.get_next_note.1

/-- State after a sequence of calls. -/
def run (s : NoteSet) : List Op → Option NoteSet
  | [] => some s
  | o :: os => match s.step o with
    | none => none
    | some s1 => run s1 os

/-- Relation `ReachedBy ops s`: `s` is the state after `init` and then the calls `ops`
(oldest first), each with valid arguments. -/
inductive ReachedBy : List Op → NoteSet → Prop where
  | init (s0 : NoteSet) (m : Nat) (h : s0.WellFormed) : ReachedBy [] (s0.init m)
  | step {ops : List Op} {s s1 : NoteSet} (o : Op) (h : ReachedBy ops s)
      (hv : o.valid) (hs : s.step o = some s1) : ReachedBy (ops ++ [o]) s1

/-- A state obtained from `init` by a finite sequence of calls. -/
def Reachable (s : NoteSet) : Prop := ∃ ops, ReachedBy ops s

/-- The recency chain, read from `current` for at most `fuel` slots. -/
def chainFrom (ns : List NoteInfo) : Nat → Nat → List Nat
  | 0, _ => []
  | fuel + 1, current =>
    if current = 0 then [] else current :: chainFrom ns fuel (rd ns current).next_idx

/-- The slots met by following `next_idx` from `root_idx` until index 0. -/
def chain (s : NoteSet) : List Nat := chainFrom s.notes 256 s.root_idx

/-- The held notes as `(pitch, velocity)` pairs, newest first. -/
def held (s : NoteSet) : List (Nat × Nat) :=
  s.chain.map (fun i => ((s.note i).note, (s.note i).velocity))

/-- The pitches held, newest first. -/
def pitches (s : NoteSet) : List Nat := s.chain.map (fun i => (s.note i).note)

end NoteSet

/-- Relation `LinkedFrom nx r l`: following `nx` from `r` visits exactly the slots of
`l`, none of them 0, and then reaches 0. -/
def LinkedFrom (nx : Nat → Nat) : Nat → List Nat → Prop
  | r, [] => r = 0
  | r, i :: l => r = i ∧ i ≠ 0 ∧ LinkedFrom nx (nx i) l

namespace NoteSet

/-- The link function of a state. -/
def nxt (s : NoteSet) (i : Nat) : Nat := (s.note i).next_idx

/-- The pitch function of a state. -/
def pitch (s : NoteSet) (i : Nat) : Nat := (s.note i).note

end NoteSet

/-! ## Specification vocabulary -/

/-- Last element of a list, with a default. -/
def lastD : List Nat → Nat → Nat
  | [], d => d
  | a :: l, _ => lastD l a

/-- Relation `Rep s l`: the state `s` holds exactly the slots of `l` (newest first) on
its recency chain, every other slot is free, and the sorted list and
`last_played` agree with the chain. -/
structure NoteSet.Rep (s : NoteSet) (l : List Nat) : Prop where
  wf_notes : s.notes.length = 11
  wf_sorted : s.sorted_idx.length = 11
  linked : LinkedFrom s.nxt s.root_idx l
  nodup : l.Nodup
  range : ∀ i ∈ l, 1 ≤ i ∧ i ≤ 10
  live : ∀ i ∈ l, s.pitch i ≠ 255
  free : ∀ i, 1 ≤ i → i ≤ 10 → i ∉ l → s.note i = ⟨255, 0, 0⟩
  zero : s.pitch 0 = 255
  size_eq : s.size = l.length
  size_le : s.size ≤ 10
  uniq : (l.map s.pitch).Nodup
  perm : (s.sorted_idx.take s.size).Perm l
  sorted : ((s.sorted_idx.take s.size).map s.pitch).Pairwise (· < ·)
  last : s.last_played = 255 ∨ s.last_played ∈ l.map s.pitch

/-- Pitch and velocity of a slot. -/
def NoteSet.vals (s : NoteSet) (i : Nat) : Nat × Nat := ((s.note i).note, (s.note i).velocity)

/-- The entries `sorted_idx[0..size-1]`, read through `sorted_note`. -/
def NoteSet.sorted_slots (s : NoteSet) : List Nat := (List.range s.size).map s.sorted_note

/-- The list of held `(pitch, velocity)` pairs, newest first, after one call:
`note_off(p)` removes the pair with pitch `p`; `note_on(p, v)` removes it,
drops the last pair when 10 are left, and puts `(p, v)` in front. -/
def heldAfter (L : List (Nat × Nat)) : Op → List (Nat × Nat)
  | .note_on p v =>
    let L1 := L.filter (fun x => decide (x.1 ≠ p))
    (p, v) :: (if L1.length = 10 then L1.dropLast else L1)
  | .note_off p => L.filter (fun x => decide (x.1 ≠ p))
  | .get_next_note => L

/-- Relation `History ops L`: every pair of `L` was pressed by a `note_on` call of `ops`
after which no `note_on` pressed the pitch of that pair or of an older one. -/
def History (ops : List Op) (L : List (Nat × Nat)) : Prop :=
  ∀ A p v B, L = A ++ (p, v) :: B →
    ∃ pre post, ops = pre ++ Op.note_on p v :: post ∧
      ∀ q w, Op.note_on q w ∈ post → q ∉ ((p, v) :: B).map Prod.fst

/-- Some object contents before `init`. -/
def ex0 : NoteSet := ⟨3, List.replicate 11 ⟨7, 8, 9⟩, 5, List.replicate 11 4, 0, 17⟩

/-- The state after `init(LAST); note_on(60,100); note_on(64,90)` on `ex0`. -/
def exTwo : NoteSet :=
  { size := 2
    notes := [⟨255, 8, 9⟩, ⟨60, 100, 0⟩, ⟨64, 90, 1⟩, ⟨255, 0, 0⟩, ⟨255, 0, 0⟩, ⟨255, 0, 0⟩,
      ⟨255, 0, 0⟩, ⟨255, 0, 0⟩, ⟨255, 0, 0⟩, ⟨255, 0, 0⟩, ⟨255, 0, 0⟩]
    root_idx := 2
    sorted_idx := [1, 2, 0, 0, 0, 0, 0, 0, 0, 0, 0]
    the_priority := 1
    last_played := 255 }

/-- The state after `init(LOW); note_on(72,1); note_on(60,1); note_on(67,1)`. -/
def exLow : NoteSet :=
  { size := 3
    notes := [⟨255, 8, 9⟩, ⟨72, 1, 0⟩, ⟨60, 1, 1⟩, ⟨67, 1, 2⟩, ⟨255, 0, 0⟩, ⟨255, 0, 0⟩,
      ⟨255, 0, 0⟩, ⟨255, 0, 0⟩, ⟨255, 0, 0⟩, ⟨255, 0, 0⟩, ⟨255, 0, 0⟩]
    root_idx := 3
    sorted_idx := [2, 3, 1, 0, 0, 0, 0, 0, 0, 0, 0]
    the_priority := 2
    last_played := 255 }

/-- The state after `init(LAST)` and `note_on(k, 20 + k)` for `k = 1..10`. -/
def exFull : NoteSet :=
  { size := 10
    notes := [⟨255, 8, 9⟩, ⟨1, 21, 0⟩, ⟨2, 22, 1⟩, ⟨3, 23, 2⟩, ⟨4, 24, 3⟩, ⟨5, 25, 4⟩,
      ⟨6, 26, 5⟩, ⟨7, 27, 6⟩, ⟨8, 28, 7⟩, ⟨9, 29, 8⟩, ⟨10, 30, 9⟩]
    root_idx := 10
    sorted_idx := [1, 2, 3, 4, 5, 6, 7, 8, 9, 10, 0]
    the_priority := 1
    last_played := 255 }

/-- The state after `init(LAST); note_on(60,100)` on `ex0`. -/
def exOne : NoteSet :=
  { size := 1
    notes := [⟨255, 8, 9⟩, ⟨60, 100, 0⟩, ⟨255, 0, 0⟩, ⟨255, 0, 0⟩, ⟨255, 0, 0⟩, ⟨255, 0, 0⟩,
      ⟨255, 0, 0⟩, ⟨255, 0, 0⟩, ⟨255, 0, 0⟩, ⟨255, 0, 0⟩, ⟨255, 0, 0⟩]
    root_idx := 1
    sorted_idx := [1, 0, 0, 0, 0, 0, 0, 0, 0, 0, 0]
    the_priority := 1
    last_played := 255 }

/-- The state `exTwo` after one `get_next_note()`, which delivered pitch 64. -/
def exTwoPlayed : NoteSet := { exTwo with last_played := 64 }

/-- The state `exOne` after `get_next_note()` delivered pitch 60 and
`note_on(60, 50)` pressed it again. -/
def exAgain : NoteSet :=
  { size := 1
    notes := [⟨255, 8, 9⟩, ⟨60, 50, 0⟩, ⟨255, 0, 0⟩, ⟨255, 0, 0⟩, ⟨255, 0, 0⟩, ⟨255, 0, 0⟩,
      ⟨255, 0, 0⟩, ⟨255, 0, 0⟩, ⟨255, 0, 0⟩, ⟨255, 0, 0⟩, ⟨255, 0, 0⟩]
    root_idx := 1
    sorted_idx := [1, 0, 0, 0, 0, 0, 0, 0, 0, 0, 0]
    the_priority := 1
    last_played := 255 }

/-- The state after `init(LOW); note_on(60,100)` on `ex0`. -/
def exLowOne : NoteSet := { exOne with the_priority := 2 }

/-- The state `exLowOne` after `get_next_note()` delivered pitch 60 and
`note_on(64, 90)` pressed a higher note. -/
def exLowTwo : NoteSet := { exTwo with the_priority := 2, last_played := 60 }

/-- The list model, `off(p)`: the pair with pitch `p` is removed, if any. -/
def ListModel.off (L : List (Nat × Nat)) (p : Nat) : List (Nat × Nat) :=
  L.filter (fun x => decide (x.1 ≠ p))

/-- The list model, `on(p, v)`: `L1 = off(p)` applied to `L`; `L2` is `L1`
without its last element when `L1` has length 10, else `L1`; the result is
`(p, v) :: L2`. -/
def ListModel.on (L : List (Nat × Nat)) (p v : Nat) : List (Nat × Nat) :=
  let L1 := ListModel.off L p
  let L2 := if L1.length = 10 then L1.dropLast else L1
  (p, v) :: L2

/-- The list model after one call; `get_next_note` leaves the list alone. -/
def ListModel.call (L : List (Nat × Nat)) : Op → List (Nat × Nat)
  | .note_on p v => ListModel.on L p v
  | .note_off p => ListModel.off L p
  | .get_next_note => L

/-- The list model after `init` (the empty list) and a sequence of calls. -/
def ListModel.after (ops : List Op) : List (Nat × Nat) := ops.foldl ListModel.call []

/-- Indices of `sorted_idx` written by the sorted insertion of `note_on`, in
the order of the writes: `j = size, .., i + 1` and then `i` when the scan
stops at `i`, else `size` when `free_slot` is non-zero. -/
def NoteSet.sorted_insert_writes (ns : List NoteInfo) (l : List Nat)
    (size n free_slot : Nat) : List Nat :=
  match (List.range size).find? (fun i => decide ((NoteSet.rd ns (l.getD i 0)).note > n)) with
  | some i => (List.range' (i + 1) (size - i)).reverse ++ [i]
  | none => if free_slot ≠ 0 then [size] else []

/-- Indices of `sorted_idx` written by the removal loop of `note_off`:
`j = i, .., size - 2` when the scan stops at `i`. -/
def NoteSet.sorted_remove_writes (l : List Nat) (size current : Nat) : List Nat :=
  match (List.range size).find? (fun i => l.getD i 0 == current) with
  | some i => List.range' i (size - 1 - i)
  | none => []

/-! ## Lists as arrays -/

theorem set_at (A : List α) (c x : α) (R : List α) :
    (A ++ c :: R).set A.length x = A ++ x :: R := by
  induction A with
  | nil => rfl
  | cons a A ih => simp [ih]

theorem getD_at (A : List α) (c d : α) (R : List α) :
    (A ++ c :: R).getD A.length d = c := by
  induction A with
  | nil => rfl
  | cons a A ih => simpa using ih

theorem getD_at_succ (A : List α) (c y d : α) (R : List α) :
    (A ++ c :: y :: R).getD (A.length + 1) d = y := by
  induction A with
  | nil => rfl
  | cons a A ih => simpa using ih

theorem foldl_shift_left (A2 : List Nat) : ∀ (A1 : List Nat) (c : Nat) (B : List Nat),
    ∃ x, (List.range' A1.length A2.length).foldl (fun a j => a.set j (a.getD (j + 1) 0))
      (A1 ++ c :: A2 ++ B) = A1 ++ A2 ++ x :: B := by
  induction A2 with
  | nil => intro A1 c B; exact ⟨c, by simp⟩
  | cons y A2 ih =>
    intro A1 c B
    obtain ⟨x, hx⟩ := ih (A1 ++ [y]) y B
    refine ⟨x, ?_⟩
    have h1 : (A1 ++ c :: (y :: A2) ++ B) = A1 ++ c :: y :: (A2 ++ B) := by simp
    simp only [List.length_cons, List.range'_succ, List.foldl_cons]
    rw [h1, getD_at_succ, set_at]
    have h2 : A1 ++ y :: y :: (A2 ++ B) = (A1 ++ [y]) ++ y :: A2 ++ B := by simp
    rw [h2]
    simp only [List.length_append, List.length_singleton] at hx
    rw [hx]
    simp

theorem shift_left_spec (A1 : List Nat) (c : Nat) (A2 B : List Nat) :
    ∃ x, NoteSet.shift_left (A1 ++ c :: A2 ++ B) (A1.length + 1 + A2.length) A1.length
      = A1 ++ A2 ++ x :: B := by
  unfold NoteSet.shift_left
  have : A1.length + 1 + A2.length - 1 - A1.length = A2.length := by omega
  rw [this]
  exact foldl_shift_left A2 A1 c B

theorem foldr_shift_right (A2 : List Nat) : ∀ (A1 : List Nat) (x b : Nat) (B : List Nat),
    (List.range' (A1.length + 1) (A2.length + 1)).foldr
      (fun j a => a.set j (a.getD (j - 1) 0)) (A1 ++ x :: A2 ++ b :: B)
      = A1 ++ x :: x :: A2 ++ B := by
  induction A2 with
  | nil =>
    intro A1 x b B
    have h1 : A1 ++ [x] ++ b :: B = A1 ++ x :: b :: B := by simp
    have h2 := set_at (A1 ++ [x]) b x B
    simp only [List.length_append, List.length_singleton] at h2
    have e0 : A1 ++ x :: [] ++ b :: B = A1 ++ x :: b :: B := by simp
    rw [e0]
    simp only [List.length_nil, Nat.zero_add, List.range'_succ, List.range'_zero,
      List.foldr_cons, List.foldr_nil, Nat.add_sub_cancel, getD_at]
    rw [← h1, h2]
    simp
  | cons y A2 ih =>
    intro A1 x b B
    have h := ih (A1 ++ [x]) y b B
    simp only [List.length_append, List.length_singleton] at h
    have e1 : A1 ++ x :: (y :: A2) ++ b :: B = A1 ++ [x] ++ y :: A2 ++ b :: B := by simp
    rw [List.length_cons, List.range'_succ, List.foldr_cons, e1, h]
    have e2 : A1 ++ [x] ++ y :: y :: A2 ++ B = A1 ++ x :: y :: (y :: A2 ++ B) := by simp
    have h2 := set_at (A1 ++ [x]) y x (y :: A2 ++ B)
    simp only [List.length_append, List.length_singleton] at h2
    have e3 : A1 ++ [x] ++ y :: (y :: A2 ++ B) = A1 ++ x :: y :: (y :: A2 ++ B) := by simp
    rw [e2]
    simp only [Nat.add_sub_cancel, getD_at]
    rw [← e3, h2]
    simp only [List.append_assoc, List.cons_append, List.nil_append]

theorem shift_right_spec (A1 : List Nat) (x : Nat) (A2 : List Nat) (b : Nat) (B : List Nat) :
    NoteSet.shift_right (A1 ++ x :: A2 ++ b :: B) (A1.length + 1 + A2.length) A1.length
      = A1 ++ x :: x :: A2 ++ B := by
  unfold NoteSet.shift_right
  have : A1.length + 1 + A2.length - A1.length = A2.length + 1 := by omega
  rw [this]
  exact foldr_shift_right A2 A1 x b B

theorem getD_prefix_mem (A B : List Nat) (j : Nat) (h : j < A.length) :
    (A ++ B).getD j 0 ∈ A := by
  rw [List.getD_append A B 0 j h, List.getD_eq_getElem A 0 h]
  exact List.getElem_mem h

theorem find_range_some (P : Nat → Bool) (A1 : List Nat) (a : Nat) (A2 B : List Nat)
    (ha : P a = true) (h1 : ∀ x ∈ A1, P x = false) :
    (List.range (A1.length + 1 + A2.length)).find?
      (fun i => P ((A1 ++ a :: A2 ++ B).getD i 0)) = some A1.length := by
  have e : A1 ++ a :: A2 ++ B = A1 ++ a :: (A2 ++ B) := by simp
  rw [List.find?_range_eq_some]
  refine ⟨?_, ?_, ?_⟩
  · rw [e, getD_at]; exact ha
  · rw [List.mem_range]; omega
  · intro j hj
    rw [e]
    have := h1 _ (getD_prefix_mem A1 (a :: (A2 ++ B)) j hj)
    simpa using this

theorem find_range_none (P : Nat → Bool) (A B : List Nat) (h1 : ∀ x ∈ A, P x = false) :
    (List.range A.length).find? (fun i => P ((A ++ B).getD i 0)) = none := by
  rw [List.find?_range_eq_none]
  intro j hj
  have := h1 _ (getD_prefix_mem A B j hj)
  simpa using this

theorem split_first (P : Nat → Bool) (A : List Nat) :
    (∀ x ∈ A, P x = false) ∨
    ∃ A1 a A2, A = A1 ++ a :: A2 ∧ P a = true ∧ ∀ x ∈ A1, P x = false := by
  induction A with
  | nil => left; simp
  | cons b A ih =>
    by_cases hb : P b = true
    · right; exact ⟨[], b, A, rfl, hb, by simp⟩
    · rcases ih with h | ⟨A1, a, A2, rfl, ha, h1⟩
      · left
        intro x hx
        rcases List.mem_cons.1 hx with rfl | hx
        · simpa using hb
        · exact h x hx
      · right
        refine ⟨b :: A1, a, A2, rfl, ha, ?_⟩
        intro x hx
        rcases List.mem_cons.1 hx with rfl | hx
        · simpa using hb
        · exact h1 x hx

theorem sorted_remove_spec (A1 : List Nat) (c : Nat) (A2 B : List Nat) (hc : c ∉ A1) :
    ∃ x, NoteSet.sorted_remove (A1 ++ c :: A2 ++ B) (A1.length + 1 + A2.length) c
      = A1 ++ A2 ++ x :: B := by
  unfold NoteSet.sorted_remove
  have hf := find_range_some (fun y => y == c) A1 c A2 B (by simp)
    (by intro x hx; simp; rintro rfl; exact hc hx)
  simp only at hf
  rw [hf]
  exact shift_left_spec A1 c A2 B

theorem sorted_insert_mid (ns : List NoteInfo) (n f : Nat) (A1 : List Nat) (a : Nat)
    (A2 : List Nat) (b : Nat) (B : List Nat)
    (ha : (NoteSet.rd ns a).note > n) (h1 : ∀ x ∈ A1, ¬ (NoteSet.rd ns x).note > n) :
    NoteSet.sorted_insert ns (A1 ++ a :: A2 ++ b :: B) (A1.length + 1 + A2.length) n f
      = A1 ++ f :: a :: A2 ++ B := by
  unfold NoteSet.sorted_insert
  have hf := find_range_some (fun y => decide ((NoteSet.rd ns y).note > n)) A1 a A2 (b :: B)
    (by simpa using ha) (by intro x hx; simpa using h1 x hx)
  simp only at hf
  rw [hf]
  simp only
  rw [shift_right_spec]
  have e : A1 ++ a :: a :: A2 ++ B = A1 ++ a :: (a :: A2 ++ B) := by simp
  rw [e, set_at]
  simp

theorem sorted_insert_end (ns : List NoteInfo) (n f : Nat) (A : List Nat)
    (b : Nat) (B : List Nat) (hf0 : f ≠ 0)
    (h1 : ∀ x ∈ A, ¬ (NoteSet.rd ns x).note > n) :
    NoteSet.sorted_insert ns (A ++ b :: B) A.length n f = A ++ f :: B := by
  unfold NoteSet.sorted_insert
  have hf := find_range_none (fun y => decide ((NoteSet.rd ns y).note > n)) A (b :: B)
    (by intro x hx; simpa using h1 x hx)
  simp only at hf
  rw [hf]
  simp only [ne_eq, hf0, not_false_eq_true, if_true]
  exact set_at A b f B

/-! ## Chains -/

theorem lastD_concat (l : List Nat) (x d : Nat) : lastD (l ++ [x]) d = x := by
  induction l generalizing d with
  | nil => rfl
  | cons a l ih => exact ih a

theorem lastD_mem (l : List Nat) (d : Nat) (h : l ≠ []) : lastD l d ∈ l := by
  induction l generalizing d with
  | nil => exact absurd rfl h
  | cons a l ih =>
    cases l with
    | nil => simp [lastD]
    | cons b l => exact List.mem_cons_of_mem _ (ih a (by simp))

theorem LinkedFrom.congr {nx nx1 : Nat → Nat} : ∀ {l : List Nat} {r : Nat},
    (∀ i ∈ l, nx1 i = nx i) → LinkedFrom nx r l → LinkedFrom nx1 r l
  | [], _, _, h => h
  | i :: l, r, hag, h => by
    obtain ⟨h1, h2, h3⟩ := h
    refine ⟨h1, h2, ?_⟩
    rw [hag i (List.mem_cons_self _ _)]
    exact LinkedFrom.congr (fun j hj => hag j (List.mem_cons_of_mem _ hj)) h3

theorem LinkedFrom.zero_not_mem {nx : Nat → Nat} : ∀ {l : List Nat} {r : Nat},
    LinkedFrom nx r l → 0 ∉ l
  | [], _, _ => by simp
  | i :: l, r, h => by
    obtain ⟨_, h2, h3⟩ := h
    intro hm
    rcases List.mem_cons.1 hm with h0 | h0
    · exact h2 h0.symm
    · exact LinkedFrom.zero_not_mem h3 h0

theorem LinkedFrom.unique {nx : Nat → Nat} : ∀ {l l1 : List Nat} {r : Nat},
    LinkedFrom nx r l → LinkedFrom nx r l1 → l = l1
  | [], [], _, _, _ => rfl
  | [], j :: l1, r, h, h1 => by
    obtain ⟨e, h2, _⟩ := h1
    exact absurd (e.symm.trans h) h2
  | i :: l, [], r, h, h1 => by
    obtain ⟨e, h2, _⟩ := h
    exact absurd (e.symm.trans h1) h2
  | i :: l, j :: l1, r, h, h1 => by
    obtain ⟨e, _, h3⟩ := h
    obtain ⟨e1, _, h4⟩ := h1
    have : i = j := e.symm.trans e1
    subst this
    rw [LinkedFrom.unique h3 h4]

theorem LinkedFrom.root_eq {nx : Nat → Nat} {l : List Nat} {r : Nat}
    (h : LinkedFrom nx r l) : r = l.headD 0 := by
  cases l with
  | nil => exact h
  | cons i l => exact h.1

theorem LinkedFrom.last_link {nx : Nat → Nat} : ∀ {l : List Nat} {r : Nat} (x : Nat),
    LinkedFrom nx r (l ++ [x]) → nx x = 0
  | [], _, _, h => h.2.2
  | _ :: _, _, x, h => LinkedFrom.last_link x h.2.2

theorem LinkedFrom.mid_link {nx : Nat → Nat} : ∀ {l : List Nat} {r : Nat} (x y : Nat)
    (l2 : List Nat), LinkedFrom nx r (l ++ x :: y :: l2) → nx x = y
  | [], _, _, _, _, h => h.2.2.1
  | _ :: _, _, x, y, l2, h => LinkedFrom.mid_link x y l2 h.2.2

/-- Unlinking the head: the chain after `c` survives any change of the links
outside it. -/
theorem LinkedFrom.unlink_head {nx nx1 : Nat → Nat} {c r : Nat} {l2 : List Nat}
    (h : LinkedFrom nx r (c :: l2)) (hag : ∀ i ∈ l2, nx1 i = nx i) :
    LinkedFrom nx1 (nx c) l2 :=
  LinkedFrom.congr hag h.2.2

/-- Unlinking `c` behind `prev`: `prev` takes over the link of `c`. -/
theorem LinkedFrom.unlink_mid {nx nx1 : Nat → Nat} {prev c : Nat} {l2 : List Nat} :
    ∀ {l1 : List Nat} {r : Nat}, LinkedFrom nx r (l1 ++ prev :: c :: l2) →
    (l1 ++ prev :: c :: l2).Nodup → nx1 prev = nx c →
    (∀ i, i ≠ prev → i ≠ c → nx1 i = nx i) → LinkedFrom nx1 r (l1 ++ prev :: l2)
  | [], r, h, hn, hp, hag => by
    obtain ⟨h1, h2, h3⟩ := h
    refine ⟨h1, h2, ?_⟩
    rw [hp]
    simp only [List.nil_append, List.nodup_cons, List.mem_cons, not_or] at hn
    refine LinkedFrom.congr ?_ h3.2.2
    intro i hi
    apply hag
    · rintro rfl; exact hn.1.2 hi
    · rintro rfl; exact hn.2.1 hi
  | a :: l1, r, h, hn, hp, hag => by
    obtain ⟨h1, h2, h3⟩ := h
    refine ⟨h1, h2, ?_⟩
    simp only [List.cons_append, List.nodup_cons, List.mem_append, List.mem_cons, not_or] at hn
    rw [hag a (by rintro rfl; exact hn.1.2.1 rfl) (by rintro rfl; exact hn.1.2.2.1 rfl)]
    exact LinkedFrom.unlink_mid h3 hn.2 hp hag

theorem note_off_find_hit (ns : List NoteInfo) (p c : Nat) (rest : List Nat)
    (hc : (NoteSet.rd ns c).note = p) :
    ∀ (pre : List Nat) (fuel r prev0 : Nat),
    LinkedFrom (fun i => (NoteSet.rd ns i).next_idx) r (pre ++ c :: rest) →
    (∀ i ∈ pre, (NoteSet.rd ns i).note ≠ p) → pre.length < fuel →
    NoteSet.note_off_find ns p fuel r prev0 = some (c, lastD pre prev0)
  | [], fuel, r, prev0, h, _, hf => by
    obtain ⟨h1, h2, _⟩ := h
    obtain ⟨f, rfl⟩ : ∃ f, fuel = f + 1 := ⟨fuel - 1, by simp at hf; omega⟩
    subst h1
    simp [NoteSet.note_off_find, h2, hc, lastD]
  | a :: pre, fuel, r, prev0, h, hp, hf => by
    obtain ⟨h1, h2, h3⟩ := h
    obtain ⟨f, rfl⟩ : ∃ f, fuel = f + 1 := ⟨fuel - 1, by simp at hf; omega⟩
    subst h1
    have hne := hp r (List.mem_cons_self _ _)
    simp only [NoteSet.note_off_find, h2, hne, if_false, lastD]
    exact note_off_find_hit ns p c rest hc pre f _ r h3
      (fun i hi => hp i (List.mem_cons_of_mem _ hi)) (by simp at hf; omega)

theorem note_off_find_miss (ns : List NoteInfo) (p : Nat) :
    ∀ (l : List Nat) (fuel r prev0 : Nat),
    LinkedFrom (fun i => (NoteSet.rd ns i).next_idx) r l →
    (∀ i ∈ l, (NoteSet.rd ns i).note ≠ p) → l.length < fuel →
    NoteSet.note_off_find ns p fuel r prev0 = some (0, lastD l prev0)
  | [], fuel, r, prev0, h, _, hf => by
    obtain ⟨f, rfl⟩ : ∃ f, fuel = f + 1 := ⟨fuel - 1, by simp at hf; omega⟩
    have h0 : r = 0 := h
    subst h0
    simp [NoteSet.note_off_find, lastD]
  | a :: l, fuel, r, prev0, h, hp, hf => by
    obtain ⟨h1, h2, h3⟩ := h
    obtain ⟨f, rfl⟩ : ∃ f, fuel = f + 1 := ⟨fuel - 1, by simp at hf; omega⟩
    subst h1
    have hne := hp r (List.mem_cons_self _ _)
    simp only [NoteSet.note_off_find, h2, hne, if_false, lastD]
    exact note_off_find_miss ns p l f _ r h3
      (fun i hi => hp i (List.mem_cons_of_mem _ hi)) (by simp at hf; omega)

theorem chainFrom_eq (ns : List NoteInfo) :
    ∀ (l : List Nat) (fuel r : Nat),
    LinkedFrom (fun i => (NoteSet.rd ns i).next_idx) r l → l.length ≤ fuel →
    NoteSet.chainFrom ns fuel r = l
  | [], fuel, r, h, _ => by
    have h0 : r = 0 := h
    subst h0
    cases fuel <;> simp [NoteSet.chainFrom]
  | a :: l, fuel, r, h, hf => by
    obtain ⟨h1, h2, h3⟩ := h
    obtain ⟨f, rfl⟩ : ∃ f, fuel = f + 1 := ⟨fuel - 1, by simp at hf; omega⟩
    subst h1
    simp only [NoteSet.chainFrom, h2, if_false]
    rw [chainFrom_eq ns l f _ h3 (by simp at hf; omega)]

/-! ## The representation invariant -/

theorem rd_set (ns : List NoteInfo) (i j : Nat) (x : NoteInfo) :
    NoteSet.rd (ns.set i x) j = if i = j ∧ i < ns.length then x else NoteSet.rd ns j := by
  unfold NoteSet.rd
  simp only [List.getD_eq_getElem?_getD, List.getElem?_set]
  by_cases h : i = j
  · subst h
    by_cases h2 : i < ns.length
    · simp [h2]
    · simp [h2, List.getElem?_eq_none (Nat.le_of_not_lt h2)]
  · simp [h]

theorem note_off_at_notes_length (s : NoteSet) (p c prev : Nat) :
    (s.note_off_at p c prev).notes.length = s.notes.length := by
  unfold NoteSet.note_off_at
  by_cases hc : c = 0
  · simp [hc]
  · by_cases hp : prev = 0 <;> simp [hc, hp]

theorem note_off_at_zero (s : NoteSet) (p prev : Nat) :
    s.note_off_at p 0 prev =
      { s with last_played := if p = s.last_played then EMPTY_NOTE else s.last_played } := by
  simp [NoteSet.note_off_at]

theorem note_off_at_cur (s : NoteSet) (p c prev : Nat) (hc0 : c ≠ 0)
    (hcl : c < s.notes.length) :
    (s.note_off_at p c prev).note c = ⟨255, 0, 0⟩ := by
  unfold NoteSet.note_off_at NoteSet.note
  by_cases hp : prev = 0 <;> simp [hc0, hp, rd_set, hcl, EMPTY_NOTE]

theorem note_off_at_other (s : NoteSet) (p c prev i : Nat) (hc0 : c ≠ 0) (hic : i ≠ c) :
    (s.note_off_at p c prev).note i =
      if prev = i ∧ prev ≠ 0 ∧ prev < s.notes.length then
        { s.note prev with next_idx := (s.note c).next_idx }
      else s.note i := by
  unfold NoteSet.note_off_at NoteSet.note
  have hci : ¬ c = i := fun h => hic h.symm
  by_cases hp : prev = 0
  · simp [hc0, hp, rd_set, hci]
  · by_cases hpi : prev = i
    · subst hpi
      by_cases hl : prev < s.notes.length <;> simp [hc0, hp, rd_set, hci, hl]
    · simp [hc0, hp, rd_set, hci, hpi]

theorem note_off_at_root (s : NoteSet) (p c prev : Nat) (hc0 : c ≠ 0) :
    (s.note_off_at p c prev).root_idx =
      if prev ≠ 0 then s.root_idx else (s.note c).next_idx := by
  unfold NoteSet.note_off_at NoteSet.note
  simp [hc0]

theorem note_off_at_sorted (s : NoteSet) (p c prev : Nat) (hc0 : c ≠ 0) :
    (s.note_off_at p c prev).sorted_idx = NoteSet.sorted_remove s.sorted_idx s.size c := by
  unfold NoteSet.note_off_at
  simp [hc0]

theorem note_off_at_size (s : NoteSet) (p c prev : Nat) (hc0 : c ≠ 0) :
    (s.note_off_at p c prev).size = (s.size + 255) % 256 := by
  unfold NoteSet.note_off_at
  simp [hc0]

theorem note_off_at_priority (s : NoteSet) (p c prev : Nat) :
    (s.note_off_at p c prev).the_priority = s.the_priority := by
  unfold NoteSet.note_off_at
  by_cases hc0 : c = 0 <;> simp [hc0]

theorem note_off_at_last (s : NoteSet) (p c prev : Nat) :
    (s.note_off_at p c prev).last_played =
      if p = s.last_played then 255 else s.last_played := by
  unfold NoteSet.note_off_at
  by_cases hc0 : c = 0 <;> simp [hc0, EMPTY_NOTE]

theorem nil_or_snoc (l : List α) : l = [] ∨ ∃ l0 q, l = l0 ++ [q] := by
  rcases List.eq_nil_or_concat l with h | ⟨l0, q, h⟩
  · exact Or.inl h
  · exact Or.inr ⟨l0, q, by rw [h, List.concat_eq_append]⟩

theorem take_prefix (A R : List α) (n : Nat) (h : n = A.length) : (A ++ R).take n = A := by
  subst h; simp

theorem sub_middle (A1 A2 : List α) (c : α) : (A1 ++ A2).Sublist (A1 ++ c :: A2) :=
  (List.Sublist.refl A1).append (List.sublist_cons_self c A2)

theorem perm_drop_middle {A1 A2 l1 l2 : List Nat} {c : Nat}
    (h : (A1 ++ c :: A2).Perm (l1 ++ c :: l2)) : (A1 ++ A2).Perm (l1 ++ l2) :=
  (List.perm_middle.symm.trans (h.trans List.perm_middle)).cons_inv

theorem note_off_at_vals (s : NoteSet) (p c prev i : Nat) (hc0 : c ≠ 0) (hic : i ≠ c) :
    ((s.note_off_at p c prev).note i).note = (s.note i).note ∧
    ((s.note_off_at p c prev).note i).velocity = (s.note i).velocity := by
  rw [note_off_at_other s p c prev i hc0 hic]
  split_ifs with h
  · obtain ⟨rfl, _⟩ := h
    exact ⟨rfl, rfl⟩
  · exact ⟨rfl, rfl⟩

theorem note_off_at_pitch (s : NoteSet) (p c prev i : Nat) (hc0 : c ≠ 0) (hic : i ≠ c) :
    (s.note_off_at p c prev).pitch i = s.pitch i :=
  (note_off_at_vals s p c prev i hc0 hic).1

theorem note_off_at_nxt (s : NoteSet) (p c prev i : Nat) (hc0 : c ≠ 0) (hic : i ≠ c) :
    (s.note_off_at p c prev).nxt i =
      if prev = i ∧ prev ≠ 0 ∧ prev < s.notes.length then s.nxt c else s.nxt i := by
  unfold NoteSet.nxt
  rw [note_off_at_other s p c prev i hc0 hic]
  split_ifs with h
  · rfl
  · rfl

/-- The sorted list of a state splits around any slot on the chain. -/
theorem NoteSet.Rep.sorted_split {s : NoteSet} {l : List Nat} (h : s.Rep l) {c : Nat}
    (hc : c ∈ l) : ∃ A1 A2 B, s.sorted_idx = A1 ++ c :: A2 ++ B ∧
      s.size = A1.length + 1 + A2.length ∧ s.sorted_idx.take s.size = A1 ++ c :: A2 ∧
      c ∉ A1 ∧ c ∉ A2 := by
  have hm : c ∈ s.sorted_idx.take s.size := h.perm.mem_iff.2 hc
  obtain ⟨A1, A2, hA⟩ := List.append_of_mem hm
  have hnd : (A1 ++ c :: A2).Nodup := hA ▸ (h.perm.nodup_iff.2 h.nodup)
  have hlen : (s.sorted_idx.take s.size).length = s.size := by
    rw [List.length_take, h.wf_sorted]
    have := h.size_le
    omega
  refine ⟨A1, A2, s.sorted_idx.drop s.size, ?_, ?_, hA, ?_, ?_⟩
  · rw [← hA, List.take_append_drop]
  · rw [← hlen, hA]; simp; omega
  · intro hc1
    have := List.nodup_append.1 hnd
    exact this.2.2 hc1 (List.mem_cons_self _ _) 
  · intro hc2
    have := (List.nodup_append.1 hnd).2.1
    exact (List.nodup_cons.1 this).1 hc2

/-- Removing the slot `c` of the chain `l1 ++ c :: l2` leaves the chain
`l1 ++ l2`. -/
theorem NoteSet.Rep.note_off_at_hit {s : NoteSet} {l1 l2 : List Nat} {c : Nat} (p : Nat)
    (h : s.Rep (l1 ++ c :: l2)) (hp : s.pitch c = p) :
    (s.note_off_at p c (lastD l1 0)).Rep (l1 ++ l2) := by
  have hcm : c ∈ l1 ++ c :: l2 := by simp
  have hc0 : c ≠ 0 := by have := (h.range c hcm).1; omega
  have hcl : c < s.notes.length := by rw [h.wf_notes]; have := (h.range c hcm).2; omega
  have hnd := h.nodup
  have hc1 : c ∉ l1 := fun hx => (List.nodup_append.1 hnd).2.2 hx (List.mem_cons_self _ _)
  have hc2 : c ∉ l2 := (List.nodup_cons.1 (List.nodup_append.1 hnd).2.1).1
  have hne : ∀ i ∈ l1 ++ l2, i ≠ c := by
    intro i hi
    rcases List.mem_append.1 hi with h1 | h2
    · rintro rfl; exact hc1 h1
    · rintro rfl; exact hc2 h2
  have hsub : (l1 ++ l2).Sublist (l1 ++ c :: l2) := sub_middle l1 l2 c
  have hmem : ∀ i ∈ l1 ++ l2, i ∈ l1 ++ c :: l2 := fun i hi => hsub.subset hi
  have hprev : lastD l1 0 = 0 ∨ (lastD l1 0 ∈ l1 ∧ lastD l1 0 ≠ 0) := by
    by_cases hl : l1 = []
    · left; subst hl; rfl
    · right
      have hm := lastD_mem l1 0 hl
      refine ⟨hm, ?_⟩
      have := (h.range _ (List.mem_append_left _ hm)).1
      omega
  have hpitch : ∀ i ∈ l1 ++ l2, (s.note_off_at p c (lastD l1 0)).pitch i = s.pitch i :=
    fun i hi => note_off_at_pitch s p c _ i hc0 (hne i hi)
  obtain ⟨A1, A2, B, hS, hsz, hT, hcA1, hcA2⟩ := h.sorted_split hcm
  obtain ⟨x, hx⟩ := sorted_remove_spec A1 c A2 B hcA1
  have hlen := h.size_eq
  have hsize : (s.note_off_at p c (lastD l1 0)).size = A1.length + A2.length := by
    rw [note_off_at_size s p c _ hc0, hsz]
    have := h.size_le
    omega
  have hsorted : (s.note_off_at p c (lastD l1 0)).sorted_idx = A1 ++ A2 ++ x :: B := by
    rw [note_off_at_sorted s p c _ hc0, hS, hsz, hx]
  have htake : (s.note_off_at p c (lastD l1 0)).sorted_idx.take
      (s.note_off_at p c (lastD l1 0)).size = A1 ++ A2 := by
    rw [hsorted, hsize]
    exact take_prefix _ _ _ (by simp)
  have hperm : (A1 ++ A2).Perm (l1 ++ l2) := perm_drop_middle (hT ▸ h.perm)
  refine
    { wf_notes := by rw [note_off_at_notes_length]; exact h.wf_notes
      wf_sorted := ?_
      linked := ?_
      nodup := hnd.sublist hsub
      range := fun i hi => h.range i (hmem i hi)
      live := fun i hi => by rw [hpitch i hi]; exact h.live i (hmem i hi)
      free := ?_
      zero := by
        rw [note_off_at_pitch s p c _ 0 hc0 (fun e => hc0 e.symm)]; exact h.zero
      size_eq := ?_
      size_le := by rw [hsize]; have := h.size_le; omega
      uniq := ?_
      perm := htake ▸ hperm
      sorted := ?_
      last := ?_ }
  · have := h.wf_sorted
    rw [hS] at this
    rw [hsorted]
    simp at this ⊢
    omega
  · rcases nil_or_snoc l1 with rfl | ⟨l0, q, rfl⟩
    · have hl := h.linked
      simp only [List.nil_append] at hl ⊢
      rw [note_off_at_root s p c _ hc0]
      simp only [lastD, ne_eq, not_true_eq_false, if_false]
      refine LinkedFrom.unlink_head hl ?_
      intro i hi
      rw [note_off_at_nxt s p c _ i hc0 (by rintro rfl; exact hc2 hi)]
      simp [lastD]
    · have hl := h.linked
      have hq : q ≠ 0 ∧ q < s.notes.length ∧ q ≠ c := by
        have hqm : q ∈ l0 ++ [q] := by simp
        have := h.range q (List.mem_append_left _ hqm)
        rw [h.wf_notes]
        refine ⟨by omega, by omega, ?_⟩
        rintro rfl; exact hc1 hqm
      rw [lastD_concat, note_off_at_root s p c _ hc0]
      simp only [ne_eq, hq.1, not_false_eq_true, if_true]
      have e1 : l0 ++ [q] ++ c :: l2 = l0 ++ q :: c :: l2 := by simp
      have e2 : l0 ++ [q] ++ l2 = l0 ++ q :: l2 := by simp
      rw [e1] at hl hnd
      rw [e2]
      refine LinkedFrom.unlink_mid hl hnd ?_ ?_
      · rw [note_off_at_nxt s p c _ q hc0 hq.2.2]
        simp [hq.1, hq.2.1]
      · intro i hiq hic
        rw [note_off_at_nxt s p c _ i hc0 hic]
        simp [Ne.symm hiq]
  · intro i hi1 hi2 hi3
    by_cases hic : i = c
    · subst hic; exact note_off_at_cur s p i _ hc0 hcl
    · have hil : i ∉ l1 ++ c :: l2 := by
        intro hm
        rcases List.mem_append.1 hm with h1 | h2
        · exact hi3 (List.mem_append_left _ h1)
        · rcases List.mem_cons.1 h2 with h3 | h3
          · exact hic h3
          · exact hi3 (List.mem_append_right _ h3)
      rw [note_off_at_other s p c _ i hc0 hic]
      have : ¬ (lastD l1 0 = i ∧ lastD l1 0 ≠ 0 ∧ lastD l1 0 < s.notes.length) := by
        rintro ⟨e, e0, _⟩
        rcases hprev with h0 | ⟨hm, _⟩
        · exact e0 h0
        · exact hi3 (List.mem_append_left _ (e ▸ hm))
      rw [if_neg this]
      exact h.free i hi1 hi2 hil
  · rw [hsize]
    have := hperm.length_eq
    simpa using this
  · rw [List.map_congr_left hpitch]
    exact h.uniq.sublist (hsub.map _)
  · rw [htake]
    have hpA : ∀ i ∈ A1 ++ A2, (s.note_off_at p c (lastD l1 0)).pitch i = s.pitch i :=
      fun i hi => hpitch i (hperm.mem_iff.1 hi)
    rw [List.map_congr_left hpA]
    have := h.sorted
    rw [hT] at this
    exact this.sublist ((sub_middle A1 A2 c).map _)
  · rw [note_off_at_last, List.map_congr_left hpitch]
    by_cases hpl : p = s.last_played
    · left; simp [hpl]
    · rw [if_neg hpl]
      rcases h.last with h0 | hm
      · left; exact h0
      · right
        rcases List.mem_map.1 hm with ⟨i, hi, hie⟩
        have hic : i ≠ c := by
          rintro rfl
          exact hpl (hp.symm.trans hie)
        refine List.mem_map.2 ⟨i, ?_, hie⟩
        rcases List.mem_append.1 hi with h1 | h2
        · exact List.mem_append_left _ h1
        · rcases List.mem_cons.1 h2 with h3 | h3
          · exact absurd h3 hic
          · exact List.mem_append_right _ h3

theorem NoteSet.Rep.linked_rd {s : NoteSet} {l : List Nat} (h : s.Rep l) :
    LinkedFrom (fun i => (NoteSet.rd s.notes i).next_idx) s.root_idx l := h.linked

theorem NoteSet.Rep.pitch_inj {s : NoteSet} {l : List Nat} (h : s.Rep l) {i j : Nat}
    (hi : i ∈ l) (hj : j ∈ l) (e : s.pitch i = s.pitch j) : i = j :=
  List.inj_on_of_nodup_map h.uniq hi hj e

theorem NoteSet.Rep.length_lt {s : NoteSet} {l : List Nat} (h : s.Rep l) : l.length < 256 := by
  have := h.size_le
  have := h.size_eq
  omega

/-- A pitch is either absent from the chain or sits in exactly one slot. -/
theorem held_split (s : NoteSet) (l : List Nat) (p : Nat) :
    p ∉ l.map s.pitch ∨ ∃ l1 c l2, l = l1 ++ c :: l2 ∧ s.pitch c = p := by
  by_cases hm : p ∈ l.map s.pitch
  · right
    obtain ⟨c, hc, hcp⟩ := List.mem_map.1 hm
    obtain ⟨l1, l2, e⟩ := List.append_of_mem hc
    exact ⟨l1, c, l2, e, hcp⟩
  · left; exact hm

/-- A `note_off` of a pitch that is not held returns the state itself. -/
theorem NoteSet.Rep.note_off_miss {s : NoteSet} {l : List Nat} (h : s.Rep l) {p : Nat}
    (hp : p ∉ l.map s.pitch) : s.note_off p = some s := by
  have hne : ∀ i ∈ l, (NoteSet.rd s.notes i).note ≠ p :=
    fun i hi e => hp (List.mem_map.2 ⟨i, hi, e⟩)
  unfold NoteSet.note_off
  rw [note_off_find_miss s.notes p l 256 s.root_idx 0 h.linked_rd hne h.length_lt]
  simp only [note_off_at_zero]
  have hl : (if p = s.last_played then EMPTY_NOTE else s.last_played) = s.last_played := by
    split_ifs with e
    · rcases h.last with h0 | hm
      · rw [h0]; rfl
      · exact absurd (e ▸ hm) hp
    · rfl
  rw [hl]

/-- A `note_off` of the pitch held in slot `c` runs `note_off_at` on `c`. -/
theorem NoteSet.Rep.note_off_hit {s : NoteSet} {l1 l2 : List Nat} {c : Nat} {p : Nat}
    (h : s.Rep (l1 ++ c :: l2)) (hp : s.pitch c = p) :
    s.note_off p = some (s.note_off_at p c (lastD l1 0)) := by
  have hcm : c ∈ l1 ++ c :: l2 := by simp
  have hne : ∀ i ∈ l1, (NoteSet.rd s.notes i).note ≠ p := by
    intro i hi e
    have hic : i = c := h.pitch_inj (List.mem_append_left _ hi) hcm (e.trans hp.symm)
    subst hic
    exact (List.nodup_append.1 h.nodup).2.2 hi (List.mem_cons_self _ _)
  unfold NoteSet.note_off
  rw [note_off_find_hit s.notes p c l2 hp l1 256 s.root_idx 0 h.linked_rd hne
    (by have := h.length_lt; simp at this; omega)]

theorem sorted_insert_take (ns : List NoteInfo) (S : List Nat) (size p f : Nat)
    (hS : size < S.length) (hf0 : f ≠ 0) (hfp : (NoteSet.rd ns f).note = p)
    (hpw : ((S.take size).map (fun i => (NoteSet.rd ns i).note)).Pairwise (· < ·))
    (hnp : ∀ i ∈ S.take size, (NoteSet.rd ns i).note ≠ p) :
    (NoteSet.sorted_insert ns S size p f).length = S.length ∧
    ((NoteSet.sorted_insert ns S size p f).take (size + 1)).Perm (f :: S.take size) ∧
    (((NoteSet.sorted_insert ns S size p f).take (size + 1)).map
      (fun i => (NoteSet.rd ns i).note)).Pairwise (· < ·) := by
  have hlenA : (S.take size).length = size := by rw [List.length_take]; omega
  obtain ⟨b, B, hB⟩ : ∃ b B, S.drop size = b :: B := by
    cases hd : S.drop size with
    | nil =>
      have := congrArg List.length hd
      simp at this; omega
    | cons b B => exact ⟨b, B, rfl⟩
  have hSe : S = S.take size ++ b :: B := by rw [← hB, List.take_append_drop]
  generalize hA : S.take size = A at hlenA hpw hnp hSe
  subst hSe
  rcases split_first (fun y => decide ((NoteSet.rd ns y).note > p)) A with hall | ⟨A1, a, A2, rfl, ha, h1⟩
  · have hall1 : ∀ x ∈ A, ¬ (NoteSet.rd ns x).note > p := by
      intro x hx; simpa using hall x hx
    have e := sorted_insert_end ns p f A b B hf0 hall1
    rw [hlenA] at e
    rw [e]
    have et : (A ++ f :: B).take (size + 1) = A ++ [f] := by
      have : A ++ f :: B = (A ++ [f]) ++ B := by simp
      rw [this]
      exact take_prefix _ _ _ (by simp [hlenA])
    rw [et]
    refine ⟨by simp, List.perm_append_singleton f A, ?_⟩
    rw [List.map_append, List.pairwise_append]
    refine ⟨hpw, by simp, ?_⟩
    intro x hx y hy
    simp only [List.map_cons, List.map_nil, List.mem_singleton] at hy
    obtain ⟨i, hi, rfl⟩ := List.mem_map.1 hx
    have h1 := hall1 i hi
    have h2 := hnp i hi
    simp only at h1 h2 ⊢
    omega
  · have ha1 : (NoteSet.rd ns a).note > p := by simpa using ha
    have h11 : ∀ x ∈ A1, ¬ (NoteSet.rd ns x).note > p := by
      intro x hx; simpa using h1 x hx
    have e := sorted_insert_mid ns p f A1 a A2 b B ha1 h11
    have hsz : size = A1.length + 1 + A2.length := by
      rw [← hlenA]; simp; omega
    rw [← hsz] at e
    rw [e]
    have et : (A1 ++ f :: a :: A2 ++ B).take (size + 1) = A1 ++ f :: a :: A2 :=
      take_prefix _ _ _ (by simp [hsz]; omega)
    rw [et]
    refine ⟨by simp; omega, List.perm_middle, ?_⟩
    rw [List.map_append, List.pairwise_append] at hpw ⊢
    obtain ⟨hp1, hp2, hp3⟩ := hpw
    simp only [List.map_cons, List.pairwise_cons] at hp2 ⊢
    refine ⟨hp1, ⟨?_, hp2⟩, ?_⟩
    · intro y hy
      rw [hfp]
      rcases List.mem_cons.1 hy with rfl | hy
      · exact ha1
      · have := hp2.1 y hy
        omega
    · intro x hx y hy
      obtain ⟨i, hi, rfl⟩ := List.mem_map.1 hx
      rcases List.mem_cons.1 hy with rfl | hy
      · have h1 := h11 i hi
        have h2 := hnp i (List.mem_append_left _ hi)
        rw [hfp]
        simp only at h1 h2 ⊢
        omega
      · exact hp3 _ hx y hy

/-- Below capacity some slot of `1..10` is off the chain. -/
theorem NoteSet.Rep.exists_free {s : NoteSet} {l : List Nat} (h : s.Rep l)
    (hs : s.size < 10) : ∃ i, 1 ≤ i ∧ i ≤ 10 ∧ i ∉ l := by
  by_contra hcon
  have hsub : List.range' 1 10 ⊆ l := by
    intro i hi
    rw [List.mem_range'_1] at hi
    by_contra hil
    exact hcon ⟨i, hi.1, by omega, hil⟩
  have := ((List.nodup_range' 1 10).subperm hsub).length_le
  rw [List.length_range', ← h.size_eq] at this
  omega

/-- At capacity every slot of `1..10` is on the chain. -/
theorem NoteSet.Rep.full {s : NoteSet} {l : List Nat} (h : s.Rep l)
    (hs : s.size = 10) : ∀ i, 1 ≤ i → i ≤ 10 → i ∈ l := by
  have hsub : l ⊆ List.range' 1 10 := by
    intro i hi
    rw [List.mem_range'_1]
    have := h.range i hi
    omega
  have hp := (h.nodup.subperm hsub).perm_of_length_le
    (by rw [List.length_range', ← h.size_eq, hs])
  intro i h1 h2
  exact hp.mem_iff.2 (by rw [List.mem_range'_1]; omega)

theorem NoteSet.Rep.find_free_spec {s : NoteSet} {l : List Nat} (h : s.Rep l)
    (hs : s.size < 10) :
    1 ≤ NoteSet.find_free s.notes ∧ NoteSet.find_free s.notes ≤ 10 ∧
    NoteSet.find_free s.notes ∉ l ∧
    s.note (NoteSet.find_free s.notes) = ⟨255, 0, 0⟩ := by
  obtain ⟨i, hi1, hi2, hil⟩ := h.exists_free hs
  have hfi := h.free i hi1 hi2 hil
  unfold NoteSet.find_free
  cases hf : (List.range' 1 NoteSet.capacity).find?
      (fun i => (NoteSet.rd s.notes i).note == EMPTY_NOTE) with
  | none =>
    rw [List.find?_eq_none] at hf
    have := hf i (by rw [List.mem_range'_1]; simp [NoteSet.capacity, SET_SIZE]; omega)
    have e : (NoteSet.rd s.notes i).note = 255 := by
      have := congrArg NoteInfo.note hfi
      exact this
    simp [e, EMPTY_NOTE] at this
  | some f =>
    have hP := List.find?_some hf
    have hm := List.mem_of_find?_eq_some hf
    rw [List.mem_range'_1] at hm
    simp only [NoteSet.capacity, SET_SIZE] at hm
    have hpf : s.pitch f = 255 := by simpa [EMPTY_NOTE] using hP
    have hfl : f ∉ l := fun hx => h.live f hx hpf
    show 1 ≤ f ∧ f ≤ 10 ∧ f ∉ l ∧ s.note f = ⟨255, 0, 0⟩
    exact ⟨hm.1, by omega, hfl, h.free f hm.1 (by omega) hfl⟩

theorem note_on_insert_notes_length (s : NoteSet) (p v : Nat) :
    (s.note_on_insert p v).notes.length = s.notes.length := by
  simp [NoteSet.note_on_insert]

theorem note_on_insert_new (s : NoteSet) (p v : Nat)
    (hf : NoteSet.find_free s.notes < s.notes.length) :
    (s.note_on_insert p v).note (NoteSet.find_free s.notes) = ⟨p, v, s.root_idx⟩ := by
  simp [NoteSet.note_on_insert, NoteSet.note, rd_set, hf]

theorem note_on_insert_other (s : NoteSet) (p v i : Nat)
    (hi : i ≠ NoteSet.find_free s.notes) :
    (s.note_on_insert p v).note i = s.note i := by
  simp [NoteSet.note_on_insert, NoteSet.note, rd_set, Ne.symm hi]

theorem note_on_insert_root (s : NoteSet) (p v : Nat) :
    (s.note_on_insert p v).root_idx = NoteSet.find_free s.notes := rfl

theorem note_on_insert_size (s : NoteSet) (p v : Nat) :
    (s.note_on_insert p v).size = (s.size + 1) % 256 := rfl

theorem note_on_insert_priority (s : NoteSet) (p v : Nat) :
    (s.note_on_insert p v).the_priority = s.the_priority := rfl

theorem note_on_insert_last (s : NoteSet) (p v : Nat) :
    (s.note_on_insert p v).last_played = s.last_played := rfl

theorem note_on_insert_sorted (s : NoteSet) (p v : Nat) :
    (s.note_on_insert p v).sorted_idx =
      NoteSet.sorted_insert (s.note_on_insert p v).notes s.sorted_idx s.size p
        (NoteSet.find_free s.notes) := rfl

/-- Below capacity, inserting a pitch that is not held puts the first free
slot in front of the chain. -/
theorem NoteSet.Rep.note_on_insert {s : NoteSet} {l : List Nat} (h : s.Rep l)
    (hs : s.size < 10) (p v : Nat) (hp255 : p ≠ 255) (hnp : p ∉ l.map s.pitch) :
    (s.note_on_insert p v).Rep (NoteSet.find_free s.notes :: l) := by
  obtain ⟨hf1, hf2, hfl, hff⟩ := h.find_free_spec hs
  have hflen : NoteSet.find_free s.notes < s.notes.length := by rw [h.wf_notes]; omega
  have hne : ∀ i ∈ l, i ≠ NoteSet.find_free s.notes := fun i hi e => hfl (e ▸ hi)
  have hnote : ∀ i ∈ l, (s.note_on_insert p v).note i = s.note i :=
    fun i hi => note_on_insert_other s p v i (hne i hi)
  have hpitch : ∀ i ∈ l, (s.note_on_insert p v).pitch i = s.pitch i :=
    fun i hi => congrArg NoteInfo.note (hnote i hi)
  have hnew := note_on_insert_new s p v hflen
  have hpnew : (s.note_on_insert p v).pitch (NoteSet.find_free s.notes) = p :=
    congrArg NoteInfo.note hnew
  have hsize : (s.note_on_insert p v).size = s.size + 1 := by
    rw [note_on_insert_size]; omega
  have htl : ∀ i ∈ s.sorted_idx.take s.size, i ∈ l := fun i hi => h.perm.mem_iff.1 hi
  have hmap : (s.sorted_idx.take s.size).map (s.note_on_insert p v).pitch
      = (s.sorted_idx.take s.size).map s.pitch :=
    List.map_congr_left (fun i hi => hpitch i (htl i hi))
  obtain ⟨hS1, hS2, hS3⟩ := sorted_insert_take (s.note_on_insert p v).notes s.sorted_idx
    s.size p (NoteSet.find_free s.notes) (by rw [h.wf_sorted]; omega) (by omega) hpnew
    (by
      have := h.sorted
      rw [← hmap] at this
      exact this)
    (by
      intro i hi e
      have : s.pitch i = p := (hpitch i (htl i hi)).symm.trans e
      exact hnp (List.mem_map.2 ⟨i, htl i hi, this⟩))
  rw [← note_on_insert_sorted] at hS1 hS2 hS3
  refine
    { wf_notes := by rw [note_on_insert_notes_length]; exact h.wf_notes
      wf_sorted := hS1.trans h.wf_sorted
      linked := ?_
      nodup := List.nodup_cons.2 ⟨hfl, h.nodup⟩
      range := ?_
      live := ?_
      free := ?_
      zero := ?_
      size_eq := by rw [hsize, h.size_eq]; rfl
      size_le := by rw [hsize]; omega
      uniq := ?_
      perm := by rw [hsize]; exact hS2.trans (h.perm.cons _)
      sorted := by rw [hsize]; exact hS3
      last := ?_ }
  · refine ⟨rfl, by omega, ?_⟩
    have e : (s.note_on_insert p v).nxt (NoteSet.find_free s.notes) = s.root_idx :=
      congrArg NoteInfo.next_idx hnew
    rw [e]
    exact LinkedFrom.congr (fun i hi => congrArg NoteInfo.next_idx (hnote i hi)) h.linked
  · intro i hi
    rcases List.mem_cons.1 hi with rfl | hi
    · exact ⟨hf1, hf2⟩
    · exact h.range i hi
  · intro i hi
    rcases List.mem_cons.1 hi with rfl | hi
    · rw [hpnew]; exact hp255
    · rw [hpitch i hi]; exact h.live i hi
  · intro i hi1 hi2 hi3
    simp only [List.mem_cons, not_or] at hi3
    rw [note_on_insert_other s p v i hi3.1]
    exact h.free i hi1 hi2 hi3.2
  · have : (s.note_on_insert p v).note 0 = s.note 0 :=
      note_on_insert_other s p v 0 (by omega)
    exact (congrArg NoteInfo.note this).trans h.zero
  · rw [List.map_cons, hpnew, List.map_congr_left hpitch]
    exact List.nodup_cons.2 ⟨hnp, h.uniq⟩
  · rw [note_on_insert_last, List.map_cons, List.map_congr_left hpitch]
    rcases h.last with h0 | hm
    · exact Or.inl h0
    · exact Or.inr (List.mem_cons_of_mem _ hm)

theorem LinkedFrom.root_ne_zero {nx : Nat → Nat} {r b : Nat} {m : List Nat}
    (h : LinkedFrom nx r (b :: m)) : r ≠ 0 := by
  obtain ⟨h1, h2, _⟩ := h
  rw [h1]; exact h2

theorem LinkedFrom.link_ne_zero {nx : Nat → Nat} : ∀ {l : List Nat} {r : Nat} (x : Nat),
    LinkedFrom nx r (l ++ [x]) → ∀ i ∈ l, nx i ≠ 0
  | [], _, _, _ => by simp
  | a :: l, r, x, h => by
    intro i hi
    rcases List.mem_cons.1 hi with rfl | hi
    · have h3 := h.2.2
      cases l with
      | nil => exact LinkedFrom.root_ne_zero h3
      | cons b m => exact LinkedFrom.root_ne_zero h3
    · exact LinkedFrom.link_ne_zero x h.2.2 i hi

theorem evict_fold_keep (ns : List NoteInfo) : ∀ (Y : List Nat) (acc : Nat),
    (∀ i ∈ Y, (NoteSet.rd ns i).next_idx ≠ 0) →
    Y.foldl (fun least i => if (NoteSet.rd ns i).next_idx = 0 then (NoteSet.rd ns i).note
      else least) acc = acc
  | [], _, _ => rfl
  | a :: Y, acc, h => by
    rw [List.foldl_cons, if_neg (h a (List.mem_cons_self _ _))]
    exact evict_fold_keep ns Y acc (fun i hi => h i (List.mem_cons_of_mem _ hi))

/-- At capacity the eviction scan returns the pitch of the chain's tail. -/
theorem NoteSet.Rep.evict_scan_eq {s : NoteSet} {l0 : List Nat} {t : Nat}
    (h : s.Rep (l0 ++ [t])) (hs : s.size = 10) :
    NoteSet.evict_scan s.notes = s.pitch t := by
  have ht : t ∈ l0 ++ [t] := by simp
  have htr := h.range t ht
  have htm : t ∈ List.range' 1 10 := by rw [List.mem_range'_1]; omega
  obtain ⟨X, Y, hXY⟩ := List.append_of_mem htm
  have hnd : (X ++ t :: Y).Nodup := hXY ▸ List.nodup_range' 1 10
  have htY : t ∉ Y := (List.nodup_cons.1 (List.nodup_append.1 hnd).2.1).1
  have hY : ∀ i ∈ Y, (NoteSet.rd s.notes i).next_idx ≠ 0 := by
    intro i hi
    have him : i ∈ List.range' 1 10 := by rw [hXY]; simp [hi]
    rw [List.mem_range'_1] at him
    have hil := h.full hs i him.1 (by omega)
    rcases List.mem_append.1 hil with h1 | h1
    · exact LinkedFrom.link_ne_zero t h.linked i h1
    · simp only [List.mem_singleton] at h1
      subst h1
      exact absurd hi htY
  have ht0 : (NoteSet.rd s.notes t).next_idx = 0 := LinkedFrom.last_link t h.linked
  unfold NoteSet.evict_scan
  simp only [NoteSet.capacity, SET_SIZE]
  rw [hXY, List.foldl_append, List.foldl_cons, if_pos ht0, evict_fold_keep s.notes Y _ hY]
  rfl

theorem NoteSet.Rep.note_on_fresh {s : NoteSet} {l : List Nat} (h : s.Rep l)
    (hs : s.size < 10) (p v : Nat) (hnp : p ∉ l.map s.pitch) :
    s.note_on p v = some (s.note_on_insert p v) := by
  unfold NoteSet.note_on
  rw [h.note_off_miss hnp]
  have : s.size ≠ NoteSet.capacity := by simp [NoteSet.capacity, SET_SIZE]; omega
  simp [this]

theorem NoteSet.Rep.note_on_full {s : NoteSet} {l0 : List Nat} {t : Nat}
    (h : s.Rep (l0 ++ [t])) (hs : s.size = 10) (p v : Nat)
    (hnp : p ∉ (l0 ++ [t]).map s.pitch) :
    s.note_on p v = some ((s.note_off_at (s.pitch t) t (lastD l0 0)).note_on_insert p v) := by
  unfold NoteSet.note_on
  rw [h.note_off_miss hnp]
  have : s.size = NoteSet.capacity := by simp [NoteSet.capacity, SET_SIZE, hs]
  simp only [this, if_true]
  rw [h.evict_scan_eq hs, h.note_off_hit rfl]

theorem NoteSet.Rep.note_on_again {s : NoteSet} {l1 l2 : List Nat} {c : Nat} {p : Nat}
    (h : s.Rep (l1 ++ c :: l2)) (hp : s.pitch c = p) (v : Nat) :
    s.note_on p v = some ((s.note_off_at p c (lastD l1 0)).note_on_insert p v) := by
  unfold NoteSet.note_on
  rw [h.note_off_hit hp]
  have hc0 : c ≠ 0 := by have := (h.range c (by simp)).1; omega
  have : (s.note_off_at p c (lastD l1 0)).size ≠ NoteSet.capacity := by
    rw [note_off_at_size s p c _ hc0]
    have := h.size_le
    simp [NoteSet.capacity, SET_SIZE]
    omega
  simp [this]

/-! ## Initialisation -/

theorem cons_of_length (l : List α) (n : Nat) (h : l.length = n + 1) :
    ∃ a t, l = a :: t ∧ t.length = n := by
  cases l with
  | nil => simp at h
  | cons a t => exact ⟨a, t, rfl, by simpa using h⟩

theorem list_eleven (l : List α) (h : l.length = 11) :
    ∃ a0 a1 a2 a3 a4 a5 a6 a7 a8 a9 a10, l = [a0, a1, a2, a3, a4, a5, a6, a7, a8, a9, a10] := by
  obtain ⟨a0, l, rfl, h0⟩ := cons_of_length l 10 h
  obtain ⟨a1, l, rfl, h1⟩ := cons_of_length l 9 h0
  obtain ⟨a2, l, rfl, h2⟩ := cons_of_length l 8 h1
  obtain ⟨a3, l, rfl, h3⟩ := cons_of_length l 7 h2
  obtain ⟨a4, l, rfl, h4⟩ := cons_of_length l 6 h3
  obtain ⟨a5, l, rfl, h5⟩ := cons_of_length l 5 h4
  obtain ⟨a6, l, rfl, h6⟩ := cons_of_length l 4 h5
  obtain ⟨a7, l, rfl, h7⟩ := cons_of_length l 3 h6
  obtain ⟨a8, l, rfl, h8⟩ := cons_of_length l 2 h7
  obtain ⟨a9, l, rfl, h9⟩ := cons_of_length l 1 h8
  obtain ⟨a10, l, rfl, h10⟩ := cons_of_length l 0 h9
  have : l = [] := List.length_eq_zero.1 h10
  subst this
  exact ⟨a0, a1, a2, a3, a4, a5, a6, a7, a8, a9, a10, rfl⟩

theorem range_one_ten : List.range' 1 10 = [1, 2, 3, 4, 5, 6, 7, 8, 9, 10] := by decide

theorem range_eleven : List.range (10 + 1) = [0, 1, 2, 3, 4, 5, 6, 7, 8, 9, 10] := by decide

/-- The state `init` leaves behind: only `velocity` and `next_idx` of slot 0
and `sorted_idx[0]` survive from the state before. -/
theorem init_eq (s0 : NoteSet) (m : Nat) (h : s0.WellFormed) :
    s0.init m =
      { size := 0
        notes := ⟨255, (s0.note 0).velocity, (s0.note 0).next_idx⟩ ::
          List.replicate 10 ⟨255, 0, 0⟩
        root_idx := 0
        sorted_idx := s0.sorted 0 :: List.replicate 10 0
        the_priority := m
        last_played := 255 } := by
  obtain ⟨sz, ns, r, so, pr, lp⟩ := s0
  obtain ⟨h1, h2⟩ := h
  simp only [SET_SIZE] at h1 h2
  obtain ⟨a0, a1, a2, a3, a4, a5, a6, a7, a8, a9, a10, rfl⟩ := list_eleven ns h1
  obtain ⟨b0, b1, b2, b3, b4, b5, b6, b7, b8, b9, b10, rfl⟩ := list_eleven so h2
  simp only [NoteSet.init, NoteSet.capacity, SET_SIZE, range_one_ten, range_eleven,
    List.foldl_cons, List.foldl_nil, List.set_cons_succ, List.set_cons_zero, NoteSet.rd,
    NoteSet.note, NoteSet.sorted, EMPTY_NOTE, List.getD_cons_succ, List.getD_cons_zero,
    List.replicate]

theorem init_rep (s0 : NoteSet) (m : Nat) (h : s0.WellFormed) : (s0.init m).Rep [] := by
  rw [init_eq s0 m h]
  refine
    { wf_notes := rfl
      wf_sorted := rfl
      linked := rfl
      nodup := List.nodup_nil
      range := by simp
      live := by simp
      free := ?_
      zero := rfl
      size_eq := rfl
      size_le := by simp
      uniq := by simp
      perm := by simp
      sorted := by simp
      last := Or.inl rfl }
  intro i h1 h2 _
  interval_cases i <;> rfl

/-! ## Queries and reachable states -/

theorem NoteSet.Rep.take_length {s : NoteSet} {l : List Nat} (h : s.Rep l) :
    (s.sorted_idx.take s.size).length = s.size := by
  rw [List.length_take, h.wf_sorted]
  have := h.size_le
  omega

theorem NoteSet.Rep.sorted_note_take {s : NoteSet} {l : List Nat} (h : s.Rep l) {i : Nat}
    (hi : i < s.size) :
    s.sorted_note i = (s.sorted_idx.take s.size).get ⟨i, by rw [h.take_length]; exact hi⟩ := by
  have hl : i < s.sorted_idx.length := by rw [h.wf_sorted]; have := h.size_le; omega
  unfold NoteSet.sorted_note
  rw [List.getD_eq_getElem _ _ hl]
  simp [List.getElem_take]

theorem NoteSet.Rep.sorted_note_mem {s : NoteSet} {l : List Nat} (h : s.Rep l) {i : Nat}
    (hi : i < s.size) : s.sorted_note i ∈ l := by
  rw [h.sorted_note_take hi]
  exact h.perm.mem_iff.1 (List.get_mem _ _ _)

theorem NoteSet.Rep.root_mem {s : NoteSet} {l : List Nat} (h : s.Rep l)
    (hs : s.size ≠ 0) : s.root_idx ∈ l := by
  have hl := h.linked
  cases l with
  | nil => exact absurd h.size_eq hs
  | cons a l => rw [hl.1]; exact List.mem_cons_self _ _

/-- The slot `note_by_priority` returns is the sentinel or a slot of the chain. -/
theorem NoteSet.Rep.priority_mem {s : NoteSet} {l : List Nat} (h : s.Rep l) (pr : Nat) :
    s.note_by_priority pr = 0 ∨ s.note_by_priority pr ∈ l := by
  unfold NoteSet.note_by_priority NoteSet.get_size NoteSet.no_note NoteSet.most_recent_note
  by_cases hs : s.size = 0
  · left; simp [hs]
  · rw [if_neg hs]
    split_ifs
    · right; exact h.root_mem hs
    · right; exact h.sorted_note_mem (by omega)
    · right; exact h.sorted_note_mem (by omega)
    · left; rfl

theorem NoteSet.Rep.set_last {s : NoteSet} {l : List Nat} (h : s.Rep l) (x : Nat)
    (hx : x = 255 ∨ x ∈ l.map s.pitch) : ({ s with last_played := x } : NoteSet).Rep l :=
  { wf_notes := h.wf_notes
    wf_sorted := h.wf_sorted
    linked := h.linked
    nodup := h.nodup
    range := h.range
    live := h.live
    free := h.free
    zero := h.zero
    size_eq := h.size_eq
    size_le := h.size_le
    uniq := h.uniq
    perm := h.perm
    sorted := h.sorted
    last := hx }

theorem NoteSet.Rep.get_next_note {s : NoteSet} {l : List Nat} (h : s.Rep l) :
    s.get_next_note.1.Rep l := by
  unfold NoteSet.get_next_note
  simp only
  split_ifs with hc
  · refine h.set_last _ (Or.inr ?_)
    rcases h.priority_mem s.the_priority with h0 | hm
    · rw [h0] at hc
      exact absurd h.zero hc.1
    · exact List.mem_map.2 ⟨_, hm, rfl⟩
  · exact h

/-- One valid call on a represented state returns, and the state after it is
represented again. -/
theorem NoteSet.Rep.step_ok {s : NoteSet} {l : List Nat} (h : s.Rep l) (o : Op) (hv : o.valid) :
    ∃ s1 l1, s.step o = some s1 ∧ s1.Rep l1 := by
  cases o with
  | note_on p v =>
    obtain ⟨_, _, hp⟩ := hv
    have hp255 : p ≠ 255 := hp
    rcases held_split s l p with hnp | ⟨l1, c, l2, rfl, hc⟩
    · by_cases hs : s.size < 10
      · exact ⟨_, _, h.note_on_fresh hs p v hnp, h.note_on_insert hs p v hp255 hnp⟩
      · have hs10 : s.size = 10 := by have := h.size_le; omega
        rcases nil_or_snoc l with rfl | ⟨l0, t, rfl⟩
        · have := h.size_eq
          simp at this; omega
        · have h1 := h.note_off_at_hit (s.pitch t) rfl
          rw [List.append_nil] at h1
          have ht0 : t ≠ 0 := by have := (h.range t (by simp)).1; omega
          refine ⟨_, _, h.note_on_full hs10 p v hnp, h1.note_on_insert ?_ p v hp255 ?_⟩
          · rw [note_off_at_size s _ t _ ht0, hs10]; decide
          · intro hm
            obtain ⟨i, hi, hie⟩ := List.mem_map.1 hm
            have hit : i ≠ t := by
              rintro rfl
              exact (List.nodup_append.1 h.nodup).2.2 hi (List.mem_singleton_self _)
            rw [note_off_at_pitch s _ t _ i ht0 hit] at hie
            exact hnp (List.mem_map.2 ⟨i, List.mem_append_left _ hi, hie⟩)
    · have h1 := h.note_off_at_hit p hc
      have hc0 : c ≠ 0 := by have := (h.range c (by simp)).1; omega
      refine ⟨_, _, h.note_on_again hc v, h1.note_on_insert ?_ p v hp255 ?_⟩
      · rw [note_off_at_size s p c _ hc0]
        have := h.size_le
        have := h.size_eq
        simp at this
        omega
      · intro hm
        obtain ⟨i, hi, hie⟩ := List.mem_map.1 hm
        have hic : i ≠ c := by
          rintro rfl
          rcases List.mem_append.1 hi with h2 | h2
          · exact (List.nodup_append.1 h.nodup).2.2 h2 (List.mem_cons_self _ _)
          · exact (List.nodup_cons.1 (List.nodup_append.1 h.nodup).2.1).1 h2
        rw [note_off_at_pitch s p c _ i hc0 hic] at hie
        have him : i ∈ l1 ++ c :: l2 := (sub_middle l1 l2 c).subset hi
        exact hic (h.pitch_inj him (by simp) (hie.trans hc.symm))
  | note_off p =>
    rcases held_split s l p with hnp | ⟨l1, c, l2, rfl, hc⟩
    · exact ⟨s, l, h.note_off_miss hnp, h⟩
    · exact ⟨_, _, h.note_off_hit hc, h.note_off_at_hit p hc⟩
  | get_next_note => exact ⟨_, l, rfl, h.get_next_note⟩

/-- Every reachable state is represented by some chain. -/
theorem reachedBy_rep {ops : List Op} {s : NoteSet} (h : NoteSet.ReachedBy ops s) :
    ∃ l, s.Rep l := by
  induction h with
  | init s0 m hw => exact ⟨[], init_rep s0 m hw⟩
  | step o _ hv hs ih =>
    obtain ⟨l, hl⟩ := ih
    obtain ⟨s2, l2, e, h2⟩ := hl.step_ok o hv
    rw [e] at hs
    cases hs
    exact ⟨l2, h2⟩

theorem reachable_rep {s : NoteSet} (h : s.Reachable) : ∃ l, s.Rep l := by
  obtain ⟨ops, h⟩ := h
  exact reachedBy_rep h

theorem NoteSet.Rep.chain_eq {s : NoteSet} {l : List Nat} (h : s.Rep l) : s.chain = l :=
  chainFrom_eq s.notes l 256 s.root_idx h.linked_rd (by have := h.length_lt; omega)

theorem LinkedFrom.iterate {nx : Nat → Nat} : ∀ {l : List Nat} {r : Nat} (k : Nat),
    LinkedFrom nx r l → k ≤ l.length → Nat.iterate nx k r = l.getD k 0
  | [], r, k, h, hk => by
    have h0 : r = 0 := h
    have hk0 : k = 0 := by simpa using hk
    subst h0 hk0
    rfl
  | a :: l, r, 0, h, _ => by
    simp [h.1]
  | a :: l, r, k + 1, h, hk => by
    rw [Function.iterate_succ_apply, h.1]
    rw [LinkedFrom.iterate k h.2.2 (by simpa using hk)]
    simp

theorem least_recent_walk_eq (ns : List NoteInfo) :
    ∀ (l : List Nat) (fuel r : Nat),
    LinkedFrom (fun i => (NoteSet.rd ns i).next_idx) r l → l.length < fuel →
    NoteSet.least_recent_walk ns fuel r = some (lastD l 0)
  | [], fuel, r, h, hf => by
    obtain ⟨f, rfl⟩ : ∃ f, fuel = f + 1 := ⟨fuel - 1, by simp at hf; omega⟩
    have h0 : r = 0 := h
    subst h0
    simp [NoteSet.least_recent_walk, lastD]
  | [a], fuel, r, h, hf => by
    obtain ⟨f, rfl⟩ : ∃ f, fuel = f + 1 := ⟨fuel - 1, by simp at hf; omega⟩
    obtain ⟨h1, _, h3⟩ := h
    have h3' : (NoteSet.rd ns a).next_idx = 0 := h3
    subst h1
    simp [NoteSet.least_recent_walk, lastD, h3']
  | a :: b :: l, fuel, r, h, hf => by
    obtain ⟨f, rfl⟩ : ∃ f, fuel = f + 1 := ⟨fuel - 1, by simp at hf; omega⟩
    obtain ⟨h1, h2, h3⟩ := h
    have hb : (NoteSet.rd ns a).next_idx ≠ 0 := LinkedFrom.root_ne_zero h3
    subst h1
    simp only [NoteSet.least_recent_walk, ne_eq, h2, not_false_eq_true, hb, and_self, if_true]
    rw [least_recent_walk_eq ns (b :: l) f _ h3 (by simp at hf ⊢; omega)]
    rfl

theorem NoteSet.Rep.least_recent_eq {s : NoteSet} {l : List Nat} (h : s.Rep l) :
    s.least_recent_note = some (lastD l 0) :=
  least_recent_walk_eq s.notes l 256 s.root_idx h.linked_rd h.length_lt

theorem NoteSet.Rep.played_note_eq {s : NoteSet} {l : List Nat} (h : s.Rep l) {r : Nat}
    (hr : r < s.size) : s.played_note r = l.getD (s.size - 1 - r) 0 := by
  unfold NoteSet.played_note
  have hle := h.size_le
  have e : (((s.size : Int) - (r : Int) - 1) % 256).toNat = s.size - 1 - r := by omega
  simp only [e]
  exact LinkedFrom.iterate _ h.linked_rd (by rw [← h.size_eq]; omega)

theorem NoteSet.Rep.most_recent_eq {s : NoteSet} {l : List Nat} (h : s.Rep l) :
    s.most_recent_note = l.headD 0 := h.linked.root_eq

theorem NoteSet.Rep.held_eq {s : NoteSet} {l : List Nat} (h : s.Rep l) :
    s.held = l.map s.vals := by
  unfold NoteSet.held
  rw [h.chain_eq]
  rfl

theorem NoteSet.Rep.pitches_eq {s : NoteSet} {l : List Nat} (h : s.Rep l) :
    s.pitches = l.map s.pitch := by
  unfold NoteSet.pitches
  rw [h.chain_eq]
  rfl

theorem held_pitches (s : NoteSet) : s.held.map Prod.fst = s.pitches := by
  unfold NoteSet.held NoteSet.pitches
  rw [List.map_map]
  rfl

theorem NoteSet.Rep.sorted_slots_eq {s : NoteSet} {l : List Nat} (h : s.Rep l) :
    s.sorted_slots = s.sorted_idx.take s.size := by
  apply List.ext_get
  · simp [NoteSet.sorted_slots, h.take_length]
  · intro i h1 h2
    have hi : i < s.size := by simpa [NoteSet.sorted_slots] using h1
    have := h.sorted_note_take hi
    simp only [NoteSet.sorted_slots, List.get_eq_getElem, List.getElem_map,
      List.getElem_range] at this ⊢
    exact this

/-! ## Transitions on the list of held notes -/

theorem lastD_eq_getD : ∀ (l : List Nat) (d : Nat), l ≠ [] →
    lastD l d = l.getD (l.length - 1) 0
  | [], _, h => absurd rfl h
  | [a], _, _ => rfl
  | a :: b :: l, _, _ => by
    have := lastD_eq_getD (b :: l) a (by simp)
    simp only [lastD] at this ⊢
    rw [this]
    simp

theorem lastD_cons (l : List Nat) (a d : Nat) (h : l ≠ []) : lastD (a :: l) d = lastD l 0 := by
  cases l with
  | nil => exact absurd rfl h
  | cons b l => rfl

theorem NoteSet.Rep.filter_hit {s : NoteSet} {l1 l2 : List Nat} {c p : Nat}
    (h : s.Rep (l1 ++ c :: l2)) (hc : s.pitch c = p) :
    (l1 ++ c :: l2).filter (fun i => decide (s.pitch i ≠ p)) = l1 ++ l2 := by
  have hcm : c ∈ l1 ++ c :: l2 := by simp
  have hnd := h.nodup
  have h1 : ∀ i ∈ l1, s.pitch i ≠ p := by
    intro i hi e
    have : i = c := h.pitch_inj (List.mem_append_left _ hi) hcm (e.trans hc.symm)
    subst this
    exact (List.nodup_append.1 hnd).2.2 hi (List.mem_cons_self _ _)
  have h2 : ∀ i ∈ l2, s.pitch i ≠ p := by
    intro i hi e
    have : i = c := h.pitch_inj (List.mem_append_right _ (List.mem_cons_of_mem _ hi)) hcm
      (e.trans hc.symm)
    subst this
    exact (List.nodup_cons.1 (List.nodup_append.1 hnd).2.1).1 hi
  rw [List.filter_append, List.filter_cons]
  have e1 : l1.filter (fun i => decide (s.pitch i ≠ p)) = l1 :=
    List.filter_eq_self.2 (fun i hi => by simpa using h1 i hi)
  have e2 : l2.filter (fun i => decide (s.pitch i ≠ p)) = l2 :=
    List.filter_eq_self.2 (fun i hi => by simpa using h2 i hi)
  rw [e1, e2]
  simp [hc]

theorem held_filter (s : NoteSet) (l : List Nat) (p : Nat) :
    (l.map s.vals).filter (fun x => decide (x.1 ≠ p)) =
      (l.filter (fun i => decide (s.pitch i ≠ p))).map s.vals := by
  rw [List.filter_map]
  rfl

theorem map_vals_congr {s s1 : NoteSet} {l : List Nat}
    (h : ∀ i ∈ l, s1.vals i = s.vals i) : l.map s1.vals = l.map s.vals :=
  List.map_congr_left h

theorem note_off_at_vals_eq (s : NoteSet) (p c prev i : Nat) (hc0 : c ≠ 0) (hic : i ≠ c) :
    (s.note_off_at p c prev).vals i = s.vals i := by
  have := note_off_at_vals s p c prev i hc0 hic
  unfold NoteSet.vals
  rw [this.1, this.2]

/-- Held notes after removing the slot `c`. -/
theorem NoteSet.Rep.held_note_off_at {s : NoteSet} {l1 l2 : List Nat} {c p : Nat}
    (h : s.Rep (l1 ++ c :: l2)) (hc : s.pitch c = p) :
    (s.note_off_at p c (lastD l1 0)).held = (l1 ++ l2).map s.vals ∧
    (s.note_off_at p c (lastD l1 0)).held = s.held.filter (fun x => decide (x.1 ≠ p)) := by
  have h1 := h.note_off_at_hit p hc
  have hc0 : c ≠ 0 := by have := (h.range c (by simp)).1; omega
  have hne : ∀ i ∈ l1 ++ l2, i ≠ c := by
    intro i hi
    rcases List.mem_append.1 hi with h2 | h2
    · rintro rfl; exact (List.nodup_append.1 h.nodup).2.2 h2 (List.mem_cons_self _ _)
    · rintro rfl; exact (List.nodup_cons.1 (List.nodup_append.1 h.nodup).2.1).1 h2
  have e : (s.note_off_at p c (lastD l1 0)).held = (l1 ++ l2).map s.vals := by
    rw [h1.held_eq]
    exact map_vals_congr (fun i hi => note_off_at_vals_eq s p c _ i hc0 (hne i hi))
  refine ⟨e, ?_⟩
  rw [e, h.held_eq, held_filter, h.filter_hit hc]

/-- Sorted entries after removing the slot `c`. -/
theorem NoteSet.Rep.sorted_note_off_at {s : NoteSet} {l1 l2 : List Nat} {c p : Nat}
    (h : s.Rep (l1 ++ c :: l2)) (hc : s.pitch c = p) :
    (s.note_off_at p c (lastD l1 0)).sorted_slots = s.sorted_slots.erase c := by
  have h1 := h.note_off_at_hit p hc
  have hcm : c ∈ l1 ++ c :: l2 := by simp
  have hc0 : c ≠ 0 := by have := (h.range c hcm).1; omega
  obtain ⟨A1, A2, B, hS, hsz, hT, hcA1, _⟩ := h.sorted_split hcm
  obtain ⟨x, hx⟩ := sorted_remove_spec A1 c A2 B hcA1
  rw [h1.sorted_slots_eq, h.sorted_slots_eq, hT, note_off_at_sorted s p c _ hc0, hS, hsz, hx,
    note_off_at_size s p c _ hc0, hsz]
  have hle := h.size_le
  have e : (A1.length + 1 + A2.length + 255) % 256 = (A1 ++ A2).length := by
    simp only [List.length_append]; omega
  rw [e, List.erase_append_right _ hcA1, List.erase_cons_head]
  exact take_prefix _ _ _ rfl

theorem note_on_insert_vals_eq (s : NoteSet) (p v i : Nat)
    (hi : i ≠ NoteSet.find_free s.notes) : (s.note_on_insert p v).vals i = s.vals i := by
  unfold NoteSet.vals
  rw [note_on_insert_other s p v i hi]

/-- Held notes after inserting below capacity. -/
theorem NoteSet.Rep.held_note_on_insert {s : NoteSet} {l : List Nat} (h : s.Rep l)
    (hs : s.size < 10) (p v : Nat) :
    (s.note_on_insert p v).held = (p, v) :: s.held ∧
    (s.note_on_insert p v).chain = NoteSet.find_free s.notes :: l ∧
    (s.note_on_insert p v).note (s.note_on_insert p v).most_recent_note
      = ⟨p, v, s.root_idx⟩ := by
  obtain ⟨hf1, hf2, hfl, _⟩ := h.find_free_spec hs
  have hflen : NoteSet.find_free s.notes < s.notes.length := by rw [h.wf_notes]; omega
  have hnew := note_on_insert_new s p v hflen
  have hlk : LinkedFrom (fun i => (NoteSet.rd (s.note_on_insert p v).notes i).next_idx)
      (s.note_on_insert p v).root_idx (NoteSet.find_free s.notes :: l) := by
    refine ⟨rfl, by omega, ?_⟩
    have e : (NoteSet.rd (s.note_on_insert p v).notes (NoteSet.find_free s.notes)).next_idx
        = s.root_idx := congrArg NoteInfo.next_idx hnew
    change LinkedFrom _
      (NoteSet.rd (s.note_on_insert p v).notes (NoteSet.find_free s.notes)).next_idx l
    rw [e]
    refine LinkedFrom.congr ?_ h.linked
    intro i hi
    exact congrArg NoteInfo.next_idx
      (note_on_insert_other s p v i (fun e => hfl (e ▸ hi)))
  have hch : (s.note_on_insert p v).chain = NoteSet.find_free s.notes :: l :=
    chainFrom_eq _ _ 256 _ hlk (by have := h.length_lt; simp; omega)
  refine ⟨?_, hch, hnew⟩
  unfold NoteSet.held
  rw [hch, h.chain_eq, List.map_cons]
  have e1 : ((s.note_on_insert p v).note (NoteSet.find_free s.notes)).note = p :=
    congrArg NoteInfo.note hnew
  have e2 : ((s.note_on_insert p v).note (NoteSet.find_free s.notes)).velocity = v :=
    congrArg NoteInfo.velocity hnew
  rw [e1, e2]
  congr 1
  apply List.map_congr_left
  intro i hi
  rw [note_on_insert_other s p v i (fun e => hfl (e ▸ hi))]

/-! ## The list of held notes along a call sequence -/

theorem get_next_note_held (s : NoteSet) : s.get_next_note.1.held = s.held := by
  unfold NoteSet.get_next_note
  simp only
  split_ifs <;> rfl

theorem held_miss_filter {s : NoteSet} {l : List Nat} (h : s.Rep l) {p : Nat}
    (hnp : p ∉ l.map s.pitch) : s.held.filter (fun x => decide (x.1 ≠ p)) = s.held := by
  rw [List.filter_eq_self]
  intro x hx
  rw [h.held_eq] at hx
  obtain ⟨i, hi, rfl⟩ := List.mem_map.1 hx
  have : s.pitch i ≠ p := fun e => hnp (List.mem_map.2 ⟨i, hi, e⟩)
  simpa [NoteSet.vals] using this

theorem NoteSet.Rep.held_length {s : NoteSet} {l : List Nat} (h : s.Rep l) :
    s.held.length = s.size := by
  rw [h.held_eq, List.length_map, h.size_eq]

/-- One call changes the list of held notes as `heldAfter` says. -/
theorem NoteSet.Rep.held_step {s : NoteSet} {l : List Nat} (h : s.Rep l) (o : Op)
    (hv : o.valid) {s1 : NoteSet} (hs : s.step o = some s1) :
    s1.held = heldAfter s.held o := by
  cases o with
  | note_on p v =>
    obtain ⟨_, _, hp⟩ := hv
    have hp255 : p ≠ 255 := hp
    simp only [NoteSet.step] at hs
    simp only [heldAfter]
    rcases held_split s l p with hnp | ⟨l1, c, l2, rfl, hc⟩
    · rw [held_miss_filter h hnp, h.held_length]
      by_cases hs10 : s.size < 10
      · rw [h.note_on_fresh hs10 p v hnp] at hs
        cases hs
        rw [(h.held_note_on_insert hs10 p v).1, if_neg (by omega)]
      · have hs10 : s.size = 10 := by have := h.size_le; omega
        rcases nil_or_snoc l with rfl | ⟨l0, t, rfl⟩
        · have := h.size_eq
          simp at this; omega
        rw [h.note_on_full hs10 p v hnp] at hs
        cases hs
        have h2 := h.note_off_at_hit (s.pitch t) rfl
        rw [List.append_nil] at h2
        have ht0 : t ≠ 0 := by have := (h.range t (by simp)).1; omega
        have hsz2 : (s.note_off_at (s.pitch t) t (lastD l0 0)).size < 10 := by
          rw [note_off_at_size s _ t _ ht0, hs10]; decide
        have hheld2 := (h.held_note_off_at (p := s.pitch t) rfl).1
        rw [List.append_nil] at hheld2
        rw [(h2.held_note_on_insert hsz2 p v).1, hheld2, if_pos hs10, h.held_eq,
          List.map_append, List.map_cons, List.map_nil, List.dropLast_concat]
    · rw [h.note_on_again hc v] at hs
      cases hs
      have h2 := h.note_off_at_hit p hc
      have hc0 : c ≠ 0 := by have := (h.range c (by simp)).1; omega
      have hlen := h.size_eq
      have hle := h.size_le
      simp only [List.length_append, List.length_cons] at hlen
      have hsz2 : (s.note_off_at p c (lastD l1 0)).size < 10 := by
        rw [note_off_at_size s p c _ hc0]; omega
      obtain ⟨hh1, hh2⟩ := h.held_note_off_at hc
      rw [(h2.held_note_on_insert hsz2 p v).1, ← hh2]
      have : (s.note_off_at p c (lastD l1 0)).held.length ≠ 10 := by
        rw [h2.held_length]; omega
      rw [if_neg this]
  | note_off p =>
    simp only [NoteSet.step] at hs
    simp only [heldAfter]
    rcases held_split s l p with hnp | ⟨l1, c, l2, rfl, hc⟩
    · rw [h.note_off_miss hnp] at hs
      cases hs
      rw [held_miss_filter h hnp]
    · rw [h.note_off_hit hc] at hs
      cases hs
      exact (h.held_note_off_at hc).2
  | get_next_note =>
    simp only [NoteSet.step, Option.some.injEq] at hs
    subst hs
    exact get_next_note_held s

theorem sublist_split {y : Nat × Nat} {X Z L : List (Nat × Nat)}
    (h : (X ++ y :: Z).Sublist L) : ∃ A B, L = A ++ y :: B ∧ Z.Sublist B := by
  obtain ⟨r1, r2, rfl, _, h2⟩ := List.append_sublist_iff.1 h
  obtain ⟨s1, s2, rfl, hy, h3⟩ := List.cons_sublist_iff.1 h2
  obtain ⟨t1, t2, rfl⟩ := List.append_of_mem hy
  exact ⟨r1 ++ t1, t2 ++ s2, by simp, h3.trans (List.sublist_append_right _ _)⟩

theorem History.sub {ops : List Op} {L L1 : List (Nat × Nat)} (h : History ops L)
    (hsub : L1.Sublist L) (o : Op)
    (ho : ∀ q w, o = Op.note_on q w → q ∉ L1.map Prod.fst) : History (ops ++ [o]) L1 := by
  intro A p v B e
  subst e
  obtain ⟨A0, B0, rfl, hB⟩ := sublist_split hsub
  obtain ⟨pre, post, rfl, hpost⟩ := h A0 p v B0 rfl
  refine ⟨pre, post ++ [o], by simp, ?_⟩
  intro q w hq
  rcases List.mem_append.1 hq with h1 | h1
  · intro hm
    apply hpost q w h1
    rw [List.map_cons, List.mem_cons] at hm ⊢
    rcases hm with h2 | h2
    · exact Or.inl h2
    · exact Or.inr ((hB.map Prod.fst).subset h2)
  · rw [List.mem_singleton] at h1
    intro hm
    apply ho q w h1.symm
    rw [List.map_append, List.mem_append]
    exact Or.inr hm

theorem History.cons {ops : List Op} {L : List (Nat × Nat)} (p v : Nat)
    (h : History (ops ++ [Op.note_on p v]) L) :
    History (ops ++ [Op.note_on p v]) ((p, v) :: L) := by
  intro A q w B e
  cases A with
  | nil =>
    simp only [List.nil_append, List.cons.injEq, Prod.mk.injEq] at e
    obtain ⟨⟨rfl, rfl⟩, rfl⟩ := e
    exact ⟨ops, [], rfl, by simp⟩
  | cons a A =>
    simp only [List.cons_append, List.cons.injEq] at e
    exact h A q w B e.2

theorem History.after_call {ops : List Op} {L : List (Nat × Nat)} (h : History ops L) (o : Op) :
    History (ops ++ [o]) (heldAfter L o) := by
  cases o with
  | note_on p v =>
    simp only [heldAfter]
    apply History.cons
    have hf : (L.filter (fun x => decide (x.1 ≠ p))).Sublist L := List.filter_sublist L
    have hnp : p ∉ (L.filter (fun x => decide (x.1 ≠ p))).map Prod.fst := by
      intro hm
      obtain ⟨x, hx, hxe⟩ := List.mem_map.1 hm
      have := (List.mem_filter.1 hx).2
      simp [hxe] at this
    split_ifs
    · refine h.sub ((List.dropLast_sublist _).trans hf) _ ?_
      intro q w e hm
      cases e
      exact hnp (((List.dropLast_sublist _).map Prod.fst).subset hm)
    · refine h.sub hf _ ?_
      intro q w e hm
      cases e
      exact hnp hm
  | note_off p =>
    exact h.sub (List.filter_sublist L) _ (by intro q w e; cases e)
  | get_next_note =>
    exact h.sub (List.Sublist.refl L) _ (by intro q w e; cases e)

/-- The held notes of a reachable state are the still-held presses of its
call sequence, newest first. -/
theorem reachedBy_history {ops : List Op} {s : NoteSet} (h : NoteSet.ReachedBy ops s) :
    History ops s.held := by
  induction h with
  | init s0 m hw =>
    rw [(init_rep s0 m hw).held_eq]
    intro A p v B e
    simp at e
  | step o hr hv hs ih =>
    obtain ⟨l, hl⟩ := reachedBy_rep hr
    rw [hl.held_step o hv hs]
    exact ih.after_call o

/-! ## Example states -/

theorem reachedBy_run : ∀ (ops pre : List Op) (s s1 : NoteSet),
    NoteSet.ReachedBy pre s → (∀ o ∈ ops, o.valid) → s.run ops = some s1 →
    NoteSet.ReachedBy (pre ++ ops) s1
  | [], pre, s, s1, h, _, hr => by
    simp only [NoteSet.run, Option.some.injEq] at hr
    subst hr
    simpa using h
  | o :: ops, pre, s, s1, h, hv, hr => by
    simp only [NoteSet.run] at hr
    cases hs : s.step o with
    | none => rw [hs] at hr; cases hr
    | some s2 =>
      rw [hs] at hr
      have h2 := NoteSet.ReachedBy.step o h (hv o (List.mem_cons_self _ _)) hs
      have := reachedBy_run ops (pre ++ [o]) s2 s1 h2
        (fun x hx => hv x (List.mem_cons_of_mem _ hx)) hr
      simpa using this

theorem reachable_run (s0 : NoteSet) (m : Nat) (ops : List Op) (s1 : NoteSet)
    (hw : s0.WellFormed) (hv : ∀ o ∈ ops, o.valid) (hr : (s0.init m).run ops = some s1) :
    s1.Reachable :=
  ⟨[] ++ ops, reachedBy_run ops [] _ s1 (NoteSet.ReachedBy.init s0 m hw) hv hr⟩

theorem exTwo_reachable : exTwo.Reachable :=
  reachable_run ex0 1 [.note_on 60 100, .note_on 64 90] exTwo (by decide) (by decide)
    (by decide)

theorem exLow_reachable : exLow.Reachable :=
  reachable_run ex0 2 [.note_on 72 1, .note_on 60 1, .note_on 67 1] exLow (by decide)
    (by decide) (by decide)

theorem exFull_reachable : exFull.Reachable :=
  reachable_run ex0 1 [.note_on 1 21, .note_on 2 22, .note_on 3 23, .note_on 4 24,
    .note_on 5 25, .note_on 6 26, .note_on 7 27, .note_on 8 28, .note_on 9 29,
    .note_on 10 30] exFull (by decide) (by decide) (by decide)

/-! ## Scenarios -/

theorem scenario_two_notes :
    (exTwo.note exTwo.most_recent_note).note = 64 ∧
    exTwo.least_recent_note.map (fun i => (exTwo.note i).note) = some 60 ∧
    (exTwo.note (exTwo.sorted_note 0)).note = 60 ∧
    (exTwo.note (exTwo.sorted_note 1)).note = 64 := by decide

theorem scenario_release :
    (exTwo.note_off 64).map (fun s => ((s.note s.most_recent_note).note, s.get_size))
      = some (60, 1) := by decide

theorem scenario_lowest :
    (exLow.note (exLow.note_by_priority NOTE_PRIORITY_LOW)).note = 60 := by decide

theorem scenario_eviction :
    (exFull.note_on 11 5).map (fun s => (s.pitches, s.get_size,
      s.least_recent_note.map (fun i => (s.note i).note)))
      = some ([11, 10, 9, 8, 7, 6, 5, 4, 3, 2], 10, some 2) := by decide

/-! ## Claims -/

/-- C1: in every state reachable from `init` by `note_on` (pitch other than
`EMPTY_NOTE`), `note_off` and `get_next_note` calls, following `next_idx` from
`root_idx` visits the slots of `chain` and then reaches 0, after exactly `size`
links; these slots are pairwise distinct, lie in `1..capacity` and hold a pitch
other than `EMPTY_NOTE`; `size <= capacity`; every slot of `1..capacity` off the
chain has `note = EMPTY_NOTE`, `velocity = 0`, `next_idx = 0`; and slot 0 has
`note = EMPTY_NOTE` and is not on the chain. -/
theorem C1_chain_invariant (s : NoteSet) (h : s.Reachable) :
    LinkedFrom s.nxt s.root_idx s.chain ∧
    Nat.iterate s.nxt s.size s.root_idx = 0 ∧
    s.chain.length = s.size ∧
    s.chain.Nodup ∧
    (∀ i ∈ s.chain, 1 ≤ i ∧ i ≤ NoteSet.capacity ∧ (s.note i).note ≠ EMPTY_NOTE) ∧
    s.size ≤ NoteSet.capacity ∧
    (∀ i, 1 ≤ i → i ≤ NoteSet.capacity → i ∉ s.chain →
      (s.note i).note = EMPTY_NOTE ∧ (s.note i).velocity = 0 ∧ (s.note i).next_idx = 0) ∧
    (s.note 0).note = EMPTY_NOTE ∧ 0 ∉ s.chain := by
  obtain ⟨l, hl⟩ := reachable_rep h
  rw [hl.chain_eq]
  refine ⟨hl.linked, ?_, hl.size_eq.symm, hl.nodup, ?_, hl.size_le, ?_, hl.zero,
    hl.linked.zero_not_mem⟩
  · rw [LinkedFrom.iterate s.size hl.linked (by rw [hl.size_eq])]
    rw [hl.size_eq]
    simp
  · intro i hi
    exact ⟨(hl.range i hi).1, (hl.range i hi).2, hl.live i hi⟩
  · intro i h1 h2 h3
    rw [hl.free i h1 h2 h3]
    exact ⟨rfl, rfl, rfl⟩

theorem C1_chain_invariant_witness :
    exTwo.Reachable ∧
    (LinkedFrom exTwo.nxt exTwo.root_idx exTwo.chain ∧
    Nat.iterate exTwo.nxt exTwo.size exTwo.root_idx = 0 ∧
    exTwo.chain.length = exTwo.size ∧
    exTwo.chain.Nodup ∧
    (∀ i ∈ exTwo.chain, 1 ≤ i ∧ i ≤ NoteSet.capacity ∧ (exTwo.note i).note ≠ EMPTY_NOTE) ∧
    exTwo.size ≤ NoteSet.capacity ∧
    (∀ i, 1 ≤ i → i ≤ NoteSet.capacity → i ∉ exTwo.chain →
      (exTwo.note i).note = EMPTY_NOTE ∧ (exTwo.note i).velocity = 0 ∧
        (exTwo.note i).next_idx = 0) ∧
    (exTwo.note 0).note = EMPTY_NOTE ∧ 0 ∉ exTwo.chain) :=
  ⟨exTwo_reachable, C1_chain_invariant exTwo exTwo_reachable⟩

/-- C2: in every reachable state the entries `sorted_idx[0..size-1]` are a
permutation of the slots on the recency chain, without repetition and never 0,
and for `i + 1 < size` the pitch of `sorted_note(i)` is at most the pitch of
`sorted_note(i + 1)`. -/
theorem C2_sorted_invariant (s : NoteSet) (h : s.Reachable) :
    s.sorted_slots.Perm s.chain ∧
    s.sorted_slots.Nodup ∧
    0 ∉ s.sorted_slots ∧
    (∀ i, i + 1 < s.size →
      (s.note (s.sorted_note i)).note ≤ (s.note (s.sorted_note (i + 1))).note) := by
  obtain ⟨l, hl⟩ := reachable_rep h
  rw [hl.chain_eq, hl.sorted_slots_eq]
  refine ⟨hl.perm, hl.perm.nodup_iff.2 hl.nodup, ?_, ?_⟩
  · intro h0
    exact hl.linked.zero_not_mem (hl.perm.mem_iff.1 h0)
  · intro i hi
    have h1 : i < s.size := by omega
    rw [hl.sorted_note_take h1, hl.sorted_note_take hi]
    have hpw := hl.sorted
    rw [List.pairwise_map] at hpw
    have := List.pairwise_iff_get.1 hpw ⟨i, by rw [hl.take_length]; exact h1⟩
      ⟨i + 1, by rw [hl.take_length]; exact hi⟩ (by simp)
    exact Nat.le_of_lt this

theorem C2_sorted_invariant_witness :
    exLow.Reachable ∧
    (exLow.sorted_slots.Perm exLow.chain ∧
    exLow.sorted_slots.Nodup ∧
    0 ∉ exLow.sorted_slots ∧
    (∀ i, i + 1 < exLow.size →
      (exLow.note (exLow.sorted_note i)).note ≤
        (exLow.note (exLow.sorted_note (i + 1))).note)) :=
  ⟨exLow_reachable, C2_sorted_invariant exLow exLow_reachable⟩

/-- C3: in every reachable state two distinct slots on the recency chain hold
different pitches. -/
theorem C3_pitch_unique (s : NoteSet) (h : s.Reachable) :
    ∀ i ∈ s.chain, ∀ j ∈ s.chain, i ≠ j → (s.note i).note ≠ (s.note j).note := by
  obtain ⟨l, hl⟩ := reachable_rep h
  rw [hl.chain_eq]
  intro i hi j hj hij e
  exact hij (hl.pitch_inj hi hj e)

theorem C3_pitch_unique_witness :
    exFull.Reachable ∧
    (∀ i ∈ exFull.chain, ∀ j ∈ exFull.chain, i ≠ j →
      (exFull.note i).note ≠ (exFull.note j).note) :=
  ⟨exFull_reachable, C3_pitch_unique exFull exFull_reachable⟩

theorem getD_mem_of_lt (l : List Nat) (k : Nat) (h : k < l.length) : l.getD k 0 ∈ l := by
  rw [List.getD_eq_getElem l 0 h]
  exact List.getElem_mem h

/-- C5: below capacity, `note_on(p, v)` of a pitch that is not held returns,
raises `get_size()` by one, makes `(p, v)` the most recent note, keeps every
held note with its velocity and recency order behind it, and leaves
`played_note(r)` (slot and contents) unchanged for every `r` below the old
size. -/
theorem C5_note_on_fresh (s : NoteSet) (h : s.Reachable) (p v : Nat)
    (hs : s.get_size < NoteSet.capacity) (hp : p ≠ EMPTY_NOTE) (hnp : p ∉ s.pitches) :
    ∃ s1, s.note_on p v = some s1 ∧
      s1.get_size = s.get_size + 1 ∧
      (s1.note s1.most_recent_note).note = p ∧
      (s1.note s1.most_recent_note).velocity = v ∧
      s1.held = (p, v) :: s.held ∧
      (∀ r, r < s.get_size →
        s1.played_note r = s.played_note r ∧
        s1.note (s1.played_note r) = s.note (s.played_note r)) := by
  obtain ⟨l, hl⟩ := reachable_rep h
  have hs10 : s.size < 10 := hs
  rw [hl.pitches_eq] at hnp
  have h1 := hl.note_on_insert hs10 p v hp hnp
  obtain ⟨e1, _, e3⟩ := hl.held_note_on_insert hs10 p v
  obtain ⟨_, _, hfl, _⟩ := hl.find_free_spec hs10
  have hsz : (s.note_on_insert p v).size = s.size + 1 := by
    rw [note_on_insert_size]; omega
  refine ⟨_, hl.note_on_fresh hs10 p v hnp, hsz, congrArg NoteInfo.note e3,
    congrArg NoteInfo.velocity e3, e1, ?_⟩
  intro r hr
  have hr1 : r < s.size := hr
  have hp1 : (s.note_on_insert p v).played_note r = s.played_note r := by
    rw [h1.played_note_eq (by omega), hl.played_note_eq hr1, hsz]
    have e : s.size + 1 - 1 - r = (s.size - 1 - r) + 1 := by omega
    rw [e, List.getD_cons_succ]
  refine ⟨hp1, ?_⟩
  rw [hp1]
  apply note_on_insert_other
  intro e
  have hm : s.played_note r ∈ l := by
    rw [hl.played_note_eq hr1]
    exact getD_mem_of_lt l _ (by rw [← hl.size_eq]; omega)
  exact hfl (e ▸ hm)

theorem C5_note_on_fresh_witness :
    exTwo.Reachable ∧ exTwo.get_size < NoteSet.capacity ∧ 62 ≠ EMPTY_NOTE ∧
    62 ∉ exTwo.pitches ∧
    ∃ s1, exTwo.note_on 62 33 = some s1 ∧
      s1.get_size = exTwo.get_size + 1 ∧
      (s1.note s1.most_recent_note).note = 62 ∧
      (s1.note s1.most_recent_note).velocity = 33 ∧
      s1.held = (62, 33) :: exTwo.held ∧
      (∀ r, r < exTwo.get_size →
        s1.played_note r = exTwo.played_note r ∧
        s1.note (s1.played_note r) = exTwo.note (exTwo.played_note r)) :=
  ⟨exTwo_reachable, by decide, by decide, by decide,
    C5_note_on_fresh exTwo exTwo_reachable 62 33 (by decide) (by decide) (by decide)⟩

/-- C4: at capacity, `note_on(p, v)` of a pitch that is not held returns and
leaves `get_size()` at capacity; the note `least_recent_note()` gave before is
no longer held; the other notes keep their velocity and recency order behind
the new most recent note `(p, v)`; and `least_recent_note()` is now the slot
that was second-oldest (`played_note(1)`), with its pitch and velocity. -/
theorem C4_note_on_evicts (s : NoteSet) (h : s.Reachable) (p v : Nat)
    (hs : s.get_size = NoteSet.capacity) (hp : p ≠ EMPTY_NOTE) (hnp : p ∉ s.pitches) :
    ∃ s1 t, s.note_on p v = some s1 ∧ s.least_recent_note = some t ∧
      s1.get_size = NoteSet.capacity ∧
      s.held.getLast? = some (s.vals t) ∧
      (s.note t).note ∉ s1.pitches ∧
      s1.held = (p, v) :: s.held.dropLast ∧
      (s1.note s1.most_recent_note).note = p ∧
      (s1.note s1.most_recent_note).velocity = v ∧
      s1.least_recent_note = some (s.played_note 1) ∧
      s1.vals (s.played_note 1) = s.vals (s.played_note 1) := by
  obtain ⟨l, hl⟩ := reachable_rep h
  have hs10 : s.size = 10 := hs
  have hp255 : p ≠ 255 := hp
  rw [hl.pitches_eq] at hnp
  rcases nil_or_snoc l with rfl | ⟨l0, t, rfl⟩
  · have := hl.size_eq
    simp at this; omega
  have hlen0 : l0.length = 9 := by
    have := hl.size_eq
    simp at this; omega
  have hl0ne : l0 ≠ [] := by
    rintro rfl
    simp at hlen0
  have htm : t ∈ l0 ++ [t] := by simp
  have ht0 : t ≠ 0 := by have := (hl.range t htm).1; omega
  have htl0 : t ∉ l0 := fun hx =>
    (List.nodup_append.1 hl.nodup).2.2 hx (List.mem_singleton_self _)
  have h2 := hl.note_off_at_hit (s.pitch t) rfl
  rw [List.append_nil] at h2
  have hsz2 : (s.note_off_at (s.pitch t) t (lastD l0 0)).size < 10 := by
    rw [note_off_at_size s _ t _ ht0, hs10]; decide
  have hsz2e : (s.note_off_at (s.pitch t) t (lastD l0 0)).size = 9 := by
    rw [note_off_at_size s _ t _ ht0, hs10]
  have hv2 : ∀ i ∈ l0, (s.note_off_at (s.pitch t) t (lastD l0 0)).vals i = s.vals i :=
    fun i hi => note_off_at_vals_eq s _ t _ i ht0 (fun e => htl0 (e ▸ hi))
  have hnp2 : p ∉ l0.map (s.note_off_at (s.pitch t) t (lastD l0 0)).pitch := by
    intro hm
    obtain ⟨i, hi, hie⟩ := List.mem_map.1 hm
    have : s.pitch i = p := (congrArg Prod.fst (hv2 i hi)).symm.trans hie
    exact hnp (List.mem_map.2 ⟨i, List.mem_append_left _ hi, this⟩)
  have h3 := h2.note_on_insert hsz2 p v hp255 hnp2
  obtain ⟨e1, _, e3⟩ := h2.held_note_on_insert hsz2 p v
  obtain ⟨_, _, hfl, _⟩ := h2.find_free_spec hsz2
  have hheld2 : (s.note_off_at (s.pitch t) t (lastD l0 0)).held = l0.map s.vals := by
    have := (hl.held_note_off_at (p := s.pitch t) rfl).1
    rw [List.append_nil] at this
    exact this
  have hheld : s.held = l0.map s.vals ++ [s.vals t] := by
    rw [hl.held_eq, List.map_append]; rfl
  have hpl : s.played_note 1 = lastD l0 0 := by
    rw [hl.played_note_eq (by omega), hs10, lastD_eq_getD l0 0 hl0ne, hlen0,
      List.getD_append _ _ _ _ (by omega)]
  have hplm : lastD l0 0 ∈ l0 := lastD_mem l0 0 hl0ne
  refine ⟨_, t, hl.note_on_full hs10 p v hnp, ?_, ?_, ?_, ?_, ?_, congrArg NoteInfo.note e3,
    congrArg NoteInfo.velocity e3, ?_, ?_⟩
  · rw [hl.least_recent_eq, lastD_concat]
  · show (_ : NoteSet).size = 10
    rw [note_on_insert_size, hsz2e]
  · rw [hheld, List.getLast?_concat]
  · rw [← held_pitches, e1, hheld2]
    simp only [List.map_cons, List.map_map, List.mem_cons, List.mem_map, Function.comp,
      not_or, not_exists, not_and]
    refine ⟨?_, ?_⟩
    · intro e
      exact hnp (List.mem_map.2 ⟨t, htm, e⟩)
    · intro i hi e
      have : i = t := hl.pitch_inj (List.mem_append_left _ hi) htm e
      exact htl0 (this ▸ hi)
  · rw [e1, hheld2, hheld, List.dropLast_concat]
  · rw [h3.least_recent_eq, hpl, lastD_cons _ _ _ hl0ne]
  · rw [hpl, note_on_insert_vals_eq _ p v _ (fun e => hfl (e ▸ hplm)), hv2 _ hplm]

theorem C4_note_on_evicts_witness :
    exFull.Reachable ∧ exFull.get_size = NoteSet.capacity ∧ 11 ≠ EMPTY_NOTE ∧
    11 ∉ exFull.pitches ∧
    ∃ s1 t, exFull.note_on 11 5 = some s1 ∧ exFull.least_recent_note = some t ∧
      s1.get_size = NoteSet.capacity ∧
      exFull.held.getLast? = some (exFull.vals t) ∧
      (exFull.note t).note ∉ s1.pitches ∧
      s1.held = (11, 5) :: exFull.held.dropLast ∧
      (s1.note s1.most_recent_note).note = 11 ∧
      (s1.note s1.most_recent_note).velocity = 5 ∧
      s1.least_recent_note = some (exFull.played_note 1) ∧
      s1.vals (exFull.played_note 1) = exFull.vals (exFull.played_note 1) :=
  ⟨exFull_reachable, by decide, by decide, by decide,
    C4_note_on_evicts exFull exFull_reachable 11 5 (by decide) (by decide) (by decide)⟩

/-- C6: `note_on(p, v)` of a pitch that is already held returns and leaves
`get_size()` and the set of held pitches unchanged; `p` is held exactly once
and is the most recent note, with velocity `v`; the other held notes keep
their velocity and recency order. Nothing else is removed, also at capacity. -/
theorem C6_note_on_again (s : NoteSet) (h : s.Reachable) (p v : Nat) (hp : p ∈ s.pitches) :
    ∃ s1, s.note_on p v = some s1 ∧
      s1.get_size = s.get_size ∧
      (∀ q, q ∈ s1.pitches ↔ q ∈ s.pitches) ∧
      s1.pitches.count p = 1 ∧
      (s1.note s1.most_recent_note).note = p ∧
      (s1.note s1.most_recent_note).velocity = v ∧
      s1.held = (p, v) :: s.held.filter (fun x => decide (x.1 ≠ p)) := by
  obtain ⟨l, hl⟩ := reachable_rep h
  rw [hl.pitches_eq] at hp
  rcases held_split s l p with hnp | ⟨l1, c, l2, rfl, hc⟩
  · exact absurd hp hnp
  have hcm : c ∈ l1 ++ c :: l2 := by simp
  have hc0 : c ≠ 0 := by have := (hl.range c hcm).1; omega
  have hp255 : p ≠ 255 := hc ▸ hl.live c hcm
  have h2 := hl.note_off_at_hit p hc
  have hlen := hl.size_eq
  have hle := hl.size_le
  simp only [List.length_append, List.length_cons] at hlen
  have hsz2e : (s.note_off_at p c (lastD l1 0)).size = s.size - 1 := by
    rw [note_off_at_size s p c _ hc0]; omega
  have hsz2 : (s.note_off_at p c (lastD l1 0)).size < 10 := by omega
  obtain ⟨hh1, hh2⟩ := hl.held_note_off_at hc
  have hnp2 : p ∉ (l1 ++ l2).map (s.note_off_at p c (lastD l1 0)).pitch := by
    intro hm
    have hm2 : p ∈ (s.note_off_at p c (lastD l1 0)).held.map Prod.fst := by
      rw [held_pitches, h2.pitches_eq]; exact hm
    rw [hh2] at hm2
    obtain ⟨x, hx, hxe⟩ := List.mem_map.1 hm2
    have := (List.mem_filter.1 hx).2
    simp [hxe] at this
  have h3 := h2.note_on_insert hsz2 p v hp255 hnp2
  obtain ⟨e1, _, e3⟩ := h2.held_note_on_insert hsz2 p v
  have hp1 : ((s.note_off_at p c (lastD l1 0)).note_on_insert p v).pitches
      = p :: (l1 ++ l2).map s.pitch := by
    rw [← held_pitches, e1, hh1, List.map_cons, List.map_map]
    rfl
  refine ⟨_, hl.note_on_again hc v, ?_, ?_, ?_, congrArg NoteInfo.note e3,
    congrArg NoteInfo.velocity e3, ?_⟩
  · show (_ : NoteSet).size = s.size
    rw [note_on_insert_size, hsz2e]; omega
  · intro q
    rw [hp1, hl.pitches_eq]
    simp only [List.mem_cons, List.map_append, List.mem_append, List.map_cons, hc]
    tauto
  · have hnd := h3.uniq
    rw [← h3.pitches_eq] at hnd
    exact List.count_eq_one_of_mem hnd (by rw [hp1]; exact List.mem_cons_self _ _)
  · rw [e1, hh2]

theorem C6_note_on_again_witness :
    exFull.Reachable ∧ 5 ∈ exFull.pitches ∧
    ∃ s1, exFull.note_on 5 77 = some s1 ∧
      s1.get_size = exFull.get_size ∧
      (∀ q, q ∈ s1.pitches ↔ q ∈ exFull.pitches) ∧
      s1.pitches.count 5 = 1 ∧
      (s1.note s1.most_recent_note).note = 5 ∧
      (s1.note s1.most_recent_note).velocity = 77 ∧
      s1.held = (5, 77) :: exFull.held.filter (fun x => decide (x.1 ≠ 5)) :=
  ⟨exFull_reachable, by decide, C6_note_on_again exFull exFull_reachable 5 77 (by decide)⟩

/-- C7: `note_off(p)` of a held pitch returns and lowers `get_size()` by one;
`p` is no longer held, nor returned by `sorted_note(i)` or `played_note(i)` for
`i < size`; every other slot keeps its pitch and velocity, the held notes keep
their recency order and the sorted list its order; and the slot that held `p`
has `note = EMPTY_NOTE`, `velocity = 0`, `next_idx = 0`. -/
theorem C7_note_off_held (s : NoteSet) (h : s.Reachable) (p : Nat) (hp : p ∈ s.pitches) :
    ∃ s1 c, s.note_off p = some s1 ∧
      s1.get_size + 1 = s.get_size ∧
      p ∉ s1.pitches ∧
      (∀ i, i < s1.get_size →
        (s1.note (s1.sorted_note i)).note ≠ p ∧ (s1.note (s1.played_note i)).note ≠ p) ∧
      s1.held = s.held.filter (fun x => decide (x.1 ≠ p)) ∧
      (∀ i, i ≠ c → s1.vals i = s.vals i) ∧
      s1.sorted_slots = s.sorted_slots.erase c ∧
      c ∈ s.chain ∧ (s.note c).note = p ∧
      s1.note c = ⟨EMPTY_NOTE, 0, 0⟩ := by
  obtain ⟨l, hl⟩ := reachable_rep h
  rw [hl.pitches_eq] at hp
  rcases held_split s l p with hnp | ⟨l1, c, l2, rfl, hc⟩
  · exact absurd hp hnp
  have hcm : c ∈ l1 ++ c :: l2 := by simp
  have hc0 : c ≠ 0 := by have := (hl.range c hcm).1; omega
  have hcl : c < s.notes.length := by rw [hl.wf_notes]; have := (hl.range c hcm).2; omega
  have h2 := hl.note_off_at_hit p hc
  have hlen := hl.size_eq
  have hle := hl.size_le
  simp only [List.length_append, List.length_cons] at hlen
  obtain ⟨_, hh2⟩ := hl.held_note_off_at hc
  have hnp2 : p ∉ (s.note_off_at p c (lastD l1 0)).pitches := by
    intro hm
    rw [← held_pitches, hh2] at hm
    obtain ⟨x, hx, hxe⟩ := List.mem_map.1 hm
    have := (List.mem_filter.1 hx).2
    simp [hxe] at this
  have hnp3 : ∀ i ∈ l1 ++ l2, ((s.note_off_at p c (lastD l1 0)).note i).note ≠ p := by
    intro i hi e
    rw [h2.pitches_eq] at hnp2
    exact hnp2 (List.mem_map.2 ⟨i, hi, e⟩)
  refine ⟨_, c, hl.note_off_hit hc, ?_, hnp2, ?_, hh2,
    fun i hi => note_off_at_vals_eq s p c _ i hc0 hi, hl.sorted_note_off_at hc, ?_, hc,
    note_off_at_cur s p c _ hc0 hcl⟩
  · show (_ : NoteSet).size + 1 = s.size
    rw [note_off_at_size s p c _ hc0]; omega
  · intro i hi
    have hi1 : i < (s.note_off_at p c (lastD l1 0)).size := hi
    refine ⟨hnp3 _ (h2.sorted_note_mem hi1), hnp3 _ ?_⟩
    rw [h2.played_note_eq hi1]
    exact getD_mem_of_lt _ _ (by rw [← h2.size_eq]; omega)
  · rw [hl.chain_eq]; exact hcm

theorem C7_note_off_held_witness :
    exTwo.Reachable ∧ 64 ∈ exTwo.pitches ∧
    ∃ s1 c, exTwo.note_off 64 = some s1 ∧
      s1.get_size + 1 = exTwo.get_size ∧
      64 ∉ s1.pitches ∧
      (∀ i, i < s1.get_size →
        (s1.note (s1.sorted_note i)).note ≠ 64 ∧ (s1.note (s1.played_note i)).note ≠ 64) ∧
      s1.held = exTwo.held.filter (fun x => decide (x.1 ≠ 64)) ∧
      (∀ i, i ≠ c → s1.vals i = exTwo.vals i) ∧
      s1.sorted_slots = exTwo.sorted_slots.erase c ∧
      c ∈ exTwo.chain ∧ (exTwo.note c).note = 64 ∧
      s1.note c = ⟨EMPTY_NOTE, 0, 0⟩ :=
  ⟨exTwo_reachable, by decide, C7_note_off_held exTwo exTwo_reachable 64 (by decide)⟩

/-- C8: `note_off(p)` of a pitch that is not held, `EMPTY_NOTE` included,
returns the state it was called on: size, root, slots, sorted list, priority
and `last_played` are all as before. -/
theorem C8_note_off_absent (s : NoteSet) (h : s.Reachable) (p : Nat)
    (hp : p = EMPTY_NOTE ∨ p ∉ s.pitches) : s.note_off p = some s := by
  obtain ⟨l, hl⟩ := reachable_rep h
  apply hl.note_off_miss
  rw [← hl.pitches_eq]
  rcases hp with rfl | hp
  · intro hm
    rw [hl.pitches_eq] at hm
    obtain ⟨i, hi, hie⟩ := List.mem_map.1 hm
    exact hl.live i hi hie
  · exact hp

theorem C8_note_off_absent_witness :
    exTwo.Reachable ∧ (61 = EMPTY_NOTE ∨ 61 ∉ exTwo.pitches) ∧
    exTwo.note_off 61 = some exTwo :=
  ⟨exTwo_reachable, by decide, C8_note_off_absent exTwo exTwo_reachable 61 (by decide)⟩

theorem NoteSet.Rep.sorted_first_le {s : NoteSet} {l : List Nat} (h : s.Rep l)
    (hs : 0 < s.size) : ∀ j ∈ l, s.pitch (s.sorted_note 0) ≤ s.pitch j := by
  intro j hj
  have hjm : j ∈ s.sorted_idx.take s.size := h.perm.mem_iff.2 hj
  obtain ⟨k, hk, rfl⟩ := List.getElem_of_mem hjm
  rw [h.sorted_note_take hs]
  have hpw := h.sorted
  rw [List.pairwise_map] at hpw
  by_cases hk0 : k = 0
  · subst hk0
    exact Nat.le_refl _
  · have := List.pairwise_iff_get.1 hpw ⟨0, by rw [h.take_length]; exact hs⟩ ⟨k, hk⟩
      (by simp; omega)
    exact Nat.le_of_lt this

theorem NoteSet.Rep.sorted_last_ge {s : NoteSet} {l : List Nat} (h : s.Rep l)
    (hs : 0 < s.size) : ∀ j ∈ l, s.pitch j ≤ s.pitch (s.sorted_note (s.size - 1)) := by
  intro j hj
  have hjm : j ∈ s.sorted_idx.take s.size := h.perm.mem_iff.2 hj
  obtain ⟨k, hk, rfl⟩ := List.getElem_of_mem hjm
  have hk1 : k < s.size := by rw [h.take_length] at hk; exact hk
  rw [h.sorted_note_take (by omega : s.size - 1 < s.size)]
  have hpw := h.sorted
  rw [List.pairwise_map] at hpw
  by_cases hk0 : k = s.size - 1
  · subst hk0
    exact Nat.le_refl _
  · have := List.pairwise_iff_get.1 hpw ⟨k, hk⟩
      ⟨s.size - 1, by rw [h.take_length]; omega⟩ (by simp; omega)
    exact Nat.le_of_lt this

/-- C9: in a reachable state with `size > 0`, `note_by_priority(LOW)` returns a
held note of least pitch, `note_by_priority(HIGH)` a held note of greatest
pitch, and `note_by_priority(LAST)` the held note of the latest `note_on(p, v)`
call whose pitch is still held, with that pitch and velocity: no `note_on`
after it in the call sequence pressed a pitch that is held now. -/
theorem C9_note_by_priority (ops : List Op) (s : NoteSet) (h : NoteSet.ReachedBy ops s)
    (hs : 0 < s.get_size) :
    (s.note_by_priority NOTE_PRIORITY_LOW ∈ s.chain ∧
      ∀ j ∈ s.chain, (s.note (s.note_by_priority NOTE_PRIORITY_LOW)).note ≤ (s.note j).note) ∧
    (s.note_by_priority NOTE_PRIORITY_HIGH ∈ s.chain ∧
      ∀ j ∈ s.chain, (s.note j).note ≤ (s.note (s.note_by_priority NOTE_PRIORITY_HIGH)).note) ∧
    (s.note_by_priority NOTE_PRIORITY_LAST ∈ s.chain ∧
      ∃ pre p v post, ops = pre ++ Op.note_on p v :: post ∧
        (∀ q w, Op.note_on q w ∈ post → q ∉ s.pitches) ∧
        (s.note (s.note_by_priority NOTE_PRIORITY_LAST)).note = p ∧
        (s.note (s.note_by_priority NOTE_PRIORITY_LAST)).velocity = v) := by
  obtain ⟨l, hl⟩ := reachedBy_rep h
  have hs1 : 0 < s.size := hs
  have hs0 : s.size ≠ 0 := by omega
  have eL : s.note_by_priority NOTE_PRIORITY_LOW = s.sorted_note 0 := by
    simp [NoteSet.note_by_priority, NoteSet.get_size, hs0, NOTE_PRIORITY_LOW,
      NOTE_PRIORITY_LAST]
  have eH : s.note_by_priority NOTE_PRIORITY_HIGH = s.sorted_note (s.size - 1) := by
    simp [NoteSet.note_by_priority, NoteSet.get_size, hs0, NOTE_PRIORITY_LOW,
      NOTE_PRIORITY_LAST, NOTE_PRIORITY_HIGH]
  have eR : s.note_by_priority NOTE_PRIORITY_LAST = s.root_idx := by
    simp [NoteSet.note_by_priority, NoteSet.get_size, hs0, NoteSet.most_recent_note]
  rw [eL, eH, eR, hl.chain_eq]
  refine ⟨⟨hl.sorted_note_mem hs1, hl.sorted_first_le hs1⟩,
    ⟨hl.sorted_note_mem (by omega), hl.sorted_last_ge hs1⟩, hl.root_mem hs0, ?_⟩
  have hH := reachedBy_history h
  have hlk := hl.linked
  cases l with
  | nil => exact absurd hl.size_eq hs0
  | cons a l =>
    have hheld : s.held = [] ++ ((s.note a).note, (s.note a).velocity) :: l.map s.vals := by
      rw [hl.held_eq]; rfl
    obtain ⟨pre, post, e, hpost⟩ := hH [] _ _ _ hheld
    refine ⟨pre, _, _, post, e, ?_, by rw [hlk.1], by rw [hlk.1]⟩
    intro q w hq hm
    apply hpost q w hq
    rw [← held_pitches, hheld] at hm
    exact hm

theorem C9_note_by_priority_witness :
    NoteSet.ReachedBy [.note_on 72 1, .note_on 60 1, .note_on 67 1] exLow ∧
    0 < exLow.get_size ∧
    ((exLow.note_by_priority NOTE_PRIORITY_LOW ∈ exLow.chain ∧
      ∀ j ∈ exLow.chain,
        (exLow.note (exLow.note_by_priority NOTE_PRIORITY_LOW)).note ≤ (exLow.note j).note) ∧
    (exLow.note_by_priority NOTE_PRIORITY_HIGH ∈ exLow.chain ∧
      ∀ j ∈ exLow.chain,
        (exLow.note j).note ≤ (exLow.note (exLow.note_by_priority NOTE_PRIORITY_HIGH)).note) ∧
    (exLow.note_by_priority NOTE_PRIORITY_LAST ∈ exLow.chain ∧
      ∃ pre p v post,
        [Op.note_on 72 1, Op.note_on 60 1, Op.note_on 67 1] = pre ++ Op.note_on p v :: post ∧
        (∀ q w, Op.note_on q w ∈ post → q ∉ exLow.pitches) ∧
        (exLow.note (exLow.note_by_priority NOTE_PRIORITY_LAST)).note = p ∧
        (exLow.note (exLow.note_by_priority NOTE_PRIORITY_LAST)).velocity = v)) :=
  ⟨reachedBy_run _ [] _ exLow (NoteSet.ReachedBy.init ex0 2 (by decide)) (by decide)
      (by decide), by decide,
    C9_note_by_priority _ exLow
      (reachedBy_run _ [] _ exLow (NoteSet.ReachedBy.init ex0 2 (by decide)) (by decide)
        (by decide)) (by decide)⟩

/-- C10: `note_by_priority` fails soft to the sentinel. In a reachable state
that is empty, or for a priority byte other than 1, 2, 3, it returns slot 0,
whose pitch is `EMPTY_NOTE`. The query is a function of the state and returns
no new state. -/
theorem C10_priority_sentinel (s : NoteSet) (h : s.Reachable) (priority : Nat)
    (hc : s.get_size = 0 ∨
      (priority ≠ NOTE_PRIORITY_LAST ∧ priority ≠ NOTE_PRIORITY_LOW ∧
        priority ≠ NOTE_PRIORITY_HIGH)) :
    s.note_by_priority priority = s.no_note ∧ s.no_note = 0 ∧
    (s.note (s.note_by_priority priority)).note = EMPTY_NOTE := by
  obtain ⟨l, hl⟩ := reachable_rep h
  have e : s.note_by_priority priority = 0 := by
    unfold NoteSet.note_by_priority NoteSet.no_note
    rcases hc with h0 | ⟨h1, h2, h3⟩
    · simp [h0]
    · simp [h1, h2, h3]
  rw [e]
  exact ⟨rfl, rfl, hl.zero⟩

theorem C10_priority_sentinel_witness :
    exTwo.Reachable ∧
    (exTwo.get_size = 0 ∨
      (7 ≠ NOTE_PRIORITY_LAST ∧ 7 ≠ NOTE_PRIORITY_LOW ∧ 7 ≠ NOTE_PRIORITY_HIGH)) ∧
    (exTwo.note_by_priority 7 = exTwo.no_note ∧ exTwo.no_note = 0 ∧
    (exTwo.note (exTwo.note_by_priority 7)).note = EMPTY_NOTE) :=
  ⟨exTwo_reachable, by decide, C10_priority_sentinel exTwo exTwo_reachable 7 (by decide)⟩

theorem exOne_reachable : exOne.Reachable :=
  reachable_run ex0 1 [.note_on 60 100] exOne (by decide) (by decide) (by decide)

theorem exTwoPlayed_reachable : exTwoPlayed.Reachable :=
  reachable_run ex0 1 [.note_on 60 100, .note_on 64 90, .get_next_note] exTwoPlayed
    (by decide) (by decide) (by decide)

/-- C11: of two consecutive `get_next_note()` calls in a reachable state, the
second returns the sentinel slot 0, whose pitch is `EMPTY_NOTE`, and leaves the
state as the first call left it; and when the set is not empty, the configured
priority is LAST, LOW or HIGH and the pitch of the priority winner differs from
`get_last()`, the first call returns that winner and `get_last()` becomes its
pitch. -/
theorem C11_next_note_twice (s : NoteSet) (h : s.Reachable) :
    s.get_next_note.1.get_next_note.2 = s.get_next_note.1.no_note ∧
    s.get_next_note.1.get_next_note.2 = 0 ∧
    (s.get_next_note.1.note s.get_next_note.1.get_next_note.2).note = EMPTY_NOTE ∧
    s.get_next_note.1.get_next_note.1 = s.get_next_note.1 ∧
    (0 < s.get_size →
      (s.the_priority = NOTE_PRIORITY_LAST ∨ s.the_priority = NOTE_PRIORITY_LOW ∨
        s.the_priority = NOTE_PRIORITY_HIGH) →
      (s.note (s.note_by_priority s.the_priority)).note ≠ s.get_last →
      s.get_next_note.2 = s.note_by_priority s.the_priority ∧
      s.get_next_note.1.get_last = (s.note (s.note_by_priority s.the_priority)).note) := by
  obtain ⟨l, hl⟩ := reachable_rep h
  have h1 := hl.get_next_note
  have key : s.get_next_note.1.get_next_note = (s.get_next_note.1, 0) := by
    unfold NoteSet.get_next_note
    by_cases hc : (s.note (s.note_by_priority s.the_priority)).note ≠ EMPTY_NOTE ∧
        (s.note (s.note_by_priority s.the_priority)).note ≠ s.last_played
    · simp only [hc, ne_eq, not_false_eq_true, and_self, if_true]
      have e : ({ s with last_played := (s.note (s.note_by_priority s.the_priority)).note }
          : NoteSet).note_by_priority s.the_priority = s.note_by_priority s.the_priority := rfl
      simp only [e]
      have e2 : ∀ i, ({ s with last_played :=
          (s.note (s.note_by_priority s.the_priority)).note } : NoteSet).note i = s.note i :=
        fun _ => rfl
      simp only [e2, ne_eq, not_true_eq_false, and_false, if_false]
      rfl
    · simp only [hc, if_false]
      rfl
  rw [key]
  refine ⟨rfl, rfl, h1.zero, rfl, ?_⟩
  intro hs hpr hne
  have hs0 : s.size ≠ 0 := by have : 0 < s.size := hs; omega
  have hm : s.note_by_priority s.the_priority ∈ l := by
    rcases hl.priority_mem s.the_priority with h0 | hm
    · exfalso
      unfold NoteSet.note_by_priority NoteSet.get_size NoteSet.most_recent_note
        NoteSet.no_note at h0
      rw [if_neg hs0] at h0
      rcases hpr with e | e | e
      · rw [if_pos e] at h0
        exact hl.linked.zero_not_mem (h0 ▸ hl.root_mem hs0)
      · have e1 : s.the_priority ≠ NOTE_PRIORITY_LAST := by rw [e]; decide
        rw [if_neg e1, if_pos e] at h0
        exact hl.linked.zero_not_mem (h0 ▸ hl.sorted_note_mem (by omega : 0 < s.size))
      · have e1 : s.the_priority ≠ NOTE_PRIORITY_LAST := by rw [e]; decide
        have e2 : s.the_priority ≠ NOTE_PRIORITY_LOW := by rw [e]; decide
        rw [if_neg e1, if_neg e2, if_pos e] at h0
        exact hl.linked.zero_not_mem
          (h0 ▸ hl.sorted_note_mem (by omega : s.size - 1 < s.size))
    · exact hm
  have hlive : (s.note (s.note_by_priority s.the_priority)).note ≠ EMPTY_NOTE := hl.live _ hm
  have hne1 : (s.note (s.note_by_priority s.the_priority)).note ≠ s.last_played := hne
  have e : s.get_next_note =
      ({ s with last_played := (s.note (s.note_by_priority s.the_priority)).note },
        s.note_by_priority s.the_priority) := by
    unfold NoteSet.get_next_note
    simp only [hlive, hne1, ne_eq, not_false_eq_true, and_self, if_true]
  rw [e]
  exact ⟨rfl, rfl⟩

theorem C11_next_note_twice_witness :
    exOne.Reachable ∧
    (exOne.get_next_note.1.get_next_note.2 = exOne.get_next_note.1.no_note ∧
    exOne.get_next_note.1.get_next_note.2 = 0 ∧
    (exOne.get_next_note.1.note exOne.get_next_note.1.get_next_note.2).note = EMPTY_NOTE ∧
    exOne.get_next_note.1.get_next_note.1 = exOne.get_next_note.1 ∧
    (0 < exOne.get_size →
      (exOne.the_priority = NOTE_PRIORITY_LAST ∨ exOne.the_priority = NOTE_PRIORITY_LOW ∨
        exOne.the_priority = NOTE_PRIORITY_HIGH) →
      (exOne.note (exOne.note_by_priority exOne.the_priority)).note ≠ exOne.get_last →
      exOne.get_next_note.2 = exOne.note_by_priority exOne.the_priority ∧
      exOne.get_next_note.1.get_last =
        (exOne.note (exOne.note_by_priority exOne.the_priority)).note)) :=
  ⟨exOne_reachable, C11_next_note_twice exOne exOne_reachable⟩

/-- With a valid priority and a non-empty set the priority winner is a slot of
the chain. -/
theorem NoteSet.Rep.winner_mem {s : NoteSet} {l : List Nat} (hl : s.Rep l) (pr : Nat)
    (hs : 0 < s.size)
    (hpr : pr = NOTE_PRIORITY_LAST ∨ pr = NOTE_PRIORITY_LOW ∨ pr = NOTE_PRIORITY_HIGH) :
    s.note_by_priority pr ∈ l := by
  have hs0 : s.size ≠ 0 := by omega
  unfold NoteSet.note_by_priority NoteSet.get_size NoteSet.most_recent_note NoteSet.no_note
  rw [if_neg hs0]
  rcases hpr with e | e | e
  · rw [if_pos e]
    exact hl.root_mem hs0
  · have e1 : pr ≠ NOTE_PRIORITY_LAST := by rw [e]; decide
    rw [if_neg e1, if_pos e]
    exact hl.sorted_note_mem hs
  · have e1 : pr ≠ NOTE_PRIORITY_LAST := by rw [e]; decide
    have e2 : pr ≠ NOTE_PRIORITY_LOW := by rw [e]; decide
    rw [if_neg e1, if_neg e2, if_pos e]
    exact hl.sorted_note_mem (by omega)

theorem get_next_note_deliver (s : NoteSet)
    (h1 : (s.note (s.note_by_priority s.the_priority)).note ≠ EMPTY_NOTE)
    (h2 : (s.note (s.note_by_priority s.the_priority)).note ≠ s.last_played) :
    s.get_next_note =
      ({ s with last_played := (s.note (s.note_by_priority s.the_priority)).note },
        s.note_by_priority s.the_priority) := by
  unfold NoteSet.get_next_note
  simp only [h1, h2, ne_eq, not_false_eq_true, and_self, if_true]

theorem get_next_note_suppress (s : NoteSet)
    (h : (s.note (s.note_by_priority s.the_priority)).note = EMPTY_NOTE ∨
      (s.note (s.note_by_priority s.the_priority)).note = s.last_played) :
    s.get_next_note = (s, 0) := by
  unfold NoteSet.get_next_note
  have : ¬ ((s.note (s.note_by_priority s.the_priority)).note ≠ EMPTY_NOTE ∧
      (s.note (s.note_by_priority s.the_priority)).note ≠ s.last_played) := by
    rintro ⟨a, b⟩
    rcases h with h | h
    · exact a h
    · exact b h
  rw [if_neg this]
  rfl

/-- C12: in a reachable state with `get_last() = p`, `p` other than
`EMPTY_NOTE`, the call `note_off(p)` returns and leaves `get_last() =
EMPTY_NOTE`; and when the set is then not empty and the configured priority is
LAST, LOW or HIGH, the next `get_next_note()` returns the priority winner,
which is a held slot, not the sentinel, with a pitch other than `p` and
`EMPTY_NOTE`. -/
theorem C12_release_clears_last (s : NoteSet) (h : s.Reachable) (p : Nat)
    (hp : s.get_last = p) (hpe : p ≠ EMPTY_NOTE) :
    ∃ s1, s.note_off p = some s1 ∧
      s1.get_last = EMPTY_NOTE ∧
      (0 < s1.get_size →
        (s1.the_priority = NOTE_PRIORITY_LAST ∨ s1.the_priority = NOTE_PRIORITY_LOW ∨
          s1.the_priority = NOTE_PRIORITY_HIGH) →
        s1.get_next_note.2 = s1.note_by_priority s1.the_priority ∧
        s1.get_next_note.2 ∈ s1.chain ∧
        s1.get_next_note.2 ≠ s1.no_note ∧
        (s1.note s1.get_next_note.2).note ≠ p ∧
        (s1.note s1.get_next_note.2).note ≠ EMPTY_NOTE) := by
  obtain ⟨l, hl⟩ := reachable_rep h
  have hlast : s.last_played = p := hp
  have hpm : p ∈ l.map s.pitch := by
    rcases hl.last with h0 | hm
    · exact absurd (hlast.symm.trans h0) hpe
    · exact hlast ▸ hm
  rcases held_split s l p with hnp | ⟨l1, c, l2, rfl, hc⟩
  · exact absurd hpm hnp
  have h1 := hl.note_off_at_hit p hc
  have hlast1 : (s.note_off_at p c (lastD l1 0)).last_played = 255 := by
    rw [note_off_at_last, if_pos hlast.symm]
  have hnp1 : p ∉ (l1 ++ l2).map (s.note_off_at p c (lastD l1 0)).pitch := by
    rw [← h1.pitches_eq, ← held_pitches, (hl.held_note_off_at hc).2]
    intro hm
    obtain ⟨x, hx, hxe⟩ := List.mem_map.1 hm
    have := (List.mem_filter.1 hx).2
    simp [hxe] at this
  refine ⟨_, hl.note_off_hit hc, hlast1, ?_⟩
  intro hs hpr
  have hm := h1.winner_mem _ hs hpr
  have hlive := h1.live _ hm
  have e := get_next_note_deliver (s.note_off_at p c (lastD l1 0)) hlive
    (by rw [hlast1]; exact hlive)
  rw [e]
  refine ⟨rfl, by rw [h1.chain_eq]; exact hm, ?_, ?_, hlive⟩
  · intro e0
    exact h1.linked.zero_not_mem ((show _ = 0 from e0) ▸ hm)
  · intro e1
    exact hnp1 (List.mem_map.2 ⟨_, hm, e1⟩)

theorem C12_release_clears_last_witness :
    exTwoPlayed.Reachable ∧ exTwoPlayed.get_last = 64 ∧ 64 ≠ EMPTY_NOTE ∧
    ∃ s1, exTwoPlayed.note_off 64 = some s1 ∧
      s1.get_last = EMPTY_NOTE ∧
      (0 < s1.get_size →
        (s1.the_priority = NOTE_PRIORITY_LAST ∨ s1.the_priority = NOTE_PRIORITY_LOW ∨
          s1.the_priority = NOTE_PRIORITY_HIGH) →
        s1.get_next_note.2 = s1.note_by_priority s1.the_priority ∧
        s1.get_next_note.2 ∈ s1.chain ∧
        s1.get_next_note.2 ≠ s1.no_note ∧
        (s1.note s1.get_next_note.2).note ≠ 64 ∧
        (s1.note s1.get_next_note.2).note ≠ EMPTY_NOTE) :=
  ⟨exTwoPlayed_reachable, by decide, by decide,
    C12_release_clears_last exTwoPlayed exTwoPlayed_reachable 64 (by decide) (by decide)⟩

/-- C17: in every reachable state `get_last()` is `EMPTY_NOTE` or the pitch of
a note that is held now. -/
theorem C17_last_is_held (s : NoteSet) (h : s.Reachable) :
    s.get_last = EMPTY_NOTE ∨ s.get_last ∈ s.pitches := by
  obtain ⟨l, hl⟩ := reachable_rep h
  rw [hl.pitches_eq]
  exact hl.last

theorem C17_last_is_held_witness :
    exTwoPlayed.Reachable ∧
    (exTwoPlayed.get_last = EMPTY_NOTE ∨ exTwoPlayed.get_last ∈ exTwoPlayed.pitches) :=
  ⟨exTwoPlayed_reachable, C17_last_is_held exTwoPlayed exTwoPlayed_reachable⟩

/-- C14: from any prior contents of the object and any priority byte `m`,
`init(m)` gives `get_size() = 0`, `get_last() = EMPTY_NOTE`, `root_idx = 0`,
priority `m`, slot 0 with `note = EMPTY_NOTE` and every slot of `1..capacity`
with `note = EMPTY_NOTE`, `velocity = 0`, `next_idx = 0`; and
`most_recent_note()`, `least_recent_note()`, `note_by_priority` of any byte and
`get_next_note()` all return the sentinel slot 0. -/
theorem C14_init_state (s0 : NoteSet) (m : Nat) (hw : s0.WellFormed) :
    (s0.init m).get_size = 0 ∧
    (s0.init m).get_last = EMPTY_NOTE ∧
    (s0.init m).root_idx = 0 ∧
    (s0.init m).the_priority = m ∧
    ((s0.init m).note 0).note = EMPTY_NOTE ∧
    (∀ i, 1 ≤ i → i ≤ NoteSet.capacity → (s0.init m).note i = ⟨EMPTY_NOTE, 0, 0⟩) ∧
    (s0.init m).most_recent_note = (s0.init m).no_note ∧
    (s0.init m).least_recent_note = some (s0.init m).no_note ∧
    (∀ priority, (s0.init m).note_by_priority priority = (s0.init m).no_note) ∧
    (s0.init m).get_next_note.2 = (s0.init m).no_note ∧
    (s0.init m).no_note = 0 := by
  have hr := init_rep s0 m hw
  have e := init_eq s0 m hw
  have hsz : (s0.init m).size = 0 := by rw [e]
  have hpr : ∀ pr, (s0.init m).note_by_priority pr = 0 := by
    intro pr
    unfold NoteSet.note_by_priority NoteSet.get_size NoteSet.no_note
    rw [if_pos hsz]
  refine ⟨hsz, by rw [e]; rfl, by rw [e], by rw [e], hr.zero, ?_, by rw [e]; rfl, ?_, hpr, ?_,
    rfl⟩
  · intro i h1 h2
    exact hr.free i h1 h2 (by simp)
  · rw [hr.least_recent_eq]; rfl
  · rw [get_next_note_suppress _ (Or.inl (by rw [hpr]; exact hr.zero))]
    rfl

theorem C14_init_state_witness :
    ex0.WellFormed ∧
    ((ex0.init 2).get_size = 0 ∧
    (ex0.init 2).get_last = EMPTY_NOTE ∧
    (ex0.init 2).root_idx = 0 ∧
    (ex0.init 2).the_priority = 2 ∧
    ((ex0.init 2).note 0).note = EMPTY_NOTE ∧
    (∀ i, 1 ≤ i → i ≤ NoteSet.capacity → (ex0.init 2).note i = ⟨EMPTY_NOTE, 0, 0⟩) ∧
    (ex0.init 2).most_recent_note = (ex0.init 2).no_note ∧
    (ex0.init 2).least_recent_note = some (ex0.init 2).no_note ∧
    (∀ priority, (ex0.init 2).note_by_priority priority = (ex0.init 2).no_note) ∧
    (ex0.init 2).get_next_note.2 = (ex0.init 2).no_note ∧
    (ex0.init 2).no_note = 0) :=
  ⟨by decide, C14_init_state ex0 2 (by decide)⟩

theorem getD_mem_drop : ∀ (l : List Nat) (k k1 : Nat), k ≤ k1 → k1 < l.length →
    l.getD k1 0 ∈ l.drop k
  | [], _, _, _, h => by simp at h
  | a :: l, 0, k1, _, h => by
    rw [List.drop_zero]
    exact getD_mem_of_lt _ _ h
  | a :: l, k + 1, 0, hk, _ => by omega
  | a :: l, k + 1, k1 + 1, hk, h => by
    rw [List.getD_cons_succ, List.drop_succ_cons]
    exact getD_mem_drop l k k1 (by omega) (by simpa using h)

theorem split_at_getD : ∀ (l : List Nat) (k : Nat), k < l.length →
    l = l.take k ++ l.getD k 0 :: l.drop (k + 1)
  | [], _, h => by simp at h
  | a :: l, 0, _ => by simp
  | a :: l, k + 1, h => by
    rw [List.take_succ_cons, List.getD_cons_succ, List.drop_succ_cons, List.cons_append]
    congr 1
    exact split_at_getD l k (by simpa using h)

theorem LinkedFrom.next_getD {nx : Nat → Nat} {l : List Nat} {r : Nat}
    (h : LinkedFrom nx r l) (k : Nat) (hk : k + 1 < l.length) :
    nx (l.getD k 0) = l.getD (k + 1) 0 := by
  rw [← LinkedFrom.iterate k h (by omega), ← LinkedFrom.iterate (k + 1) h (by omega),
    Function.iterate_succ_apply']

theorem NoteSet.Rep.played_list {s : NoteSet} {l : List Nat} (h : s.Rep l) :
    (List.range s.size).map s.played_note = l.reverse := by
  apply List.ext_getElem
  · simp [h.size_eq]
  · intro i h1 h2
    have hi : i < s.size := by simpa using h1
    have hlen := h.size_eq
    rw [List.getElem_map, List.getElem_range, h.played_note_eq hi, List.getElem_reverse,
      List.getD_eq_getElem l 0 (by omega)]
    congr 1
    omega

/-- C13: in a reachable state `played_note(r)`, `r < size`, runs through the
chain from its tail to its root: `played_note(0)` is the slot of
`least_recent_note()`, `played_note(size - 1)` the slot of `most_recent_note()`,
and the slot of `played_note(r + 1)` links to the slot of `played_note(r)`.
These slots are pairwise distinct and are exactly the slots of the chain. The
order is the press order: `played_note(r)` carries the pitch and velocity of a
`note_on` call after which no `note_on` pressed its pitch or the pitch of an
older `played_note`. -/
theorem C13_played_note_order (ops : List Op) (s : NoteSet) (h : NoteSet.ReachedBy ops s) :
    (List.range s.get_size).map s.played_note = s.chain.reverse ∧
    (0 < s.get_size →
      s.least_recent_note = some (s.played_note 0) ∧
      s.played_note (s.get_size - 1) = s.most_recent_note) ∧
    (∀ r, r + 1 < s.get_size →
      (s.note (s.played_note (r + 1))).next_idx = s.played_note r) ∧
    ((List.range s.get_size).map s.played_note).Nodup ∧
    (∀ i, i ∈ (List.range s.get_size).map s.played_note ↔ i ∈ s.chain) ∧
    (∀ r, r < s.get_size →
      ∃ pre p v post, ops = pre ++ Op.note_on p v :: post ∧
        s.vals (s.played_note r) = (p, v) ∧
        ∀ q w, Op.note_on q w ∈ post →
          ∀ r1, r1 ≤ r → (s.note (s.played_note r1)).note ≠ q) := by
  obtain ⟨l, hl⟩ := reachedBy_rep h
  have hlist : (List.range s.get_size).map s.played_note = l.reverse := hl.played_list
  have hlen := hl.size_eq
  rw [hlist, hl.chain_eq]
  refine ⟨rfl, ?_, ?_, List.nodup_reverse.2 hl.nodup, fun i => List.mem_reverse, ?_⟩
  · intro hs
    have hs1 : 0 < s.size := hs
    have hne : l ≠ [] := by
      rintro rfl
      simp at hlen; omega
    refine ⟨?_, ?_⟩
    · rw [hl.least_recent_eq, hl.played_note_eq hs1, lastD_eq_getD l 0 hne, hlen, Nat.sub_zero]
    · have hlt : s.get_size - 1 < s.size := by
        show s.size - 1 < s.size
        omega
      rw [hl.played_note_eq hlt, hl.most_recent_eq]
      have e : s.size - 1 - (s.get_size - 1) = 0 := by
        show s.size - 1 - (s.size - 1) = 0
        omega
      rw [e]
      cases l with
      | nil => exact absurd rfl hne
      | cons a l => rfl
  · intro r hr
    have hr1 : r + 1 < s.size := hr
    rw [hl.played_note_eq hr1, hl.played_note_eq (by omega : r < s.size)]
    have e : s.size - 1 - r = (s.size - 1 - (r + 1)) + 1 := by omega
    rw [e]
    exact hl.linked.next_getD _ (by omega)
  · intro r hr
    have hr1 : r < s.size := hr
    have hk : s.size - 1 - r < l.length := by omega
    have hsplit := split_at_getD l (s.size - 1 - r) hk
    have hheld : s.held = (l.take (s.size - 1 - r)).map s.vals ++
        ((s.note (l.getD (s.size - 1 - r) 0)).note, (s.note (l.getD (s.size - 1 - r) 0)).velocity)
          :: (l.drop (s.size - 1 - r + 1)).map s.vals := by
      rw [hl.held_eq]
      conv_lhs => rw [hsplit]
      rw [List.map_append, List.map_cons]
      rfl
    obtain ⟨pre, post, e, hpost⟩ := reachedBy_history h _ _ _ _ hheld
    refine ⟨pre, _, _, post, e, by rw [hl.played_note_eq hr1]; rfl, ?_⟩
    intro q w hq r1 hr1le hcon
    apply hpost q w hq
    have hm := getD_mem_drop l (s.size - 1 - r) (s.size - 1 - r1) (by omega) (by omega)
    rw [List.drop_eq_getElem_cons hk, ← List.getD_eq_getElem l 0 hk] at hm
    rw [← hl.played_note_eq (by omega : r1 < s.size)] at hm
    have : q ∈ (l.getD (s.size - 1 - r) 0 :: l.drop (s.size - 1 - r + 1)).map s.pitch :=
      List.mem_map.2 ⟨_, hm, hcon⟩
    simpa [List.map_map, Function.comp, NoteSet.vals, NoteSet.pitch] using this

theorem C13_played_note_order_witness :
    NoteSet.ReachedBy [.note_on 72 1, .note_on 60 1, .note_on 67 1] exLow ∧
    ((List.range exLow.get_size).map exLow.played_note = exLow.chain.reverse ∧
    (0 < exLow.get_size →
      exLow.least_recent_note = some (exLow.played_note 0) ∧
      exLow.played_note (exLow.get_size - 1) = exLow.most_recent_note) ∧
    (∀ r, r + 1 < exLow.get_size →
      (exLow.note (exLow.played_note (r + 1))).next_idx = exLow.played_note r) ∧
    ((List.range exLow.get_size).map exLow.played_note).Nodup ∧
    (∀ i, i ∈ (List.range exLow.get_size).map exLow.played_note ↔ i ∈ exLow.chain) ∧
    (∀ r, r < exLow.get_size →
      ∃ pre p v post,
        [Op.note_on 72 1, Op.note_on 60 1, Op.note_on 67 1] = pre ++ Op.note_on p v :: post ∧
        exLow.vals (exLow.played_note r) = (p, v) ∧
        ∀ q w, Op.note_on q w ∈ post →
          ∀ r1, r1 ≤ r → (exLow.note (exLow.played_note r1)).note ≠ q)) :=
  ⟨reachedBy_run _ [] _ exLow (NoteSet.ReachedBy.init ex0 2 (by decide)) (by decide)
      (by decide),
    C13_played_note_order _ exLow
      (reachedBy_run _ [] _ exLow (NoteSet.ReachedBy.init ex0 2 (by decide)) (by decide)
        (by decide))⟩

/-- On a represented state `note_on` returns for every pitch and velocity. -/
theorem NoteSet.Rep.note_on_total {s : NoteSet} {l : List Nat} (h : s.Rep l) (p v : Nat) :
    ∃ s1, s.note_on p v = some s1 := by
  rcases held_split s l p with hnp | ⟨l1, c, l2, rfl, hc⟩
  · by_cases hs : s.size < 10
    · exact ⟨_, h.note_on_fresh hs p v hnp⟩
    · have hs10 : s.size = 10 := by have := h.size_le; omega
      rcases nil_or_snoc l with rfl | ⟨l0, t, rfl⟩
      · have := h.size_eq
        simp at this; omega
      · exact ⟨_, h.note_on_full hs10 p v hnp⟩
  · exact ⟨_, h.note_on_again hc v⟩

/-- On a represented state `note_off` returns for every pitch. -/
theorem NoteSet.Rep.note_off_total {s : NoteSet} {l : List Nat} (h : s.Rep l) (p : Nat) :
    ∃ s1, s.note_off p = some s1 := by
  rcases held_split s l p with hnp | ⟨l1, c, l2, rfl, hc⟩
  · exact ⟨_, h.note_off_miss hnp⟩
  · exact ⟨_, h.note_off_hit hc⟩

/-- The walk of `note_off` needs no more fuel than `size + 1`. -/
theorem NoteSet.Rep.note_off_find_fuel {s : NoteSet} {l : List Nat} (h : s.Rep l) (p : Nat) :
    ∃ r, NoteSet.note_off_find s.notes p (s.size + 1) s.root_idx 0 = some r ∧
      NoteSet.note_off_find s.notes p 256 s.root_idx 0 = some r := by
  have hlen := h.size_eq
  have hlt := h.length_lt
  rcases held_split s l p with hnp | ⟨l1, c, l2, rfl, hc⟩
  · have hne : ∀ i ∈ l, (NoteSet.rd s.notes i).note ≠ p :=
      fun i hi e => hnp (List.mem_map.2 ⟨i, hi, e⟩)
    exact ⟨_, note_off_find_miss s.notes p l _ s.root_idx 0 h.linked_rd hne (by omega),
      note_off_find_miss s.notes p l 256 s.root_idx 0 h.linked_rd hne hlt⟩
  · have hcm : c ∈ l1 ++ c :: l2 := by simp
    have hne : ∀ i ∈ l1, (NoteSet.rd s.notes i).note ≠ p := by
      intro i hi e
      have hic : i = c := h.pitch_inj (List.mem_append_left _ hi) hcm (e.trans hc.symm)
      subst hic
      exact (List.nodup_append.1 h.nodup).2.2 hi (List.mem_cons_self _ _)
    simp only [List.length_append, List.length_cons] at hlen hlt
    exact ⟨_, note_off_find_hit s.notes p c l2 hc l1 _ s.root_idx 0 h.linked_rd hne (by omega),
      note_off_find_hit s.notes p c l2 hc l1 256 s.root_idx 0 h.linked_rd hne (by omega)⟩

theorem getD_inj_of_nodup {l : List Nat} (hn : l.Nodup) {i j : Nat} (hi : i < l.length)
    (hj : j < l.length) (e : l.getD i 0 = l.getD j 0) : i = j := by
  rw [List.getD_eq_getElem l 0 hi, List.getD_eq_getElem l 0 hj] at e
  exact (hn.getElem_inj_iff).1 e

/-- C15: in a reachable state every chain walk stops within the capacity
bound. The walk of `note_off(p)` and the walk of `least_recent_note()` return
with fuel `size + 1`, that is after following at most `size <= capacity` links,
with the result they have under any larger fuel, and `note_off(p)` continues
from that result. The loop of `played_note(r)`, `r < size`, runs `size - r - 1`
times: `played_note(r)` is the slot reached from the root after exactly that
many links, a slot of the chain, no shorter walk reaches it, and every slot the
loop steps from is not slot 0. So `note_on`, `note_off` and
`least_recent_note` return on every reachable state. -/
theorem C15_walks_terminate (s : NoteSet) (h : s.Reachable) :
    s.get_size ≤ NoteSet.capacity ∧
    (∀ p, ∃ r, NoteSet.note_off_find s.notes p (s.get_size + 1) s.root_idx 0 = some r ∧
      NoteSet.note_off_find s.notes p 256 s.root_idx 0 = some r ∧
      s.note_off p = some (s.note_off_at p r.1 r.2)) ∧
    (∃ i, NoteSet.least_recent_walk s.notes (s.get_size + 1) s.root_idx = some i ∧
      s.least_recent_note = some i) ∧
    (∀ r, r < s.get_size →
      (((s.get_size : Int) - (r : Int) - 1) % 256).toNat = s.get_size - r - 1 ∧
      s.played_note r =
        Nat.iterate (fun current => (NoteSet.rd s.notes current).next_idx)
          (s.get_size - r - 1) s.root_idx ∧
      s.played_note r ∈ s.chain ∧
      ∀ k, k < s.get_size - r - 1 →
        Nat.iterate (fun current => (NoteSet.rd s.notes current).next_idx) k s.root_idx ≠ 0 ∧
        Nat.iterate (fun current => (NoteSet.rd s.notes current).next_idx) k s.root_idx
          ≠ s.played_note r) ∧
    (∀ p v, ∃ s1, s.note_on p v = some s1) ∧
    (∀ p, ∃ s1, s.note_off p = some s1) := by
  obtain ⟨l, hl⟩ := reachable_rep h
  have hlen := hl.size_eq
  have hle := hl.size_le
  refine ⟨hle, ?_, ?_, ?_, hl.note_on_total, hl.note_off_total⟩
  · intro p
    obtain ⟨r, h1, h2⟩ := hl.note_off_find_fuel p
    refine ⟨r, h1, h2, ?_⟩
    unfold NoteSet.note_off
    rw [h2]
  · exact ⟨_, least_recent_walk_eq s.notes l _ s.root_idx hl.linked_rd
      (by show l.length < s.size + 1; omega), hl.least_recent_eq⟩
  · intro r hr
    have hr1 : r < s.size := hr
    have hpl := hl.played_note_eq hr1
    have hidx : (((s.size : Int) - (r : Int) - 1) % 256).toNat = s.size - r - 1 := by omega
    have hlinks : s.played_note r =
        Nat.iterate (fun current => (NoteSet.rd s.notes current).next_idx)
          (s.get_size - r - 1) s.root_idx := by
      unfold NoteSet.played_note NoteSet.get_size
      simp only [hidx]
    refine ⟨hidx, hlinks, ?_, ?_⟩
    · rw [hl.chain_eq, hpl]
      exact getD_mem_of_lt l _ (by omega)
    · intro k hk
      have hk1 : k < s.size - r - 1 := hk
      rw [LinkedFrom.iterate k hl.linked_rd (by omega)]
      refine ⟨?_, ?_⟩
      · intro e0
        exact hl.linked.zero_not_mem (e0 ▸ getD_mem_of_lt l k (by omega))
      · intro e1
        rw [hpl] at e1
        have := getD_inj_of_nodup hl.nodup (by omega) (by omega) e1
        omega

theorem C15_walks_terminate_witness :
    exFull.Reachable ∧
    (exFull.get_size ≤ NoteSet.capacity ∧
    (∀ p, ∃ r,
      NoteSet.note_off_find exFull.notes p (exFull.get_size + 1) exFull.root_idx 0 = some r ∧
      NoteSet.note_off_find exFull.notes p 256 exFull.root_idx 0 = some r ∧
      exFull.note_off p = some (exFull.note_off_at p r.1 r.2)) ∧
    (∃ i, NoteSet.least_recent_walk exFull.notes (exFull.get_size + 1) exFull.root_idx
        = some i ∧
      exFull.least_recent_note = some i) ∧
    (∀ r, r < exFull.get_size →
      (((exFull.get_size : Int) - (r : Int) - 1) % 256).toNat = exFull.get_size - r - 1 ∧
      exFull.played_note r =
        Nat.iterate (fun current => (NoteSet.rd exFull.notes current).next_idx)
          (exFull.get_size - r - 1) exFull.root_idx ∧
      exFull.played_note r ∈ exFull.chain ∧
      ∀ k, k < exFull.get_size - r - 1 →
        Nat.iterate (fun current => (NoteSet.rd exFull.notes current).next_idx) k
          exFull.root_idx ≠ 0 ∧
        Nat.iterate (fun current => (NoteSet.rd exFull.notes current).next_idx) k
          exFull.root_idx ≠ exFull.played_note r) ∧
    (∀ p v, ∃ s1, exFull.note_on p v = some s1) ∧
    (∀ p, ∃ s1, exFull.note_off p = some s1)) :=
  ⟨exFull_reachable, C15_walks_terminate exFull exFull_reachable⟩

theorem exLowOne_reachable : exLowOne.Reachable :=
  reachable_run ex0 2 [.note_on 60 100] exLowOne (by decide) (by decide) (by decide)

theorem heldAfter_off_not_mem (L : List (Nat × Nat)) (p : Nat) :
    p ∉ (L.filter (fun x => decide (x.1 ≠ p))).map Prod.fst := by
  intro hm
  obtain ⟨x, hx, hxe⟩ := List.mem_map.1 hm
  have := (List.mem_filter.1 hx).2
  simp [hxe] at this

/-- A `note_on` or `note_off` call keeps `last_played` when its pitch is still
held afterwards, unless it is a `note_on` of that very pitch. -/
theorem NoteSet.Rep.last_kept {s : NoteSet} {l : List Nat} (h : s.Rep l) (o : Op)
    (hv : o.valid) (hn : o ≠ Op.get_next_note)
    (ho : ∀ q v, o = Op.note_on q v → q ≠ s.last_played)
    {s2 : NoteSet} (hs : s.step o = some s2) (hm : s.last_played ∈ s2.pitches) :
    s2.last_played = s.last_played := by
  have hheld := h.held_step o hv hs
  rw [← held_pitches, hheld] at hm
  cases o with
  | note_on q v =>
    have hq := ho q v rfl
    simp only [NoteSet.step] at hs
    rcases held_split s l q with hnp | ⟨l1, c, l2, rfl, hc⟩
    · by_cases hs10 : s.size < 10
      · rw [h.note_on_fresh hs10 q v hnp] at hs
        cases hs
        rfl
      · have hs10 : s.size = 10 := by have := h.size_le; omega
        rcases nil_or_snoc l with rfl | ⟨l0, t, rfl⟩
        · have := h.size_eq
          simp at this; omega
        rw [h.note_on_full hs10 q v hnp] at hs
        cases hs
        rw [note_on_insert_last, note_off_at_last]
        split_ifs with e
        · exfalso
          simp only [heldAfter] at hm
          rw [held_miss_filter h hnp, h.held_length, if_pos hs10, h.held_eq, List.map_append,
            List.map_cons] at hm
          have e1 : List.map s.vals [t] = [s.vals t] := rfl
          rw [e1, List.dropLast_concat, List.mem_cons] at hm
          rcases hm with hm | hm
          · exact hq hm.symm
          · rw [List.map_map] at hm
            obtain ⟨i, hi, hie⟩ := List.mem_map.1 hm
            have hie1 : s.pitch i = s.pitch t := hie.trans e.symm
            have : i = t := h.pitch_inj (List.mem_append_left _ hi) (by simp) hie1
            subst this
            exact (List.nodup_append.1 h.nodup).2.2 hi (List.mem_singleton_self _)
        · rfl
    · rw [h.note_on_again hc v] at hs
      cases hs
      rw [note_on_insert_last, note_off_at_last, if_neg hq]
  | note_off q =>
    simp only [NoteSet.step] at hs
    simp only [heldAfter] at hm
    have hq : q ≠ s.last_played := by
      rintro rfl
      exact heldAfter_off_not_mem _ _ hm
    rcases held_split s l q with hnp | ⟨l1, c, l2, rfl, hc⟩
    · rw [h.note_off_miss hnp] at hs
      cases hs
      rfl
    · rw [h.note_off_hit hc] at hs
      cases hs
      rw [note_off_at_last, if_neg hq]
  | get_next_note => exact absurd rfl hn

/-- C16, amended: in a reachable state in which `get_next_note()` has just
returned a slot with pitch `p`, after one `note_off(q)` or one `note_on(q, v)`
with `q` other than `EMPTY_NOTE` and other than `p`, if `note_by_priority` of
the configured priority still returns a slot with pitch `p`, the next
`get_next_note()` returns the sentinel and changes nothing. -/
theorem C16_suppression_kept (s : NoteSet) (h : s.Reachable) (p : Nat)
    (hp : (s.get_next_note.1.note s.get_next_note.2).note = p) (o : Op) (hv : o.valid)
    (hn : o ≠ Op.get_next_note) (ho : ∀ q v, o = Op.note_on q v → q ≠ p) (s2 : NoteSet)
    (hs : s.get_next_note.1.step o = some s2)
    (hw : (s2.note (s2.note_by_priority s2.the_priority)).note = p) :
    s2.get_next_note.2 = s2.no_note ∧ s2.get_next_note.1 = s2 := by
  obtain ⟨l, hl⟩ := reachable_rep h
  have h1 := hl.get_next_note
  obtain ⟨l2, hl2⟩ : ∃ l2, s2.Rep l2 := by
    obtain ⟨s3, l3, e, h3⟩ := h1.step_ok o hv
    rw [e] at hs
    cases hs
    exact ⟨l3, h3⟩
  by_cases hpe : p = 255
  · rw [get_next_note_suppress s2 (Or.inl (hw.trans hpe))]
    exact ⟨rfl, rfl⟩
  · have hlast : s.get_next_note.1.last_played = p := by
      by_cases hc : (s.note (s.note_by_priority s.the_priority)).note ≠ EMPTY_NOTE ∧
          (s.note (s.note_by_priority s.the_priority)).note ≠ s.last_played
      · rw [get_next_note_deliver s hc.1 hc.2] at hp ⊢
        exact hp
      · exfalso
        have e : s.get_next_note = (s, 0) := by
          apply get_next_note_suppress
          by_contra hcon
          exact hc ⟨fun a => hcon (Or.inl a), fun b => hcon (Or.inr b)⟩
        rw [e] at hp
        exact hpe (hp.symm.trans hl.zero)
    have hm : p ∈ s2.pitches := by
      rw [hl2.pitches_eq]
      rcases hl2.priority_mem s2.the_priority with h0 | hmem
      · rw [h0] at hw
        exact absurd (hw.symm.trans hl2.zero) hpe
      · exact List.mem_map.2 ⟨_, hmem, hw⟩
    have hk := h1.last_kept o hv hn (fun q v e => hlast ▸ ho q v e) hs (hlast ▸ hm)
    rw [get_next_note_suppress s2 (Or.inr (by rw [hk, hlast]; exact hw))]
    exact ⟨rfl, rfl⟩

theorem C16_suppression_kept_witness :
    exLowOne.Reachable ∧
    (exLowOne.get_next_note.1.note exLowOne.get_next_note.2).note = 60 ∧
    (Op.note_on 64 90).valid ∧ Op.note_on 64 90 ≠ Op.get_next_note ∧
    (∀ q v, Op.note_on 64 90 = Op.note_on q v → q ≠ 60) ∧
    exLowOne.get_next_note.1.step (Op.note_on 64 90) = some exLowTwo ∧
    (exLowTwo.note (exLowTwo.note_by_priority exLowTwo.the_priority)).note = 60 ∧
    (exLowTwo.get_next_note.2 = exLowTwo.no_note ∧ exLowTwo.get_next_note.1 = exLowTwo) :=
  ⟨exLowOne_reachable, by decide, by decide, by decide,
    by intro q v e; cases e; decide, by decide, by decide,
    C16_suppression_kept exLowOne exLowOne_reachable 60 (by decide) (Op.note_on 64 90)
      (by decide) (by decide) (by intro q v e; cases e; decide) exLowTwo (by decide)
      (by decide)⟩

/-- C16 as stated fails: pressing the pitch that was just delivered again
clears `last_played`, and the unchanged winner is delivered a second time. -/
theorem C16_counterexample :
    ¬ ∀ (s : NoteSet) (p : Nat) (o : Op) (s2 : NoteSet), s.Reachable →
      (s.the_priority = NOTE_PRIORITY_LAST ∨ s.the_priority = NOTE_PRIORITY_LOW ∨
        s.the_priority = NOTE_PRIORITY_HIGH) →
      (s.get_next_note.1.note s.get_next_note.2).note = p →
      o.valid → o ≠ Op.get_next_note →
      s.get_next_note.1.step o = some s2 →
      (s2.note (s2.note_by_priority s2.the_priority)).note = p →
      s2.get_next_note.2 = s2.no_note := by
  intro H
  have := H exOne 60 (Op.note_on 60 50) exAgain exOne_reachable (by decide) (by decide)
    (by decide) (by decide) (by decide) (by decide)
  revert this
  decide

theorem NoteSet.Rep.slot_le {s : NoteSet} {l : List Nat} (h : s.Rep l) {i : Nat}
    (hi : i = 0 ∨ i ∈ l) : i ≤ NoteSet.capacity := by
  show i ≤ 10
  rcases hi with rfl | hi
  · omega
  · exact (h.range i hi).2

/-- C18: the queries do not change the held set. In the embedding
`most_recent_note`, `least_recent_note`, `played_note`, `sorted_note`, `note`,
`no_note`, `note_by_priority`, `get_size`, `get_last` and `max_size` are
functions of the state that return no new state; on a reachable state each of
them returns, and the slot it refers to lies inside `notes[0..capacity]` (for
`played_note(r)` and `sorted_note(r)` with `r < size`). The call
`get_next_note()` leaves `size`, `root_idx`, every slot, `sorted_idx` and the
priority as they were; it can change `last_played` only. -/
theorem C18_queries_frame (s : NoteSet) (h : s.Reachable) :
    (s.get_next_note.1.size = s.size ∧
      s.get_next_note.1.root_idx = s.root_idx ∧
      s.get_next_note.1.notes = s.notes ∧
      s.get_next_note.1.sorted_idx = s.sorted_idx ∧
      s.get_next_note.1.the_priority = s.the_priority) ∧
    s.get_next_note.2 ≤ NoteSet.capacity ∧
    s.most_recent_note ≤ NoteSet.capacity ∧
    (∃ i, s.least_recent_note = some i ∧ i ≤ NoteSet.capacity) ∧
    (∀ r, r < s.get_size →
      s.played_note r ≤ NoteSet.capacity ∧ r < s.sorted_idx.length ∧
      s.sorted_note r ≤ NoteSet.capacity) ∧
    (∀ i, i ≤ NoteSet.capacity → i < s.notes.length) ∧
    s.no_note ≤ NoteSet.capacity ∧
    (∀ priority, s.note_by_priority priority ≤ NoteSet.capacity) ∧
    s.get_size = s.size ∧ s.get_last = s.last_played ∧ s.max_size = NoteSet.capacity := by
  obtain ⟨l, hl⟩ := reachable_rep h
  have hpr : ∀ pr, s.note_by_priority pr ≤ NoteSet.capacity := fun pr =>
    hl.slot_le (hl.priority_mem pr)
  refine ⟨?_, ?_, ?_, ?_, ?_, ?_, Nat.zero_le _, hpr, rfl, rfl, rfl⟩
  · unfold NoteSet.get_next_note
    simp only
    split_ifs
    · exact ⟨rfl, rfl, rfl, rfl, rfl⟩
    · exact ⟨rfl, rfl, rfl, rfl, rfl⟩
  · unfold NoteSet.get_next_note
    simp only
    split_ifs
    · exact hpr _
    · exact Nat.zero_le _
  · by_cases hs : s.size = 0
    · have hlen := hl.size_eq
      have : l = [] := List.length_eq_zero.1 (by omega)
      subst this
      have h0 : s.root_idx = 0 := hl.linked
      show s.root_idx ≤ _
      rw [h0]
      exact Nat.zero_le _
    · exact hl.slot_le (Or.inr (hl.root_mem hs))
  · refine ⟨_, hl.least_recent_eq, ?_⟩
    by_cases hne : l = []
    · subst hne
      exact Nat.zero_le _
    · exact hl.slot_le (Or.inr (lastD_mem l 0 hne))
  · intro r hr
    have hr1 : r < s.size := hr
    have hle := hl.size_le
    have hlen := hl.size_eq
    refine ⟨?_, by rw [hl.wf_sorted]; omega, hl.slot_le (Or.inr (hl.sorted_note_mem hr1))⟩
    rw [hl.played_note_eq hr1]
    exact hl.slot_le (Or.inr (getD_mem_of_lt l _ (by omega)))
  · intro i hi
    have hi1 : i ≤ 10 := hi
    rw [hl.wf_notes]
    omega

theorem C18_queries_frame_witness :
    exTwo.Reachable ∧
    ((exTwo.get_next_note.1.size = exTwo.size ∧
      exTwo.get_next_note.1.root_idx = exTwo.root_idx ∧
      exTwo.get_next_note.1.notes = exTwo.notes ∧
      exTwo.get_next_note.1.sorted_idx = exTwo.sorted_idx ∧
      exTwo.get_next_note.1.the_priority = exTwo.the_priority) ∧
    exTwo.get_next_note.2 ≤ NoteSet.capacity ∧
    exTwo.most_recent_note ≤ NoteSet.capacity ∧
    (∃ i, exTwo.least_recent_note = some i ∧ i ≤ NoteSet.capacity) ∧
    (∀ r, r < exTwo.get_size →
      exTwo.played_note r ≤ NoteSet.capacity ∧ r < exTwo.sorted_idx.length ∧
      exTwo.sorted_note r ≤ NoteSet.capacity) ∧
    (∀ i, i ≤ NoteSet.capacity → i < exTwo.notes.length) ∧
    exTwo.no_note ≤ NoteSet.capacity ∧
    (∀ priority, exTwo.note_by_priority priority ≤ NoteSet.capacity) ∧
    exTwo.get_size = exTwo.size ∧ exTwo.get_last = exTwo.last_played ∧
    exTwo.max_size = NoteSet.capacity) :=
  ⟨exTwo_reachable, C18_queries_frame exTwo exTwo_reachable⟩

/-- At capacity the tail of the chain is the one slot of `1..10` whose link
is 0. -/
theorem NoteSet.Rep.one_tail {s : NoteSet} {l0 : List Nat} {t : Nat}
    (h : s.Rep (l0 ++ [t])) (hs : s.size = 10) :
    ∀ i, 1 ≤ i → i ≤ 10 → ((s.note i).next_idx = 0 ↔ i = t) := by
  intro i h1 h2
  have hil := h.full hs i h1 h2
  constructor
  · intro e
    rcases List.mem_append.1 hil with hm | hm
    · exact absurd e (LinkedFrom.link_ne_zero t h.linked i hm)
    · exact List.mem_singleton.1 hm
  · rintro rfl
    exact LinkedFrom.last_link i h.linked

theorem NoteSet.Rep.find_free_found {s : NoteSet} {l : List Nat} (h : s.Rep l)
    (hs : s.size < 10) :
    (List.range' 1 NoteSet.capacity).find?
      (fun i => (NoteSet.rd s.notes i).note == EMPTY_NOTE) = some (NoteSet.find_free s.notes) := by
  obtain ⟨i, hi1, hi2, hil⟩ := h.exists_free hs
  have hfi := h.free i hi1 hi2 hil
  cases hf : (List.range' 1 NoteSet.capacity).find?
      (fun i => (NoteSet.rd s.notes i).note == EMPTY_NOTE) with
  | none =>
    exfalso
    rw [List.find?_eq_none] at hf
    have := hf i (by rw [List.mem_range'_1]; simp [NoteSet.capacity, SET_SIZE]; omega)
    have e : (NoteSet.rd s.notes i).note = 255 := congrArg NoteInfo.note hfi
    simp [e, EMPTY_NOTE] at this
  | some f =>
    unfold NoteSet.find_free
    rw [hf]

theorem sorted_insert_writes_le (ns : List NoteInfo) (l : List Nat) (size n f : Nat) :
    ∀ j ∈ NoteSet.sorted_insert_writes ns l size n f, j ≤ size := by
  intro j hj
  unfold NoteSet.sorted_insert_writes at hj
  cases hf : (List.range size).find?
      (fun i => decide ((NoteSet.rd ns (l.getD i 0)).note > n)) with
  | none =>
    rw [hf] at hj
    simp only at hj
    split_ifs at hj
    · simp at hj; omega
    · simp at hj
  | some i =>
    rw [hf] at hj
    have hi := List.mem_of_find?_eq_some hf
    rw [List.mem_range] at hi
    simp only [List.mem_append, List.mem_reverse, List.mem_range'_1, List.mem_singleton] at hj
    omega

theorem sorted_remove_writes_lt (l : List Nat) (size c : Nat) :
    ∀ j ∈ NoteSet.sorted_remove_writes l size c, j + 1 < size := by
  intro j hj
  unfold NoteSet.sorted_remove_writes at hj
  cases hf : (List.range size).find? (fun i => l.getD i 0 == c) with
  | none =>
    rw [hf] at hj
    simp at hj
  | some i =>
    rw [hf] at hj
    simp only [List.mem_range'_1] at hj
    omega

theorem getD_set_ne (a : List Nat) (j k x : Nat) (h : j ≠ k) :
    (a.set j x).getD k 0 = a.getD k 0 := by
  simp [List.getElem?_set, h]

theorem foldr_set_frame (g : List Nat → Nat → Nat) (k : Nat) :
    ∀ (js : List Nat) (l : List Nat), k ∉ js →
    (js.foldr (fun j a => a.set j (g a j)) l).getD k 0 = l.getD k 0
  | [], _, _ => rfl
  | j :: js, l, h => by
    simp only [List.mem_cons, not_or] at h
    rw [List.foldr_cons, getD_set_ne _ _ _ _ (Ne.symm h.1)]
    exact foldr_set_frame g k js l h.2

theorem foldl_set_frame (g : List Nat → Nat → Nat) (k : Nat) :
    ∀ (js : List Nat) (l : List Nat), k ∉ js →
    (js.foldl (fun a j => a.set j (g a j)) l).getD k 0 = l.getD k 0
  | [], _, _ => rfl
  | j :: js, l, h => by
    simp only [List.mem_cons, not_or] at h
    rw [List.foldl_cons, foldl_set_frame g k js _ h.2, getD_set_ne _ _ _ _ (Ne.symm h.1)]

/-- The sorted insertion changes `sorted_idx` at the indices of
`sorted_insert_writes` only. -/
theorem sorted_insert_frame (ns : List NoteInfo) (l : List Nat) (size n f k : Nat)
    (hk : k ∉ NoteSet.sorted_insert_writes ns l size n f) :
    (NoteSet.sorted_insert ns l size n f).getD k 0 = l.getD k 0 := by
  unfold NoteSet.sorted_insert_writes at hk
  unfold NoteSet.sorted_insert
  cases hf : (List.range size).find?
      (fun i => decide ((NoteSet.rd ns (l.getD i 0)).note > n)) with
  | none =>
    rw [hf] at hk
    simp only at hk ⊢
    split_ifs at hk ⊢ with h0
    · simp only [List.mem_singleton] at hk
      exact getD_set_ne _ _ _ _ (Ne.symm hk)
    · rfl
  | some i =>
    rw [hf] at hk
    simp only [List.mem_append, List.mem_reverse, List.mem_singleton, not_or] at hk ⊢
    rw [getD_set_ne _ _ _ _ (Ne.symm hk.2)]
    unfold NoteSet.shift_right
    exact foldr_set_frame (fun a j => a.getD (j - 1) 0) k _ l hk.1

/-- The removal loop changes `sorted_idx` at the indices of
`sorted_remove_writes` only. -/
theorem sorted_remove_frame (l : List Nat) (size c k : Nat)
    (hk : k ∉ NoteSet.sorted_remove_writes l size c) :
    (NoteSet.sorted_remove l size c).getD k 0 = l.getD k 0 := by
  unfold NoteSet.sorted_remove_writes at hk
  unfold NoteSet.sorted_remove
  cases hf : (List.range size).find? (fun i => l.getD i 0 == c) with
  | none => rfl
  | some i =>
    rw [hf] at hk
    simp only at hk ⊢
    unfold NoteSet.shift_left
    exact foldl_set_frame (fun a j => a.getD (j + 1) 0) k _ l hk

/-- C19: `note_on` overwrites no held note and stays inside the arrays. For a
reachable state and any `note_on(p, v)`, with `s1` the state after the first
`note_off` and `s2` the state at the free-slot scan: (1) when the eviction
branch runs, the tail of the chain is the one slot of `1..capacity` with
`next_idx = 0` and the scan returns its pitch; (2) `s2.size < capacity`, the
free-slot scan stops at a slot of `1..capacity` that is free and off the chain,
and the insertion changes no other slot; (3) the sorted insertion writes
`sorted_idx` at indices `<= size <= capacity - 1`, inside its `capacity + 1`
entries, and changes no other entry; the removal loops write at indices below
`size - 1`. -/
theorem C19_note_on_in_range (s : NoteSet) (h : s.Reachable) (p v : Nat) :
    ∃ s1 s2, s.note_off p = some s1 ∧
      (if s1.size = NoteSet.capacity then s1.note_off (NoteSet.evict_scan s1.notes)
        else some s1) = some s2 ∧
      s.note_on p v = some (s2.note_on_insert p v) ∧
      (s1.size = NoteSet.capacity →
        ∃ t, s1.chain.getLast? = some t ∧
          (∀ i, 1 ≤ i → i ≤ NoteSet.capacity → ((s1.note i).next_idx = 0 ↔ i = t)) ∧
          NoteSet.evict_scan s1.notes = (s1.note t).note) ∧
      s2.size < NoteSet.capacity ∧
      (List.range' 1 NoteSet.capacity).find?
        (fun i => (NoteSet.rd s2.notes i).note == EMPTY_NOTE)
          = some (NoteSet.find_free s2.notes) ∧
      1 ≤ NoteSet.find_free s2.notes ∧ NoteSet.find_free s2.notes ≤ NoteSet.capacity ∧
      s2.note (NoteSet.find_free s2.notes) = ⟨EMPTY_NOTE, 0, 0⟩ ∧
      NoteSet.find_free s2.notes ∉ s2.chain ∧
      (∀ i, i ≠ NoteSet.find_free s2.notes → (s2.note_on_insert p v).note i = s2.note i) ∧
      (∀ j ∈ NoteSet.sorted_insert_writes (s2.note_on_insert p v).notes s2.sorted_idx s2.size p
          (NoteSet.find_free s2.notes), j ≤ s2.size) ∧
      (∀ k, k ∉ NoteSet.sorted_insert_writes (s2.note_on_insert p v).notes s2.sorted_idx s2.size
          p (NoteSet.find_free s2.notes) →
        (s2.note_on_insert p v).sorted_idx.getD k 0 = s2.sorted_idx.getD k 0) ∧
      s2.size ≤ NoteSet.capacity - 1 ∧
      s2.sorted_idx.length = NoteSet.capacity + 1 ∧
      (∀ c, ∀ j ∈ NoteSet.sorted_remove_writes s.sorted_idx s.size c, j + 1 < s.size) ∧
      (∀ c, ∀ j ∈ NoteSet.sorted_remove_writes s1.sorted_idx s1.size c, j + 1 < s1.size) ∧
      s.size ≤ NoteSet.capacity ∧ s1.size ≤ NoteSet.capacity := by
  obtain ⟨l, hl⟩ := reachable_rep h
  obtain ⟨s1, l1, e1, h1⟩ : ∃ s1 l1, s.note_off p = some s1 ∧ s1.Rep l1 :=
    (by
      rcases held_split s l p with hnp | ⟨la, c, lb, rfl, hc⟩
      · exact ⟨s, l, hl.note_off_miss hnp, hl⟩
      · exact ⟨_, _, hl.note_off_hit hc, hl.note_off_at_hit p hc⟩)
  have hcap : NoteSet.capacity = 10 := rfl
  obtain ⟨s2, l2, e2, h2, hs2, hev⟩ : ∃ s2 l2,
      (if s1.size = NoteSet.capacity then s1.note_off (NoteSet.evict_scan s1.notes)
        else some s1) = some s2 ∧ s2.Rep l2 ∧ s2.size < 10 ∧
      (s1.size = NoteSet.capacity →
        ∃ t, s1.chain.getLast? = some t ∧
          (∀ i, 1 ≤ i → i ≤ NoteSet.capacity → ((s1.note i).next_idx = 0 ↔ i = t)) ∧
          NoteSet.evict_scan s1.notes = (s1.note t).note) :=
    (by
      by_cases hs : s1.size = NoteSet.capacity
      · have hs10 : s1.size = 10 := hs
        rcases nil_or_snoc l1 with rfl | ⟨l0, t, rfl⟩
        · have := h1.size_eq
          simp at this; omega
        have ht0 : t ≠ 0 := by have := (h1.range t (by simp)).1; omega
        refine ⟨s1.note_off_at (s1.pitch t) t (lastD l0 0), l0, ?_, ?_, ?_, ?_⟩
        · rw [if_pos hs, h1.evict_scan_eq hs10, h1.note_off_hit rfl]
        · have := h1.note_off_at_hit (s1.pitch t) rfl
          rw [List.append_nil] at this
          exact this
        · rw [note_off_at_size s1 _ t _ ht0, hs10]; decide
        · intro _
          refine ⟨t, ?_, h1.one_tail hs10, h1.evict_scan_eq hs10⟩
          rw [h1.chain_eq, List.getLast?_concat]
      · refine ⟨s1, l1, by rw [if_neg hs], h1, ?_, fun e => absurd e hs⟩
        have := h1.size_le
        have hne : s1.size ≠ 10 := hs
        omega)
  obtain ⟨hf1, hf2, hfl, hff⟩ := h2.find_free_spec hs2
  refine ⟨s1, s2, e1, e2, ?_, hev, hs2, h2.find_free_found hs2, hf1, hf2, hff,
    by rw [h2.chain_eq]; exact hfl, fun i hi => note_on_insert_other s2 p v i hi,
    sorted_insert_writes_le _ _ _ _ _, fun k hk => sorted_insert_frame _ _ _ _ _ k hk,
    by rw [hcap]; omega, h2.wf_sorted,
    fun c => sorted_remove_writes_lt _ _ c, fun c => sorted_remove_writes_lt _ _ c,
    hl.size_le, h1.size_le⟩
  unfold NoteSet.note_on
  rw [e1]
  simp only
  rw [e2]

theorem C19_note_on_in_range_witness :
    exFull.Reachable ∧
    ∃ s1 s2, exFull.note_off 11 = some s1 ∧
      (if s1.size = NoteSet.capacity then s1.note_off (NoteSet.evict_scan s1.notes)
        else some s1) = some s2 ∧
      exFull.note_on 11 5 = some (s2.note_on_insert 11 5) ∧
      (s1.size = NoteSet.capacity →
        ∃ t, s1.chain.getLast? = some t ∧
          (∀ i, 1 ≤ i → i ≤ NoteSet.capacity → ((s1.note i).next_idx = 0 ↔ i = t)) ∧
          NoteSet.evict_scan s1.notes = (s1.note t).note) ∧
      s2.size < NoteSet.capacity ∧
      (List.range' 1 NoteSet.capacity).find?
        (fun i => (NoteSet.rd s2.notes i).note == EMPTY_NOTE)
          = some (NoteSet.find_free s2.notes) ∧
      1 ≤ NoteSet.find_free s2.notes ∧ NoteSet.find_free s2.notes ≤ NoteSet.capacity ∧
      s2.note (NoteSet.find_free s2.notes) = ⟨EMPTY_NOTE, 0, 0⟩ ∧
      NoteSet.find_free s2.notes ∉ s2.chain ∧
      (∀ i, i ≠ NoteSet.find_free s2.notes → (s2.note_on_insert 11 5).note i = s2.note i) ∧
      (∀ j ∈ NoteSet.sorted_insert_writes (s2.note_on_insert 11 5).notes s2.sorted_idx s2.size
          11 (NoteSet.find_free s2.notes), j ≤ s2.size) ∧
      (∀ k, k ∉ NoteSet.sorted_insert_writes (s2.note_on_insert 11 5).notes s2.sorted_idx
          s2.size 11 (NoteSet.find_free s2.notes) →
        (s2.note_on_insert 11 5).sorted_idx.getD k 0 = s2.sorted_idx.getD k 0) ∧
      s2.size ≤ NoteSet.capacity - 1 ∧
      s2.sorted_idx.length = NoteSet.capacity + 1 ∧
      (∀ c, ∀ j ∈ NoteSet.sorted_remove_writes exFull.sorted_idx exFull.size c,
        j + 1 < exFull.size) ∧
      (∀ c, ∀ j ∈ NoteSet.sorted_remove_writes s1.sorted_idx s1.size c, j + 1 < s1.size) ∧
      exFull.size ≤ NoteSet.capacity ∧ s1.size ≤ NoteSet.capacity :=
  ⟨exFull_reachable, C19_note_on_in_range exFull exFull_reachable 11 5⟩

theorem heldAfter_eq_call (L : List (Nat × Nat)) (o : Op) :
    heldAfter L o = ListModel.call L o := by
  cases o <;> rfl

/-- The held notes of a reachable state are the list model of its calls. -/
theorem reachedBy_model {ops : List Op} {s : NoteSet} (h : NoteSet.ReachedBy ops s) :
    s.held = ListModel.after ops := by
  induction h with
  | init s0 m hw => rw [(init_rep s0 m hw).held_eq]; rfl
  | step o hr hv hs ih =>
    obtain ⟨l, hl⟩ := reachedBy_rep hr
    rw [hl.held_step o hv hs, ih, heldAfter_eq_call]
    unfold ListModel.after
    rw [List.foldl_append]
    rfl

/-- C20: the tracker refines the bounded list model. After `init` and any
sequence of valid calls, with `L` the list the model gives for the same
sequence: `get_size()` is the length of `L`; the recency chain read from
`root_idx`, and likewise `played_note(size - 1)` down to `played_note(0)`,
gives exactly `L` as `(note, velocity)` pairs; and `sorted_note(0)`, ..,
`sorted_note(size - 1)` gives the elements of `L` in strictly increasing pitch
order. -/
theorem C20_refines_list_model (ops : List Op) (s : NoteSet)
    (h : NoteSet.ReachedBy ops s) :
    s.get_size = (ListModel.after ops).length ∧
    s.held = ListModel.after ops ∧
    (List.range s.get_size).map (fun r => s.vals (s.played_note (s.get_size - 1 - r)))
      = ListModel.after ops ∧
    ((List.range s.get_size).map (fun r => s.vals (s.sorted_note r))).Perm
      (ListModel.after ops) ∧
    ((List.range s.get_size).map (fun r => s.vals (s.sorted_note r))).Pairwise
      (fun a b => a.1 < b.1) := by
  obtain ⟨l, hl⟩ := reachedBy_rep h
  have hm := reachedBy_model h
  have hlen := hl.size_eq
  have hsorted : (List.range s.get_size).map (fun r => s.vals (s.sorted_note r))
      = (s.sorted_idx.take s.size).map s.vals := by
    rw [← hl.sorted_slots_eq]
    unfold NoteSet.sorted_slots
    rw [List.map_map]
    rfl
  rw [hsorted, ← hm]
  refine ⟨hl.held_length.symm, rfl, ?_, ?_, ?_⟩
  · rw [hl.held_eq]
    apply List.ext_getElem
    · simp [NoteSet.get_size, hlen]
    · intro i h1 h2
      have hi : i < s.size := by simpa [NoteSet.get_size] using h1
      have hi2 : s.size - 1 - i < s.size := by omega
      rw [List.getElem_map, List.getElem_range, List.getElem_map]
      show s.vals (s.played_note (s.size - 1 - i)) = _
      rw [hl.played_note_eq hi2, List.getD_eq_getElem l 0 (by omega)]
      congr 2
      omega
  · rw [hl.held_eq]
    exact hl.perm.map _
  · have := hl.sorted
    rw [List.pairwise_map] at this ⊢
    exact this

theorem C20_refines_list_model_witness :
    NoteSet.ReachedBy [.note_on 72 1, .note_on 60 1, .note_on 67 1] exLow ∧
    (exLow.get_size = (ListModel.after [.note_on 72 1, .note_on 60 1, .note_on 67 1]).length ∧
    exLow.held = ListModel.after [.note_on 72 1, .note_on 60 1, .note_on 67 1] ∧
    (List.range exLow.get_size).map
        (fun r => exLow.vals (exLow.played_note (exLow.get_size - 1 - r)))
      = ListModel.after [.note_on 72 1, .note_on 60 1, .note_on 67 1] ∧
    ((List.range exLow.get_size).map (fun r => exLow.vals (exLow.sorted_note r))).Perm
      (ListModel.after [.note_on 72 1, .note_on 60 1, .note_on 67 1]) ∧
    ((List.range exLow.get_size).map (fun r => exLow.vals (exLow.sorted_note r))).Pairwise
      (fun a b => a.1 < b.1)) :=
  ⟨reachedBy_run _ [] _ exLow (NoteSet.ReachedBy.init ex0 2 (by decide)) (by decide)
      (by decide),
    C20_refines_list_model _ exLow
      (reachedBy_run _ [] _ exLow (NoteSet.ReachedBy.init ex0 2 (by decide)) (by decide)
        (by decide))⟩
